import Mathlib

/-!
# atheme services: command tree, dispatcher, tokenizer and module loader

A shallow embedding of `src/commandtree.c` and `src/module.c`, and of the
`AJOIN` command of `contrib/ns_ajoin.c`.

* C strings are lists of characters (the bytes before the terminating NUL);
  a `char *` that may be `NULL` is an `Option`.
* Pointers to `command_t` and `module_t` objects are natural numbers; the
  objects themselves live in a store that is passed explicitly.
* A `list_t` is the list of its nodes' `data` pointers, head first.
-/

set_option autoImplicit false

/-! ## C strings -/

/-- The bytes of a C string, without the terminating NUL. -/
abbrev cstr := List Char

/-- The libc `tolower` in the C locale, as a character code. -/
def tolower (c : Char) : Int :=
  if 'A' ≤ c ∧ c ≤ 'Z' then (c.toNat : Int) + 32 else (c.toNat : Int)

/-- The libc `strcasecmp`: difference of the first pair of characters that
differ after `tolower`, `0` when the strings agree up to letter case. -/
def strcasecmp : cstr → cstr → Int
  | [], [] => 0
  | [], b :: _ => 0 - tolower b
  | a :: _, [] => tolower a
  | a :: as, b :: bs => if tolower a = tolower b then strcasecmp as bs else tolower a - tolower b

/-- The libc `strtok`.  `s` is the first argument (`none` for `NULL`), `save`
the text at the saved position of the previous call.  The result is the token
(or `none` for `NULL`) and the text at the new saved position: a token that is
ended by a delimiter has this delimiter overwritten with NUL and the saved
position is right behind it. -/
def strtok (s : Option cstr) (delim : cstr) (save : cstr) : Option cstr × cstr :=
  match (s.getD save).dropWhile (fun c => delim.contains c) with
  | [] => (none, [])
  | c :: cs =>
    match (c :: cs).dropWhile (fun x => !delim.contains x) with
    | [] => (some ((c :: cs).takeWhile (fun x => !delim.contains x)), [])
    | _ :: rest => (some ((c :: cs).takeWhile (fun x => !delim.contains x)), rest)

/-! ## Tokenizer (`text_to_parv`, commandtree.c 276-307) -/

/-- The loop `while (count < maxparc - 1 && (parv[count] = strtok(p, " ")) != NULL)
count++, p = NULL;`.  The first argument is `maxparc - 1 - count`, the number
of iterations the first conjunct still allows; `parv` holds the `count` tokens
stored so far.  The result is `parv`, `p` and the `strtok` position at loop
exit. -/
def text_to_parv_loop : Nat → Option cstr → cstr → List cstr → List cstr × Option cstr × cstr
  | 0, p, save, parv => (parv, p, save)
  | k + 1, p, save, parv =>
    match strtok p [' '] save with
    | (none, save1) => (parv, p, save1)
    | (some tok, save1) => text_to_parv_loop k none save1 (parv ++ [tok])

/-- The loop `while (*p == ' ' && p > parv[count]) p--;` started at index `i`
of the string `s` that begins at `parv[count]`: the index at which it stops. -/
def trim_back (s : cstr) : Nat → Nat
  | 0 => 0
  | i + 1 => if s[i + 1]? = some ' ' then trim_back s i else i + 1

/-- The part of `text_to_parv` after the loop (lines 291-306): the remainder
slot. -/
def text_to_parv_rest : List cstr × Option cstr × cstr → List cstr
  | (parv, p, save) =>
    match (strtok p [] save).1 with
    | none => parv
    | some last =>
      match last.dropWhile (fun c => c == ' ') with
      | [] => parv
      | c :: cs => parv ++ [(c :: cs).take (trim_back (c :: cs) cs.length + 1)]

/-- The function `text_to_parv(text, maxparc, parv)`: the returned count is the
length of the result, the result the first `count` entries of `parv`.  The
`int` value `maxparc - 1` is taken as an integer (it overflows for no
`maxparc` but `INT_MIN`). -/
def text_to_parv (text : Option cstr) (maxparc : Int) : List cstr :=
  if maxparc = 0 then []
  else
    match text with
    | none => []
    | some t => text_to_parv_rest (text_to_parv_loop (maxparc - 1).toNat (some t) [] [])

/-! ### Reference tokenizer, written from the specification -/

/-- The maximal space-free words of a text, the word being read in `cur`. -/
def spec_words_from : cstr → cstr → List cstr
  | [], cur => if cur = [] then [] else [cur]
  | c :: cs, cur =>
    if c = ' ' then (if cur = [] then spec_words_from cs [] else cur :: spec_words_from cs [])
    else spec_words_from cs (cur ++ [c])

/-- The maximal space-free words of a text, in order. -/
def spec_words (text : cstr) : List cstr := spec_words_from text []

/-- The remainder of a text after its `k`-th word. -/
def spec_rest_after : Nat → cstr → cstr
  | 0, t => t
  | k + 1, t => spec_rest_after k ((t.dropWhile (fun c => c == ' ')).dropWhile (fun c => c != ' '))

/-- A text with all leading and trailing spaces removed. -/
def spec_trim (t : cstr) : cstr :=
  (t.dropWhile (fun c => c == ' ')).rdropWhile (fun c => c == ' ')

/-- The tokenizer as the specification words it: the words of the text if
there are fewer than `maxArgs`, else the first `maxArgs - 1` words and the
trimmed remainder. -/
def spec_tokenize (text : cstr) (maxArgs : Nat) : List cstr :=
  if (spec_words text).length < maxArgs then spec_words text
  else (spec_words text).take (maxArgs - 1) ++ [spec_trim (spec_rest_after (maxArgs - 1) text)]

/-- A word: not empty and without a space. -/
def is_word (w : cstr) : Prop := w ≠ [] ∧ ' ' ∉ w

/-- A trimmed remainder: not empty, neither beginning nor ending with a space. -/
def is_trimmed (w : cstr) : Prop := w ≠ [] ∧ w.head? ≠ some ' ' ∧ w.getLast? ≠ some ' '


/-! ## Command tree and dispatcher (commandtree.c 29-147) -/

/-- A pointer to a `command_t` object. -/
abbrev cmdptr := Nat

/-- The `command_t` record, fields in the order of the initialisers in
`modules/chanserv/kick.c`: name, help summary, required privilege (`AC_NONE`
is `NULL`), maximum argument count, handler (a function pointer, here the
number that identifies the function). -/
structure command_t where
  name : cstr
  desc : cstr
  access : Option cstr
  maxparc : Int
  cmd : Nat
  deriving DecidableEq

/-- The store of `command_t` objects: what each pointer points to. -/
abbrev cmdstore := cmdptr → command_t

/-- The handler `cs_cmd_kick` of `modules/chanserv/kick.c`, as a function
pointer. -/
def cs_cmd_kick : Nat := 1

/-- The object `cs_kick` of `modules/chanserv/kick.c` 22-23. -/
def cs_kick : command_t :=
  { name := "KICK".toList, desc := "Removes a user from a channel.".toList,
    access := none, maxparc := 3, cmd := cs_cmd_kick }

/-- Modelled from the spec: `node_find` of the list library, whose source is
not part of the repository extract.  The node of the list whose data pointer is
`data`, first match from the head; a node is named by its position. -/
def node_find (data : Nat) (l : List Nat) : Option Nat :=
  if l.indexOf data < l.length then some (l.indexOf data) else none

/-- Modelled from the spec: `node_add` of the list library (not part of the
extract): the command tree "appends, preserving insertion order", so the new
node goes behind the tail. -/
def node_add (data : Nat) (l : List Nat) : List Nat := l ++ [data]

/-- Modelled from the spec: `node_del` of the list library (not part of the
extract): unlinks the node `n` from the list. -/
def node_del (n : Nat) (l : List Nat) : List Nat := l.eraseIdx n

/-- The function `command_add(cmd, commandtree)`: the tree afterwards. -/
def command_add (cmd : cmdptr) (commandtree : List cmdptr) : List cmdptr :=
  match node_find cmd commandtree with
  | some _ => commandtree
  | none => node_add cmd commandtree

/-- The function `command_delete(cmd, commandtree)`: the tree afterwards. -/
def command_delete (cmd : cmdptr) (commandtree : List cmdptr) : List cmdptr :=
  match node_find cmd commandtree with
  | none => commandtree
  | some n => node_del n commandtree

/-- The function `command_find(commandtree, command)`. -/
def command_find (mem : cmdstore) (commandtree : List cmdptr) (command : cstr) : Option cmdptr :=
  commandtree.find? (fun c => strcasecmp command (mem c).name == 0)

/-- A caller (`sourceinfo_t *`), opaque to the dispatcher. -/
abbrev sourceinfo_t := Nat

/-- The privilege oracle of `privs.h`, whose source is not part of the
extract: `has_priv(si, priv)` and `has_any_privs(si)`. -/
structure privs_t where
  has_priv : sourceinfo_t → Option cstr → Bool
  has_any_privs : sourceinfo_t → Bool

/-- What the dispatcher does that a caller can observe. -/
inductive effect_t where
  /-- The call `c->cmd(si, parc, parv)` of the handler `cmd`. -/
  | handler (cmd : Nat) (si : sourceinfo_t) (parc : Nat) (parv : List (Option cstr))
  /-- The call `command_fail(si, fault_noprivs, "You do not have %s privilege.", access)`. -/
  | fail_noprivs_priv (si : sourceinfo_t) (access : Option cstr)
  /-- The call `command_fail(si, fault_noprivs, "You are not authorized to perform this operation.")`. -/
  | fail_noprivs_unauthorized (si : sourceinfo_t)
  /-- The call `notice(..., "Invalid command. Use /msg %s help for a command listing.")`. -/
  | notice_invalid_command (si : sourceinfo_t)
  deriving DecidableEq

/-- Whether an effect is a handler invocation. -/
def effect_t.is_handler : effect_t → Bool
  | .handler _ _ _ _ => true
  | _ => false

/-- The function `command_exec(svs, si, c, parc, parv)`. -/
def command_exec (privs : privs_t) (si : sourceinfo_t) (c : command_t) (parc : Nat)
    (parv : List (Option cstr)) : List effect_t :=
  if privs.has_priv si c.access then [effect_t.handler c.cmd si parc parv]
  else if privs.has_any_privs si then [effect_t.fail_noprivs_priv si c.access]
  else [effect_t.fail_noprivs_unauthorized si]

/-- The highest index of `parv` that `text_to_parv(text, maxparc, parv)` stores
to, or `none` if it stores nothing (the two early returns).  This is the value
of `count` when the loop ends: the loop stores to `parv[count]` each time its
first test `count < maxparc - 1` holds, and the statement behind the loop
stores `strtok(p, "")` to `parv[count]` whether that is a token or `NULL`. -/
def text_to_parv_top (text : Option cstr) (maxparc : Int) : Option Nat :=
  if maxparc = 0 then none
  else
    match text with
    | none => none
    | some t => some (text_to_parv_loop (maxparc - 1).toNat (some t) [] []).1.length

/-- Whether `text_to_parv(text, maxparc, parv)` stores past the end of the
array `char *parv[20]` of `command_exec_split`, that is to `parv[20]` or
beyond. -/
def parv_overrun (text : Option cstr) (maxparc : Int) : Bool :=
  match text_to_parv_top text maxparc with
  | some top => decide (20 ≤ top)
  | none => false

/-- The 20 entries of the array `char *parv[20]` of `command_exec_split` after
`text_to_parv` has stored its tokens, none of them past the end, and the loop
`for (i = parc; i < 20; i++) parv[i] = NULL` has run. -/
def parv_fill (tokens : List cstr) : List (Option cstr) :=
  (tokens.map some ++ List.replicate (20 - tokens.length) none).take 20

/-- The function `command_exec_split(svs, si, cmd, text, commandtree)`: what it
does, or `none` if `text_to_parv` stores past the end of `parv`, which is
undefined behaviour and comes before the privilege check of `command_exec`. -/
def command_exec_split (privs : privs_t) (mem : cmdstore) (si : sourceinfo_t) (cmd : cstr)
    (text : Option cstr) (commandtree : List cmdptr) : Option (List effect_t) :=
  match command_find mem commandtree cmd with
  | some c =>
    if parv_overrun text (mem c).maxparc then none
    else
      some (command_exec privs si (mem c) (text_to_parv text (mem c).maxparc).length
        (parv_fill (text_to_parv text (mem c).maxparc)))
  | none => some [effect_t.notice_invalid_command si]

/-- One registration or removal on a command tree. -/
inductive tree_op where
  | add (cmd : cmdptr)
  | delete (cmd : cmdptr)

/-- A sequence of `command_add` and `command_delete` calls, applied in order. -/
def apply_tree_ops : List tree_op → List cmdptr → List cmdptr
  | [], tree => tree
  | tree_op.add cmd :: ops, tree => apply_tree_ops ops (command_add cmd tree)
  | tree_op.delete cmd :: ops, tree => apply_tree_ops ops (command_delete cmd tree)

/-- A store with two distinct command objects of the same name: `cs_kick` at
address 1 and a second `KICK` command, with another handler, at address 2. -/
def two_kicks : cmdstore := fun p =>
  if p = 1 then cs_kick
  else { name := "KICK".toList, desc := "Another kick.".toList, access := none, maxparc := 2, cmd := 7 }

/-! ### Names ignoring letter case -/

/-- Two characters that are the same up to letter case: the same character, or
an upper-case letter `A`-`Z` and its lower-case form. -/
def same_letter (x y : Char) : Prop :=
  x = y ∨ (65 ≤ x.toNat ∧ x.toNat ≤ 90 ∧ y.toNat = x.toNat + 32) ∨
    (65 ≤ y.toNat ∧ y.toNat ≤ 90 ∧ x.toNat = y.toNat + 32)

/-- Two names that are equal ignoring letter case: same length, and the same
letter up to case at every position. -/
def eq_ignoring_case (a b : cstr) : Prop := List.Forall₂ same_letter a b

/-- A C string holds no NUL character. -/
def cstr_ok (s : cstr) : Prop := ∀ c ∈ s, c.toNat ≠ 0

/-! ### The argument vector of the dispatcher -/

/-- The loop `for (i = parc; i < 20; i++) parv[i] = NULL` of
`command_exec_split`, at index `i` with `k` iterations to go. -/
def parv_clear : Nat → Nat → List (Option cstr) → List (Option cstr)
  | 0, _, parv => parv
  | k + 1, i, parv => parv_clear k (i + 1) (parv.set i none)

/-- The array `char *parv[20]` after `text_to_parv` has stored `tokens` in its
first entries: `old` is what the 20 entries held before (the array is not
initialised) and what `text_to_parv` left behind the tokens. -/
def parv_store (old : List (Option cstr)) (tokens : List cstr) : List (Option cstr) :=
  tokens.map some ++ old.drop tokens.length

/-! ### Help listing (`command_help`, commandtree.c 160-179) -/

/-- The calls of `command_success_nodata` that the help functions make. -/
inductive help_line_t where
  /-- The line "The following commands are available:". -/
  | commands_available
  /-- The line "The following subcommands are available:". -/
  | subcommands_available
  /-- The line `"\2%-15s\2 %s"` with a command name and its translated help
  summary. -/
  | entry (name desc : cstr)
  /-- The line `"%s"` with the text given (`command_help_short`). -/
  | text (line : cstr)
  deriving DecidableEq

/-- The loop `LIST_FOREACH(n, commandtree->head)` of `command_help`.
`translation_get` is the translation of a help summary, which lies outside
`commandtree.c`. -/
def command_help_loop (privs : privs_t) (translation_get : cstr → cstr) (mem : cmdstore)
    (si : sourceinfo_t) : List cmdptr → List help_line_t
  | [] => []
  | c :: rest =>
    if privs.has_priv si (mem c).access then
      help_line_t.entry (mem c).name (translation_get (mem c).desc) ::
        command_help_loop privs translation_get mem si rest
    else command_help_loop privs translation_get mem si rest

/-- The function `command_help(si, commandtree)`.  `main` is the value of the
test `si->service == NULL || si->service->cmdtree == commandtree`. -/
def command_help (privs : privs_t) (translation_get : cstr → cstr) (mem : cmdstore)
    (si : sourceinfo_t) (main : Bool) (commandtree : List cmdptr) : List help_line_t :=
  (if main then help_line_t.commands_available else help_line_t.subcommands_available) ::
    command_help_loop privs translation_get mem si commandtree

/-! ### Short help listing (`command_help_short`, commandtree.c 182-274) -/

/-- The libc `strncasecmp`: `strcasecmp` on at most `n` characters. -/
def strncasecmp : cstr → cstr → Nat → Int
  | _, _, 0 => 0
  | [], [], _ + 1 => 0
  | [], b :: _, _ + 1 => 0 - tolower b
  | a :: _, [], _ + 1 => tolower a
  | a :: as, b :: bs, n + 1 =>
    if tolower a = tolower b then strncasecmp as bs n else tolower a - tolower b

/-- The loop `while (*str != '\0')` of `string_in_list`; the first argument
bounds the number of iterations.  `n` is `p - str` for `p = strchr(str, ' ')`,
which is `NULL` when `n` is the length of `str`. -/
def string_in_list_loop (name : cstr) : Nat → cstr → Bool
  | 0, _ => false
  | k + 1, str =>
    if str = [] then false
    else
      let n := (str.takeWhile (fun c => c != ' ')).length
      if n < str.length then
        if n = name.length && strncasecmp str name n == 0 then true
        else string_in_list_loop name k ((str.drop n).dropWhile (fun c => c == ' '))
      else strcasecmp str name == 0

/-- The function `string_in_list(str, name)`.  Every iteration of its loop
moves `str` forward, so the length of `str` bounds the iterations. -/
def string_in_list (str : Option cstr) (name : cstr) : Bool :=
  match str with
  | none => false
  | some s => string_in_list_loop name (s.length + 1) s

/-- The string `strlcpy(dst, src, size)` leaves in `dst`. -/
def strlcpy (src : cstr) (size : Nat) : cstr := src.take (size - 1)

/-- The string `strlcat(dst, src, size)` leaves in `dst`. -/
def strlcat (dst src : cstr) (size : Nat) : cstr := dst ++ src.take (size - 1 - dst.length)

/-- The count `lv` of lines 243-248: the characters of `buf` that are no
control characters `'\1'` to `'\37'`. -/
def visible_count (buf : cstr) : Nat :=
  (buf.filter (fun c => !(decide (1 ≤ c.toNat) && decide (c.toNat < 32)))).length

/-- The body of the second loop of `command_help_short` (lines 258-270) for a
command that is listed there: the lines sent so far, `buf` and `l`; `lv` is
the same after the body as before it.  The result is `none` if `lv` is zero
when a line is flushed: then `--lv` wraps around and the loop `while (--lv > 0)
buf[lv] = ' '` writes outside `buf`. -/
def help_short_add (lv : Nat) (name : cstr) :
    List help_line_t × cstr × Nat → Option (List help_line_t × cstr × Nat)
  | (out, buf, l) =>
    if (if buf.length > l then strlcat buf ", ".toList 256 else buf).length > 55 then
      if lv = 0 then none
      else
        some (out ++ [help_line_t.text (if buf.length > l then strlcat buf ", ".toList 256 else buf)],
          strlcat (List.replicate lv ' ') name 256, lv)
    else some (out, strlcat (if buf.length > l then strlcat buf ", ".toList 256 else buf) name 256, l)

/-- The first loop of `command_help_short` (lines 229-238). -/
def command_help_short_main (privs : privs_t) (translation_get : cstr → cstr) (mem : cmdstore)
    (si : sourceinfo_t) (maincmds : Option cstr) : List cmdptr → List help_line_t
  | [] => []
  | c :: rest =>
    if string_in_list maincmds (mem c).name && privs.has_priv si (mem c).access then
      help_line_t.entry (mem c).name (translation_get (mem c).desc) ::
        command_help_short_main privs translation_get mem si maincmds rest
    else command_help_short_main privs translation_get mem si maincmds rest

/-- The second loop of `command_help_short` (lines 249-271). -/
def command_help_short_other (privs : privs_t) (mem : cmdstore) (si : sourceinfo_t)
    (maincmds : Option cstr) (lv : Nat) :
    List cmdptr → List help_line_t × cstr × Nat → Option (List help_line_t × cstr × Nat)
  | [], st => some st
  | c :: rest, st =>
    if !string_in_list maincmds (mem c).name && privs.has_priv si (mem c).access then
      match help_short_add lv (mem c).name st with
      | none => none
      | some st1 => command_help_short_other privs mem si maincmds lv rest st1
    else command_help_short_other privs mem si maincmds lv rest st

/-- The text `"\2Other commands:\2 "` that `command_help_short` passes to
`translation_get`. -/
def other_commands : cstr :=
  [Char.ofNat 2] ++ "Other commands:".toList ++ [Char.ofNat 2] ++ " ".toList

/-- The function `command_help_short(si, commandtree, maincmds)`: the lines it
sends, or `none` if it writes outside `buf`.  `main` is the value of the test
`si->service == NULL || si->service->cmdtree == commandtree`. -/
def command_help_short (privs : privs_t) (translation_get : cstr → cstr) (mem : cmdstore)
    (si : sourceinfo_t) (main : Bool) (commandtree : List cmdptr) (maincmds : Option cstr) :
    Option (List help_line_t) :=
  match command_help_short_other privs mem si maincmds
      (visible_count (strlcpy (translation_get other_commands) 256)) commandtree
      ([], strlcpy (translation_get other_commands) 256,
        (strlcpy (translation_get other_commands) 256).length) with
  | none => none
  | some (out, buf, l) =>
    some ((if main then help_line_t.commands_available else help_line_t.subcommands_available) ::
      command_help_short_main privs translation_get mem si maincmds commandtree ++
      [help_line_t.text " ".toList] ++ out ++
      (if buf.length > l then [help_line_t.text buf] else []))

/-! ### The shape of the block of other commands -/

/-- Names joined by `", "`. -/
def join_names (names : List cstr) : cstr := List.intercalate ", ".toList names

/-- The lines of a block of names in groups, one line a group: the first line
begins with `pre`, the later ones with `indent`, and every line but the last
ends in `", "`. -/
def block_lines (pre indent : cstr) : List (List cstr) → List cstr
  | [] => []
  | [g] => [pre ++ join_names g]
  | g :: g2 :: gs => (pre ++ join_names g ++ ", ".toList) :: block_lines indent indent (g2 :: gs)

/-- A name goes onto a line that has names only while the line, with the
`", "` behind its last name, has at most 55 characters. -/
def line_fits (pre : cstr) (g : List cstr) : Prop :=
  ∀ k, 0 < k → k < g.length → (pre ++ join_names (g.take k) ++ ", ".toList).length ≤ 55

/-- The groups of a wrapped block: no group is empty, names are added to a
line only while it fits, and every line but the last has more than 55
characters when it is flushed. -/
def groups_ok (pre indent : cstr) : List (List cstr) → Prop
  | [] => True
  | [g] => g ≠ [] ∧ line_fits pre g
  | g :: g2 :: gs =>
    g ≠ [] ∧ line_fits pre g ∧ 55 < (pre ++ join_names g ++ ", ".toList).length ∧
      groups_ok indent indent (g2 :: gs)

/-- The names of the commands of a tree that the second loop of
`command_help_short` lists. -/
def other_names (privs : privs_t) (mem : cmdstore) (si : sourceinfo_t) (maincmds : Option cstr)
    (commandtree : List cmdptr) : List cstr :=
  (commandtree.filter (fun c =>
    !string_in_list maincmds (mem c).name && privs.has_priv si (mem c).access)).map
      (fun c => (mem c).name)

/-- A privilege oracle that grants everything. -/
def privs_all : privs_t := { has_priv := fun _ _ => true, has_any_privs := fun _ => true }

/-- A store whose commands all have a name of 250 letters. -/
def long_names : cmdstore := fun _ =>
  { name := List.replicate 250 'A', desc := "A command.".toList, access := none, maxparc := 1,
    cmd := 1 }

/-- A store with the commands `HELP` (address 1), `KICK`, `OP`, `DEOP`,
`VOICE`, `DEVOICE`, `INVITE`, `UNBAN`, `TOPIC` (addresses 2 to 9), all without
a required privilege. -/
def nine_commands : cmdstore := fun p =>
  { name :=
      match p with
      | 1 => "HELP".toList
      | 2 => "KICK".toList
      | 3 => "OP".toList
      | 4 => "DEOP".toList
      | 5 => "VOICE".toList
      | 6 => "DEVOICE".toList
      | 7 => "INVITE".toList
      | 8 => "UNBAN".toList
      | _ => "TOPIC".toList,
    desc := "A command.".toList, access := none, maxparc := 1, cmd := p }

/-- The second loop of `command_help_short` over the names it lists. -/
def help_short_block (lv : Nat) :
    List cstr → List help_line_t × cstr × Nat → Option (List help_line_t × cstr × Nat)
  | [], st => some st
  | x :: ns, st =>
    match help_short_add lv x st with
    | none => none
    | some st1 => help_short_block lv ns st1

/-! ### A command with more arguments than the argument vector has slots -/

/-- A store whose commands are all `WIDE`, with a maximum argument count of
21. -/
def wide_commands : cmdstore := fun _ =>
  { name := "WIDE".toList, desc := "A command with 21 arguments.".toList, access := none,
    maxparc := 21, cmd := 9 }

/-- An argument text of 21 words. -/
def words_21 : cstr := "a b c d e f g h i j k l m n o p q r s t u".toList

/-- An argument text of 20 words. -/
def words_20 : cstr := "a b c d e f g h i j k l m n o p q r s t".toList

/-! ## Module loader (module.c) -/

/-- A pointer to a `module_t` object (a block of `module_heap`). -/
abbrev modptr := Nat

/-- What an init callback `modinit(m)` does, as far as the module loader is
concerned: the calls it makes into the loader, each continuation taking the
value the call returned, and the stores to `m->mflags`. -/
inductive modinit_t where
  /-- The callback returns. -/
  | done
  /-- The store `m->mflags = v`. -/
  | set_mflags (v : Nat) (k : modinit_t)
  /-- The call `module_locate_symbol(modname, sym)`. -/
  | locate_symbol (modname sym : cstr) (k : Option Nat → modinit_t)
  /-- The call `module_load(filespec)`. -/
  | load (filespec : cstr) (k : Option modptr → modinit_t)
  /-- The call `module_request(name)`. -/
  | request (name : cstr) (k : Bool → modinit_t)

/-- The header `v2_moduleheader_t` that a code object exports as `_header`.
`modinit` and `deinit` are function pointers and may be `NULL`; a `deinit`
function is named by a number. -/
structure v2_moduleheader_t where
  atheme_mod : Nat
  abi_ver : Nat
  abi_rev : Nat
  name : cstr
  modinit : Option modinit_t
  deinit : Option Nat

/-- The record `module_t`.  The lists `deplist` (modules this one requires) and
`dephost` (modules that require this one) hold `module_t` pointers. -/
structure module_t where
  modpath : cstr
  handle : Nat
  mflags : Nat
  header : v2_moduleheader_t
  deplist : List modptr
  dephost : List modptr

/-- Modelled from the spec: the lifecycle flag `standard` of the absent
header, `MODTYPE_STANDARD`. -/
def MODTYPE_STANDARD : Nat := 0

/-- Modelled from the spec: the lifecycle flag `failed-init` of the absent
header, `MODTYPE_FAIL`. -/
def MODTYPE_FAIL : Nat := 0x8000

/-- What lies outside `module.c`: the dynamic linker and the constants of the
absent headers.  `linker_open_ext` returns a handle or `NULL`; `header` is
`linker_getsym(handle, "_header")`, the header the symbol points to;
`linker_getsym` is the lookup of any other symbol. -/
structure env_t where
  linker_open_ext : cstr → Option Nat
  header : Nat → Option v2_moduleheader_t
  linker_getsym : Nat → cstr → Option Nat
  MAPI_ATHEME_MAGIC : Nat
  MAPI_ATHEME_V2 : Nat
  CURRENT_ABI_REVISION : Nat
  MODDIR : cstr
  BUFSIZE : Nat

/-- The messages `module.c` passes to `slog`. -/
inductive logmsg_t where
  | already_loaded
  | open_error
  | incompatible_module
  | mapi_version_mismatch (have_ want : Nat)
  | abi_revision_mismatch (have_ want : Nat)
  | published_name_exists
  | init_failed
  | loaded
  | unloaded
  | not_loaded
  | dependency_added
  | symbol_not_found
  /-- The message of `module_load_dir` and `module_load_dir_match` when
  `opendir` fails. -/
  | opendir_error
  deriving DecidableEq

/-- What the module loader does to the world around it, in order. -/
inductive event_t where
  | slog (msg : logmsg_t)
  /-- The call `linker_open_ext(filespec)`. -/
  | linker_open_ext (filespec : cstr)
  /-- The call `linker_close(handle)`. -/
  | linker_close (handle : Nat)
  /-- The call `h->modinit(m)`. -/
  | modinit (m : modptr)
  /-- The call `m->header->deinit()`, `fn` being the function called. -/
  | deinit (m : modptr) (fn : Nat)
  /-- The call `BlockHeapFree(module_heap, m)`. -/
  | block_free (m : modptr)
  deriving DecidableEq

/-- Whether an event is the invocation of an init or deinit callback. -/
def event_t.is_callback : event_t → Bool
  | .modinit _ => true
  | .deinit _ _ => true
  | _ => false

/-- The globals of `module.c` as a callback can see them: the list `modules`,
`modtarget`, and the `module_t` objects that are allocated (`none`: the block
is free). -/
structure registry_t where
  modules : List modptr
  modtarget : Option modptr
  heap : modptr → Option module_t

/-- The state of the module loader: its globals, the next block that
`BlockHeapAlloc` hands out (blocks are not reused), the events so far, and the
registry as it was each time control passed to a callback. -/
structure mstate where
  modules : List modptr
  modtarget : Option modptr
  heap : modptr → Option module_t
  brk : modptr
  trace : List event_t
  seen : List registry_t

/-- The outcome of running loader code: a result, or undefined behaviour (a
freed `module_t` or list node is dereferenced), or no result within the given
number of nested calls; the latter two with the state the run had reached. -/
inductive res_t (α : Type) where
  | ok (a : α)
  | undefined (s : mstate)
  | out_of_fuel (s : mstate)

/-- The result, if there is one. -/
def res_t.get? {α : Type} : res_t α → Option α
  | .ok a => some a
  | _ => none

/-- Whether the run hit undefined behaviour. -/
def res_t.is_undefined {α : Type} : res_t α → Bool
  | .undefined _ => true
  | _ => false

/-- Whether the run needs more nested calls than were allowed. -/
def res_t.is_out_of_fuel {α : Type} : res_t α → Bool
  | .out_of_fuel _ => true
  | _ => false

/-- The state after `modules_init`: nothing loaded. -/
def mstate.init : mstate :=
  { modules := [], modtarget := none, heap := fun _ => none, brk := 1, trace := [], seen := [] }

/-- The globals of a state. -/
def mstate.view (s : mstate) : registry_t :=
  { modules := s.modules, modtarget := s.modtarget, heap := s.heap }

/-- An event that is no callback. -/
def mstate.emit (s : mstate) (e : event_t) : mstate :=
  { s with trace := s.trace ++ [e] }

/-- Control passes to a callback (or back to it): the globals are seen. -/
def mstate.observe (s : mstate) : mstate :=
  { s with seen := s.seen ++ [s.view] }

/-- The objects after a store to the fields of the object `p` points to. -/
def heap_update (heap : modptr → Option module_t) (p : modptr) (f : module_t → module_t) :
    modptr → Option module_t :=
  fun q => if q = p then (heap q).map f else heap q

/-- The objects after `BlockHeapFree(module_heap, p)`. -/
def heap_free (heap : modptr → Option module_t) (p : modptr) : modptr → Option module_t :=
  fun q => if q = p then none else heap q

/-- The objects after the block `p` has been allocated and filled in. -/
def heap_alloc (heap : modptr → Option module_t) (p : modptr) (r : module_t) :
    modptr → Option module_t :=
  fun q => if q = p then some r else heap q

/-- A store to the fields of the object `p` points to. -/
def mstate.update (s : mstate) (p : modptr) (f : module_t → module_t) : mstate :=
  { s with heap := heap_update s.heap p f }

/-- The function `module_find(name)`. -/
def module_find (s : mstate) (name : cstr) : Option modptr :=
  s.modules.find? (fun m =>
    match s.heap m with
    | some r => strcasecmp r.modpath name == 0
    | none => false)

/-- The function `module_find_published(name)`. -/
def module_find_published (s : mstate) (name : cstr) : Option modptr :=
  s.modules.find? (fun m =>
    match s.heap m with
    | some r => strcasecmp r.header.name name == 0
    | none => false)

/-- Lines 336-342 of `module_locate_symbol`: the dependency of `modtarget` on
the module `m` is recorded unless `modtarget` is `NULL` or has it already. -/
def add_dependency (m : modptr) (s : mstate) : res_t mstate :=
  match s.modtarget with
  | none => res_t.ok s
  | some t =>
    match s.heap t with
    | none => res_t.undefined s
    | some tr =>
      match node_find m tr.deplist with
      | some _ => res_t.ok s
      | none =>
        res_t.ok
          (((s.emit (event_t.slog logmsg_t.dependency_added)).update t
              (fun r => { r with deplist := node_add m r.deplist })).update m
            (fun r => { r with dephost := node_add t r.dephost }))

/-- The function `module_locate_symbol(modname, sym)`. -/
def module_locate_symbol (env : env_t) (modname sym : cstr) (s : mstate) :
    res_t (Option Nat × mstate) :=
  match module_find_published s modname with
  | none => res_t.ok (none, s.emit (event_t.slog logmsg_t.not_loaded))
  | some m =>
    match add_dependency m s with
    | res_t.ok s1 =>
      match s1.heap m with
      | none => res_t.undefined s1
      | some mr =>
        match env.linker_getsym mr.handle sym with
        | none => res_t.ok (none, s1.emit (event_t.slog logmsg_t.symbol_not_found))
        | some symptr => res_t.ok (some symptr, s1)
    | res_t.undefined su => res_t.undefined su
    | res_t.out_of_fuel su => res_t.out_of_fuel su

/-- The second loop of `module_unload` (lines 282-291), `LIST_FOREACH_SAFE`
over `m->deplist`, whose nodes from the current one on carry the pointers
given.  The body unlinks the node of `m` from `hm->dephost` (`node_del` of a
node that was not found does nothing) and the current node, which is the head
of `m->deplist` since the earlier iterations unlinked the nodes before it. -/
def unload_deplist (m : modptr) : List modptr → mstate → res_t mstate
  | [], s => res_t.ok s
  | hm :: rest, s =>
    match s.heap hm with
    | none => res_t.undefined s
    | some _ =>
      unload_deplist m rest
        ((s.update hm (fun r =>
            { r with dephost :=
                match node_find m r.dephost with
                | some hn => node_del hn r.dephost
                | none => r.dephost })).update m
          (fun r => { r with deplist := node_del 0 r.deplist }))

/-- Lines 293-310 of `module_unload`: the deinit callback and the removal from
`modules` if the module is registered, then the release of the code object and
of the `module_t` block. -/
def unload_finish (m : modptr) (s : mstate) : res_t mstate :=
  match s.heap m with
  | none => res_t.undefined s
  | some mr =>
    let s1 :=
      match node_find m s.modules with
      | some n =>
        let s2 := s.emit (event_t.slog logmsg_t.unloaded)
        let s3 :=
          match mr.header.deinit with
          | some fn => (s2.observe).emit (event_t.deinit m fn)
          | none => s2
        { s3 with modules := node_del n s3.modules }
      | none => s
    res_t.ok
      { s1 with
        heap := heap_free s1.heap m
        trace := s1.trace ++ [event_t.linker_close mr.handle, event_t.block_free m] }

/-- The node behind the node that carries `n`, in a list of data pointers. -/
def node_next (n : modptr) : List modptr → Option modptr
  | [] => none
  | x :: xs => if x = n then xs.head? else node_next n xs

/-- Lines 281-310 of `module_unload`, what follows the first loop. -/
def unload_after_hosts (m : modptr) (s : mstate) : res_t mstate :=
  match s.heap m with
  | none => res_t.undefined s
  | some mr =>
    match unload_deplist m mr.deplist s with
    | res_t.ok s2 => unload_finish m s2
    | res_t.undefined su => res_t.undefined su
    | res_t.out_of_fuel su => res_t.out_of_fuel su

mutual

/-- The function `module_unload(m)`.  The first argument bounds the nested
calls and iterations of the first loop that lie on one path of the cascade. -/
def module_unload : Nat → Option modptr → mstate → res_t mstate
  | _, none, s => res_t.ok s
  | 0, some _, s => res_t.out_of_fuel s
  | fuel + 1, some m, s =>
    match s.heap m with
    | none => res_t.undefined s
    | some mr =>
      match mr.dephost with
      | [] => unload_after_hosts m s
      | n :: _ =>
        match unload_dephost fuel m n s with
        | res_t.ok s1 => unload_after_hosts m s1
        | res_t.undefined su => res_t.undefined su
        | res_t.out_of_fuel su => res_t.out_of_fuel su

/-- The first loop of `module_unload` (lines 278-279), `LIST_FOREACH_SAFE`
over `m->dephost`, at the node that carries `n`.  The node `tn` behind it is
read before the body runs.  After the body the loop goes on with `tn`: this is
a read of freed memory if the body has unlinked and freed that node, and so is
the rest of `module_unload(m)` if the body has freed `m`. -/
def unload_dephost : Nat → modptr → modptr → mstate → res_t mstate
  | 0, _, _, s => res_t.out_of_fuel s
  | fuel + 1, m, n, s =>
    match s.heap m with
    | none => res_t.undefined s
    | some mr =>
      match module_unload fuel (some n) s with
      | res_t.ok s1 =>
        match node_next n mr.dephost with
        | none => res_t.ok s1
        | some tn =>
          match s1.heap m with
          | none => res_t.undefined s1
          | some mr1 =>
            match node_find tn mr1.dephost with
            | none => res_t.undefined s1
            | some _ => unload_dephost fuel m tn s1
      | res_t.undefined su => res_t.undefined su
      | res_t.out_of_fuel su => res_t.out_of_fuel su

end

/-- The path `snprintf(path, BUFSIZE, "%s/modules/%s", MODDIR, name)` writes. -/
def module_request_path (env : env_t) (name : cstr) : cstr :=
  (env.MODDIR ++ "/modules/".toList ++ name).take (env.BUFSIZE - 1)

/-- The function `module_request(name)`, over the `module_load` it calls. -/
def module_request_with (env : env_t) (load : cstr → mstate → res_t (Option modptr × mstate))
    (name : cstr) (s : mstate) : res_t (Bool × mstate) :=
  match module_find_published s name with
  | some _ => res_t.ok (true, s)
  | none =>
    match load (module_request_path env name) s with
    | res_t.ok (some _, s1) => res_t.ok (true, s1)
    | res_t.ok (none, s1) => res_t.ok (false, s1)
    | res_t.undefined su => res_t.undefined su
    | res_t.out_of_fuel su => res_t.out_of_fuel su

/-- The run of an init callback for the module `m`, over the `module_load` that
its nested loads call.  The callback sees the globals each time a call it made
returns. -/
def run_modinit (env : env_t) (load : cstr → mstate → res_t (Option modptr × mstate))
    (m : modptr) : modinit_t → mstate → res_t mstate
  | modinit_t.done, s => res_t.ok s
  | modinit_t.set_mflags v k, s =>
    match s.heap m with
    | none => res_t.undefined s
    | some _ => run_modinit env load m k (s.update m (fun r => { r with mflags := v }))
  | modinit_t.locate_symbol modname sym k, s =>
    match module_locate_symbol env modname sym s with
    | res_t.ok (r, s1) => run_modinit env load m (k r) s1.observe
    | res_t.undefined su => res_t.undefined su
    | res_t.out_of_fuel su => res_t.out_of_fuel su
  | modinit_t.load filespec k, s =>
    match load filespec s with
    | res_t.ok (r, s1) => run_modinit env load m (k r) s1.observe
    | res_t.undefined su => res_t.undefined su
    | res_t.out_of_fuel su => res_t.out_of_fuel su
  | modinit_t.request name k, s =>
    match module_request_with env load name s with
    | res_t.ok (r, s1) => run_modinit env load m (k r) s1.observe
    | res_t.undefined su => res_t.undefined su
    | res_t.out_of_fuel su => res_t.out_of_fuel su

/-- Lines 158-178 of `module_load`, after the init callback has returned and
`modtarget` has been reset: the unload of a module whose init failed, else the
registration. -/
def load_finish (fuel : Nat) (m : modptr) (s : mstate) : res_t (Option modptr × mstate) :=
  match s.heap m with
  | none => res_t.undefined s
  | some mr =>
    if mr.mflags &&& MODTYPE_FAIL ≠ 0 then
      match module_unload fuel (some m) (s.emit (event_t.slog logmsg_t.init_failed)) with
      | res_t.ok s1 => res_t.ok (none, s1)
      | res_t.undefined su => res_t.undefined su
      | res_t.out_of_fuel su => res_t.out_of_fuel su
    else
      res_t.ok (some m,
        ({ s with modules := node_add m s.modules }).emit (event_t.slog logmsg_t.loaded))

/-- Lines 67-129 of `module_load`: the checks before the `module_t` is
allocated.  The result is the handle and the header of the code object, or the
events of the failing path, after which `module_load` returns `NULL`. -/
def load_precheck (env : env_t) (s : mstate) (filespec : cstr) :
    Except (List event_t) (Nat × v2_moduleheader_t) :=
  match module_find s filespec with
  | some _ => Except.error [event_t.slog logmsg_t.already_loaded]
  | none =>
    match env.linker_open_ext filespec with
    | none => Except.error [event_t.linker_open_ext filespec, event_t.slog logmsg_t.open_error]
    | some handle =>
      match (env.header handle).filter (fun h => h.atheme_mod = env.MAPI_ATHEME_MAGIC) with
      | none =>
        Except.error [event_t.linker_open_ext filespec, event_t.slog logmsg_t.incompatible_module,
          event_t.linker_close handle]
      | some h =>
        if h.abi_ver ≠ env.MAPI_ATHEME_V2 then
          Except.error [event_t.linker_open_ext filespec,
            event_t.slog (logmsg_t.mapi_version_mismatch h.abi_ver env.MAPI_ATHEME_V2),
            event_t.linker_close handle]
        else if h.abi_rev ≠ env.CURRENT_ABI_REVISION then
          Except.error [event_t.linker_open_ext filespec,
            event_t.slog (logmsg_t.abi_revision_mismatch h.abi_rev env.CURRENT_ABI_REVISION),
            event_t.linker_close handle]
        else
          match module_find_published s h.name with
          | some _ =>
            Except.error [event_t.linker_open_ext filespec,
              event_t.slog logmsg_t.published_name_exists, event_t.linker_close handle]
          | none => Except.ok (handle, h)

/-- Lines 131-150 of `module_load`: the `module_t` is allocated (a zeroed
block, so both lists are empty), filled in, and made the `modtarget`. -/
def load_alloc (env : env_t) (filespec : cstr) (handle : Nat) (h : v2_moduleheader_t)
    (s : mstate) : mstate :=
  { s with
    heap := heap_alloc s.heap s.brk
      { modpath := filespec.take (env.BUFSIZE - 1), handle := handle,
        mflags := MODTYPE_STANDARD, header := h, deplist := [], dephost := [] }
    brk := s.brk + 1
    modtarget := some s.brk
    trace := s.trace ++ [event_t.linker_open_ext filespec] }

/-- Lines 152-156 of `module_load`: the init callback, if the header has one,
runs for the module `m`; then `modtarget` is reset. -/
def load_init (env : env_t) (load : cstr → mstate → res_t (Option modptr × mstate))
    (m : modptr) (h : v2_moduleheader_t) (s : mstate) : res_t mstate :=
  match h.modinit with
  | some init =>
    match run_modinit env load m init ((s.observe).emit (event_t.modinit m)) with
    | res_t.ok s2 => res_t.ok { s2 with modtarget := none }
    | res_t.undefined su => res_t.undefined su
    | res_t.out_of_fuel su => res_t.out_of_fuel su
  | none => res_t.ok { s with modtarget := none }

/-- The function `module_load(filespec)`.  The first argument bounds the depth
of the nested calls (loads from init callbacks, the unload cascade). -/
def module_load (env : env_t) : Nat → cstr → mstate → res_t (Option modptr × mstate)
  | 0, _, s => res_t.out_of_fuel s
  | fuel + 1, filespec, s =>
    match load_precheck env s filespec with
    | Except.error evs => res_t.ok (none, { s with trace := s.trace ++ evs })
    | Except.ok (handle, h) =>
      match load_init env (module_load env fuel) s.brk h (load_alloc env filespec handle h s) with
      | res_t.ok s2 => load_finish fuel s.brk s2
      | res_t.undefined su => res_t.undefined su
      | res_t.out_of_fuel su => res_t.out_of_fuel su

/-- The function `module_request(name)`. -/
def module_request (env : env_t) (fuel : Nat) (name : cstr) (s : mstate) : res_t (Bool × mstate) :=
  module_request_with env (module_load env fuel) name s

/-- A call into the module loader from outside any callback. -/
inductive mod_op where
  | load (filespec : cstr)
  | request (name : cstr)
  | locate_symbol (modname sym : cstr)
  /-- The call `module_unload(module_find_published(name))`. -/
  | unload (name : cstr)

/-- One call into the module loader. -/
def apply_mod_op (env : env_t) (fuel : Nat) : mod_op → mstate → res_t mstate
  | mod_op.load filespec, s =>
    match module_load env fuel filespec s with
    | res_t.ok (_, s1) => res_t.ok s1
    | res_t.undefined su => res_t.undefined su
    | res_t.out_of_fuel su => res_t.out_of_fuel su
  | mod_op.request name, s =>
    match module_request env fuel name s with
    | res_t.ok (_, s1) => res_t.ok s1
    | res_t.undefined su => res_t.undefined su
    | res_t.out_of_fuel su => res_t.out_of_fuel su
  | mod_op.locate_symbol modname sym, s =>
    match module_locate_symbol env modname sym s with
    | res_t.ok (_, s1) => res_t.ok s1
    | res_t.undefined su => res_t.undefined su
    | res_t.out_of_fuel su => res_t.out_of_fuel su
  | mod_op.unload name, s => module_unload fuel (module_find_published s name) s

/-- A sequence of calls into the module loader, in order. -/
def run_mod_ops (env : env_t) (fuel : Nat) : List mod_op → mstate → res_t mstate
  | [], s => res_t.ok s
  | op :: ops, s =>
    match apply_mod_op env fuel op s with
    | res_t.ok s1 => run_mod_ops env fuel ops s1
    | res_t.undefined su => res_t.undefined su
    | res_t.out_of_fuel su => res_t.out_of_fuel su

/-! ### A small world of code objects -/

/-- An init callback that looks up one symbol in each of the named modules, in
order, and goes on whatever the lookups return. -/
def uses_symbols : List cstr → modinit_t
  | [] => modinit_t.done
  | modname :: rest => modinit_t.locate_symbol modname "sym".toList (fun _ => uses_symbols rest)

/-- A well-formed header for the demo world: magic 7, MAPI version 2, ABI
revision 5. -/
def demo_header (name : cstr) (init : modinit_t) (deinit : Nat) : v2_moduleheader_t :=
  { atheme_mod := 7, abi_ver := 2, abi_rev := 5, name := name, modinit := some init,
    deinit := some deinit }

/-- The code objects of the demo world, by handle: `c` (1) uses no other
module, `b` (2) uses `c`, `a` (3) uses `b`, `d` (4) uses `b` and `c`, `e` (5)
has a wrong magic tag, `f` (6) marks itself failed after using `c`, `g` (7)
loads `c.so` from its init callback and then uses `c`. -/
def demo_objects : Nat → Option v2_moduleheader_t
  | 1 => some (demo_header "c".toList modinit_t.done 11)
  | 2 => some (demo_header "b".toList (uses_symbols ["c".toList]) 12)
  | 3 => some (demo_header "a".toList (uses_symbols ["b".toList]) 13)
  | 4 => some (demo_header "d".toList (uses_symbols ["b".toList, "c".toList]) 14)
  | 5 => some { demo_header "e".toList modinit_t.done 15 with atheme_mod := 8 }
  | 6 => some (demo_header "f".toList
      (modinit_t.locate_symbol "c".toList "sym".toList
        (fun _ => modinit_t.set_mflags MODTYPE_FAIL modinit_t.done)) 16)
  | 7 => some (demo_header "g".toList
      (modinit_t.load "c.so".toList (fun _ => uses_symbols ["c".toList])) 17)
  | _ => none

/-- The files of the demo world: `c.so`, `b.so`, `a.so`, `d.so`, `e.so`, `f.so`,
`g.so`. -/
def demo_files (filespec : cstr) : Option Nat :=
  if filespec = "c.so".toList then some 1
  else if filespec = "b.so".toList then some 2
  else if filespec = "a.so".toList then some 3
  else if filespec = "d.so".toList then some 4
  else if filespec = "e.so".toList then some 5
  else if filespec = "f.so".toList then some 6
  else if filespec = "g.so".toList then some 7
  else none

/-- The demo world. -/
def demo_env : env_t :=
  { linker_open_ext := demo_files, header := demo_objects, linker_getsym := fun _ _ => some 1,
    MAPI_ATHEME_MAGIC := 7, MAPI_ATHEME_V2 := 2, CURRENT_ABI_REVISION := 5,
    MODDIR := "/usr/lib".toList, BUFSIZE := 1024 }

/-- The checks that `module_load(filespec)` makes before it allocates the
`module_t`: no registered module has this path, the code object opens, it has
a header with the magic tag, the MAPI version and the ABI revision of the
runtime, and no registered module has the published name of the header. -/
def load_checks (env : env_t) (s : mstate) (filespec : cstr) : Prop :=
  module_find s filespec = none ∧
    ∃ handle, env.linker_open_ext filespec = some handle ∧
      ∃ h, env.header handle = some h ∧ h.atheme_mod = env.MAPI_ATHEME_MAGIC ∧
        h.abi_ver = env.MAPI_ATHEME_V2 ∧ h.abi_rev = env.CURRENT_ABI_REVISION ∧
        module_find_published s h.name = none

/-! ### Dependency symmetry -/

/-- Dependency symmetry of a registry: for all allocated modules `a` and `b`,
`b` is in the `deplist` of `a` if and only if `a` is in the `dephost` of `b`. -/
def dep_symmetric (g : registry_t) : Prop :=
  ∀ a b ra rb, g.heap a = some ra → g.heap b = some rb → (b ∈ ra.deplist ↔ a ∈ rb.dephost)

/-- The registered modules and the module that is loading are allocated. -/
def units_allocated (g : registry_t) : Prop :=
  (∀ m ∈ g.modules, (g.heap m).isSome = true) ∧ ∀ t, g.modtarget = some t → (g.heap t).isSome = true

/-- The edges of the dependency graph are sound: no list holds a module
twice, every entry is an allocated module, and that module holds the reverse
entry. -/
def edges_ok (heap : modptr → Option module_t) : Prop :=
  ∀ a ra, heap a = some ra →
    ra.deplist.Nodup ∧ ra.dephost.Nodup ∧
    (∀ b ∈ ra.deplist, ∃ rb, heap b = some rb ∧ a ∈ rb.dephost) ∧
    (∀ b ∈ ra.dephost, ∃ rb, heap b = some rb ∧ a ∈ rb.deplist)

/-- The invariant of a registry as a callback sees it. -/
def reg_ok (g : registry_t) : Prop :=
  edges_ok g.heap ∧ g.modules.Nodup ∧ units_allocated g

/-- The invariant of the module loader: the registry is sound, so was every
registry a callback has seen, and the blocks not yet handed out are free. -/
def mstate_ok (s : mstate) : Prop :=
  reg_ok s.view ∧ (∀ g ∈ s.seen, reg_ok g) ∧ ∀ p, s.brk ≤ p → s.heap p = none

/-- The objects `heap1` are objects of `heap0`, with lists that have lost
entries at most. -/
def heap_le (heap1 heap0 : modptr → Option module_t) : Prop :=
  ∀ p r1, heap1 p = some r1 →
    ∃ r0, heap0 p = some r0 ∧ r1.deplist.Sublist r0.deplist ∧ r1.dephost.Sublist r0.dephost

/-- What a completed `module_unload` guarantees. -/
def unload_post (s s1 : mstate) : Prop :=
  mstate_ok s1 ∧ heap_le s1.heap s.heap ∧ s1.modtarget = none ∧ s1.brk = s.brk ∧
    s1.modules.Sublist s.modules


/-- What a completed `module_load`, `module_request` or `module_locate_symbol`
guarantees. -/
def load_post (s s1 : mstate) : Prop :=
  mstate_ok s1 ∧ s.brk ≤ s1.brk ∧ (∀ x ∈ s1.modules, x ∈ s.modules ∨ s.brk ≤ x) ∧
    (s.modtarget = none → s1.modtarget = none)


/-- Whether the run gave a result. -/
def res_t.is_ok {α : Type} : res_t α → Bool
  | .ok _ => true
  | _ => false

/-- The state a run of loader calls has reached, however it ended. -/
def res_t.reached : res_t mstate → mstate
  | .ok s => s
  | .undefined s => s
  | .out_of_fuel s => s

/-- The chain of the demo world: `c.so`, `b.so`, `a.so` loaded in this order,
so that `a` requires `b` and `b` requires `c`. -/
def demo_chain : List mod_op :=
  [mod_op.load "c.so".toList, mod_op.load "b.so".toList, mod_op.load "a.so".toList]

/-- The diamond of the demo world: `c.so`, `b.so`, `d.so` loaded in this order,
so that `b` requires `c` and `d` requires `b` and `c`. -/
def demo_diamond : List mod_op :=
  [mod_op.load "c.so".toList, mod_op.load "b.so".toList, mod_op.load "d.so".toList]

/-- A run through the demo world with a nested load, a failing init, a failing
check and a cascading unload. -/
def demo_run : List mod_op :=
  [mod_op.load "g.so".toList, mod_op.load "b.so".toList, mod_op.load "d.so".toList,
    mod_op.load "f.so".toList, mod_op.load "e.so".toList, mod_op.request "a".toList,
    mod_op.unload "b".toList]

/-- Every registry a callback has seen was sound. -/
def seen_ok (s : mstate) : Prop := ∀ g ∈ s.seen, reg_ok g

/-- A property of the outcome of a run: `post` of its result if it has one,
else soundness of every registry a callback saw before the run broke off. -/
def res_inv {α : Type} (post : α → Prop) : res_t α → Prop
  | res_t.ok a => post a
  | res_t.undefined s => seen_ok s
  | res_t.out_of_fuel s => seen_ok s

/-! ### A world with two code objects of one published name -/

/-- The code objects of the twin world, by handle: `x.so` (1) publishes the
name `x` and loads `y.so` from its init callback; `y.so` (2) publishes the
name `x` as well; `v.so` (3) has MAPI version 1 and `r.so` (4) has ABI
revision 4, where the runtime has 2 and 5. -/
def twin_objects : Nat → Option v2_moduleheader_t
  | 1 => some (demo_header "x".toList (modinit_t.load "y.so".toList (fun _ => modinit_t.done)) 21)
  | 2 => some (demo_header "x".toList modinit_t.done 22)
  | 3 => some { demo_header "v".toList modinit_t.done 23 with abi_ver := 1 }
  | 4 => some { demo_header "r".toList modinit_t.done 24 with abi_rev := 4 }
  | _ => none

/-- The files of the twin world. -/
def twin_files (filespec : cstr) : Option Nat :=
  if filespec = "x.so".toList then some 1
  else if filespec = "y.so".toList then some 2
  else if filespec = "v.so".toList then some 3
  else if filespec = "r.so".toList then some 4
  else none

/-- The twin world. -/
def twin_env : env_t :=
  { linker_open_ext := twin_files, header := twin_objects, linker_getsym := fun _ _ => some 1,
    MAPI_ATHEME_MAGIC := 7, MAPI_ATHEME_V2 := 2, CURRENT_ABI_REVISION := 5,
    MODDIR := "/usr/lib".toList, BUFSIZE := 1024 }

/-- The demo world after `module_load("c.so")`. -/
def demo_state_c : mstate :=
  (run_mod_ops demo_env 10 [mod_op.load "c.so".toList] mstate.init).reached

/-- The twin world after `module_load("y.so")`. -/
def twin_state_y : mstate :=
  (run_mod_ops twin_env 10 [mod_op.load "y.so".toList] mstate.init).reached

/-- The block `e` has been handed out and is not registered; if it is still
allocated, no module requires it, and its path, handle and header are those of
`v`: the state of a module whose init callback has not returned. -/
def embryo (e : modptr) (v : module_t) (s : mstate) : Prop :=
  e ∉ s.modules ∧ e < s.brk ∧
    ∀ r, s.heap e = some r →
      r.dephost = [] ∧ r.modpath = v.modpath ∧ r.handle = v.handle ∧ r.header = v.header

/-- The twin world after `module_load("x.so")` on the empty registry. -/
def twin_run : res_t mstate :=
  run_mod_ops twin_env 10 [mod_op.load "x.so".toList] mstate.init

/-- The header of `f.so` in the demo world. -/
def demo_header_f : v2_moduleheader_t :=
  demo_header "f".toList
    (modinit_t.locate_symbol "c".toList "sym".toList
      (fun _ => modinit_t.set_mflags MODTYPE_FAIL modinit_t.done)) 16

/-- The demo world after `module_load("c.so")`, then `module_load("f.so")` up
to the return of the init callback of `f.so`. -/
def demo_init_f : res_t mstate :=
  load_init demo_env (module_load demo_env 1) demo_state_c.brk demo_header_f
    (load_alloc demo_env "f.so".toList 6 demo_header_f demo_state_c)

/-- The demo world after `module_load("c.so")`, then `module_load("b.so")` up
to the call of the init callback of `b.so`. -/
def demo_alloc_b : mstate :=
  load_alloc demo_env "b.so".toList 2 (demo_header "b".toList (uses_symbols ["c".toList]) 12)
    demo_state_c

/-! ### Loading the modules of a directory -/

/-- The function `strstr` of libc: the offset of the first occurrence of
`needle` in `haystack`, or `NULL`. -/
def strstr : cstr → cstr → Option Nat
  | [], needle => if needle = [] then some 0 else none
  | c :: rest, needle =>
    if needle.isPrefixOf (c :: rest) then some 0 else (strstr rest needle).map (· + 1)

/-- The path `snprintf(module_filename, sizeof(module_filename), "%s/%s",
dirspec, d_name)` writes into the buffer of 4096 bytes. -/
def module_filename (dirspec d_name : cstr) : cstr :=
  (dirspec ++ "/".toList ++ d_name).take 4095

/-- The loop `while ((ldirent = readdir(module_dir)) != NULL)` of
`module_load_dir`, over the names that `readdir` yields.  The value
`module_load` returns is dropped. -/
def module_load_dir_loop (env : env_t) (fuel : Nat) (dirspec : cstr) :
    List cstr → mstate → res_t mstate
  | [], s => res_t.ok s
  | d_name :: rest, s =>
    if (strstr d_name ".so".toList).isNone then module_load_dir_loop env fuel dirspec rest s
    else
      match module_load env fuel (module_filename dirspec d_name) s with
      | res_t.ok (_, s1) => module_load_dir_loop env fuel dirspec rest s1
      | res_t.undefined su => res_t.undefined su
      | res_t.out_of_fuel su => res_t.out_of_fuel su

/-- The function `module_load_dir(dirspec)`.  `opendir` gives the names that
`readdir` yields for a directory, in order, or `NULL`. -/
def module_load_dir (env : env_t) (opendir : cstr → Option (List cstr)) (fuel : Nat)
    (dirspec : cstr) (s : mstate) : res_t mstate :=
  match opendir dirspec with
  | none => res_t.ok (s.emit (event_t.slog logmsg_t.opendir_error))
  | some entries => module_load_dir_loop env fuel dirspec entries s

/-- The loop of `module_load_dir_match`.  `match_mask` is the function `match`
of the absent `match.c`; the loop tests its value against zero. -/
def module_load_dir_match_loop (env : env_t) (match_mask : cstr → cstr → Int) (fuel : Nat)
    (dirspec pattern : cstr) : List cstr → mstate → res_t mstate
  | [], s => res_t.ok s
  | d_name :: rest, s =>
    if (strstr d_name ".so".toList).isNone && match_mask pattern d_name ≠ 0 then
      module_load_dir_match_loop env match_mask fuel dirspec pattern rest s
    else
      match module_load env fuel (module_filename dirspec d_name) s with
      | res_t.ok (_, s1) => module_load_dir_match_loop env match_mask fuel dirspec pattern rest s1
      | res_t.undefined su => res_t.undefined su
      | res_t.out_of_fuel su => res_t.out_of_fuel su

/-- The function `module_load_dir_match(dirspec, pattern)`. -/
def module_load_dir_match (env : env_t) (opendir : cstr → Option (List cstr))
    (match_mask : cstr → cstr → Int) (fuel : Nat) (dirspec pattern : cstr) (s : mstate) :
    res_t mstate :=
  match opendir dirspec with
  | none => res_t.ok (s.emit (event_t.slog logmsg_t.opendir_error))
  | some entries => module_load_dir_match_loop env match_mask fuel dirspec pattern entries s

/-- The loads that the loop of a directory scan makes for the names given, one
after the other. -/
def load_each (env : env_t) (fuel : Nat) (dirspec : cstr) : List cstr → mstate → res_t mstate
  | [], s => res_t.ok s
  | d_name :: rest, s =>
    match module_load env fuel (module_filename dirspec d_name) s with
    | res_t.ok (_, s1) => load_each env fuel dirspec rest s1
    | res_t.undefined su => res_t.undefined su
    | res_t.out_of_fuel su => res_t.out_of_fuel su

/-- The demo world with its files in the directory `mods`. -/
def dir_env : env_t :=
  { demo_env with
    linker_open_ext := fun filespec =>
      if filespec.take 5 = "mods/".toList then demo_files (filespec.drop 5) else none }

/-- The directory `mods` with the entries `.`, `..`, `README`, `e.so`,
`c.so.old` and `c.so`, read in this order; no other directory can be opened. -/
def dir_opendir (dirspec : cstr) : Option (List cstr) :=
  if dirspec = "mods".toList then
    some [".".toList, "..".toList, "README".toList, "e.so".toList, "c.so.old".toList,
      "c.so".toList]
  else none

/-- A `match` for which no name matches (it returns a value other than zero,
as the `match` of Atheme does for a name that does not match the mask). -/
def match_none (_mask _name : cstr) : Int := 1

/-- The scan `module_load_dir_match("mods", "b*")` on the empty registry, with
a mask that none of the entries matches. -/
def dir_run : res_t mstate :=
  module_load_dir_match dir_env dir_opendir match_none 2 "mods".toList "b*".toList mstate.init

/-- The demo world after `module_load("g.so")` on the empty registry: the init
callback of `g.so` loads `c.so` and then looks up a symbol of `c`. -/
def demo_run_g : res_t mstate :=
  run_mod_ops demo_env 10 [mod_op.load "g.so".toList] mstate.init

/-- The demo world after `module_load("g.so")` and then the unload of `c`. -/
def demo_run_g_unload_c : res_t mstate :=
  run_mod_ops demo_env 10 [mod_op.load "g.so".toList, mod_op.unload "c".toList] mstate.init

/-- The demo world after the loads of the diamond: `c` (block 1), `b` (block
2) requiring `c`, and `d` (block 3) requiring `b` and `c`. -/
def demo_diamond_state : mstate :=
  (run_mod_ops demo_env 10 demo_diamond mstate.init).reached

/-! ## The AJOIN command (contrib/ns_ajoin.c) -/

/-- What `ns_cmd_ajoin` sends to the caller with `command_fail` and
`command_success_nodata`. -/
inductive ajoin_msg_t where
  /-- The message `STR_INSUFFICIENT_PARAMS` for `AJOIN`. -/
  | insufficient_params
  /-- The usage line of line 34, without `clear`. -/
  | usage_short
  /-- The usage line of lines 65 and 113, with `clear`. -/
  | usage_full
  | not_logged_in
  | list_begin
  | list_entry (chan : cstr)
  | list_end
  | already_on_list (chan : cstr)
  | too_many_entries
  | added (chan : cstr)
  | cleared
  | not_on_list (chan : cstr)
  | removed (chan : cstr)
  deriving DecidableEq

/-- The character `s[i]` of a C string, the terminating NUL at `i = strlen(s)`
included. -/
def cstr_at (s : cstr) (i : Nat) : Char := s.getD i (Char.ofNat 0)

/-- The tokens that the loop `chan = strtok(buf, ","); while (chan != NULL)
{ ...; chan = strtok(NULL, ","); }` visits; the first argument bounds the
number of iterations. -/
def ajoin_tokens : Nat → Option cstr → cstr → List cstr
  | 0, _, _ => []
  | k + 1, p, save =>
    match strtok p [','] save with
    | (none, _) => []
    | (some chan, save1) => chan :: ajoin_tokens k none save1

/-- The loop `for (; list[i]; i++)` of the `DEL` branch (lines 132-155) from
index `i` on, over the characters of `list` from there; the state is `j`,
`rmlen` and `itempos`. -/
def ajoin_del_scan (remove : cstr) : Nat → cstr → Nat × Nat × Nat → Nat × Nat × Nat
  | _, [], st => st
  | i, c :: rest, (j, rmlen, itempos) =>
    if rmlen = 0 then
      if tolower c = tolower (cstr_at remove j) then
        ajoin_del_scan remove (i + 1) rest
          (j + 1, if cstr_at remove (j + 1) = Char.ofNat 0 then j + 1 else rmlen,
            if j = 0 then i else itempos)
      else ajoin_del_scan remove (i + 1) rest (0, rmlen, itempos)
    else ajoin_del_scan remove (i + 1) rest (j, rmlen, itempos)

/-- The `DEL` branch of `ns_cmd_ajoin` from line 123 on, for the stored value
`list` and the argument `remove`: the stored value afterwards (`none`: the
metadata entry is deleted) and the messages sent. -/
def ajoin_del (list remove : cstr) : Option cstr × List ajoin_msg_t :=
  match ajoin_del_scan remove 0 list (0, 0, 0) with
  | (j, rmlen, itempos) =>
    if cstr_at remove j ≠ Char.ofNat 0 then (some list, [])
    else
      let listlen := list.length
      if cstr_at list (itempos + rmlen) = Char.ofNat 0 then (none, [ajoin_msg_t.removed remove])
      else
        (some (list.take itempos ++
            (list.drop (itempos + (rmlen + 1))).take (listlen - (rmlen + 1) - itempos)),
          [ajoin_msg_t.removed remove])

/-- The function `ns_cmd_ajoin(si, parc, parv)`.  `smu` is `si->smu`: `none`
if the caller is not logged in, else the value of the metadata entry
`private:autojoin` of the account, `none` if there is no such entry.  The
result is that value afterwards and the messages sent. -/
def ns_cmd_ajoin (smu : Option (Option cstr)) (parv : List (Option cstr)) :
    Option (Option cstr) × List ajoin_msg_t :=
  match parv.head?.join with
  | none => (smu, [ajoin_msg_t.insufficient_params, ajoin_msg_t.usage_short])
  | some parv0 =>
    match smu with
    | none => (none, [ajoin_msg_t.not_logged_in])
    | some md =>
      if strcasecmp parv0 "LIST".toList = 0 then
        (some md,
          [ajoin_msg_t.list_begin] ++
            (match md with
              | some value =>
                (ajoin_tokens (value.length + 1) (some (value.take 511)) []).map
                  ajoin_msg_t.list_entry
              | none => []) ++
            [ajoin_msg_t.list_end])
      else if strcasecmp parv0 "ADD".toList = 0 then
        match (parv.drop 1).head?.join with
        | none => (some md, [ajoin_msg_t.insufficient_params, ajoin_msg_t.usage_full])
        | some parv1 =>
          match md with
          | some value =>
            if (ajoin_tokens (value.length + 1) (some (value.take 511)) []).any
                (fun chan => strcasecmp chan parv1 == 0) then
              (some md, [ajoin_msg_t.already_on_list parv1])
            else if value.length + parv1.length > 400 then
              (some md, [ajoin_msg_t.too_many_entries])
            else
              (some (some (value.take 511 ++ [','] ++ parv1.take 512)),
                [ajoin_msg_t.added parv1])
          | none => (some (some parv1), [ajoin_msg_t.added parv1])
      else if strcasecmp parv0 "CLEAR".toList = 0 then
        (some none, [ajoin_msg_t.cleared])
      else if strcasecmp parv0 "DEL".toList = 0 then
        match (parv.drop 1).head?.join with
        | none => (some md, [ajoin_msg_t.insufficient_params, ajoin_msg_t.usage_full])
        | some parv1 =>
          match md with
          | none => (some md, [ajoin_msg_t.not_on_list parv1])
          | some list =>
            match ajoin_del list parv1 with
            | (md1, msgs) => (some md1, msgs)
      else (some md, [])

/-- The argument vector of `AJOIN DEL <channel>`. -/
def ajoin_del_parv (channel : cstr) : List (Option cstr) := [some "DEL".toList, some channel]

/-! ## The order of the dependency graph -/

/-- The edge `a -> b` of the dependency graph of a registry: `a` is allocated
and `b` is in its `deplist` (`a` requires `b`). -/
def dep_edge (g : registry_t) (a b : modptr) : Prop :=
  ∃ ra, g.heap a = some ra ∧ b ∈ ra.deplist

/-- Every edge of the dependency graph goes to a module that comes before its
source in the list `modules`; a module that is not in the list counts as
behind all that are. -/
def order_ok (g : registry_t) : Prop :=
  ∀ a ra, g.heap a = some ra → ∀ b ∈ ra.deplist, g.modules.indexOf b < g.modules.indexOf a

/-- Every registry a callback has seen had its edges in order. -/
def seen_ord (s : mstate) : Prop := ∀ g ∈ s.seen, order_ok g

/-- The order invariant of the module loader: the edges are in order, so were
they in every registry a callback has seen, and the module that is loading is
not registered. -/
def mstate_ord (s : mstate) : Prop :=
  order_ok s.view ∧ (∀ t, s.modtarget = some t → t ∉ s.modules) ∧ seen_ord s

/-- A property of the outcome of a run: `post` of its result if it has one,
else the order of every registry a callback saw before the run broke off. -/
def res_ord {α : Type} (post : α → Prop) : res_t α → Prop
  | res_t.ok a => post a
  | res_t.undefined s => seen_ord s
  | res_t.out_of_fuel s => seen_ord s

/-! ## Termination of the unload cascade -/

/-- The module `a` of a registry with a cycle: it requires `b` (block 2) and
`b` requires it. -/
def cycle_a : module_t :=
  { modpath := "a.so".toList, handle := 1, mflags := MODTYPE_STANDARD,
    header := demo_header "a".toList modinit_t.done 11, deplist := [2], dephost := [2] }

/-- The module `b` of a registry with a cycle: it requires `a` (block 1) and
`a` requires it. -/
def cycle_b : module_t :=
  { modpath := "b.so".toList, handle := 2, mflags := MODTYPE_STANDARD,
    header := demo_header "b".toList modinit_t.done 12, deplist := [1], dephost := [1] }

/-- The objects of a registry with a cycle: `a` (block 1) and `b` (block 2)
require each other. -/
def cycle_heap : modptr → Option module_t
  | 1 => some cycle_a
  | 2 => some cycle_b
  | _ => none

/-- A registry with a cycle: `a` and `b` are registered and require each
other. -/
def cycle_state : mstate :=
  { modules := [1, 2], modtarget := none, heap := cycle_heap, brk := 3, trace := [], seen := [] }

/-- The call `module_unload(m)` in the state `s` does not return, however many
nested calls are allowed, and the state is still `s` when the bound is
reached. -/
def never_returns (m : modptr) (s : mstate) : Prop :=
  ∀ fuel, module_unload fuel (some m) s = res_t.out_of_fuel s

/-- The demo world after the loads of the chain: `c` (block 1), `b` (block 2)
requiring `c`, and `a` (block 3) requiring `b`. -/
def demo_chain_state : mstate :=
  (run_mod_ops demo_env 10 demo_chain mstate.init).reached

/-- The place of a module in the list `modules`, counted from the end: a rank
that falls along the `dephost` lists when the edges are in order. -/
def unload_rank (s : mstate) (x : modptr) : Nat :=
  s.modules.length - s.modules.indexOf x
/-! ## Theorems: tokenizer -/

theorem contains_space (c : Char) : [' '].contains c = (c == ' ') := by
  cases h : c == ' ' <;> simp [List.contains, List.elem, h]

theorem contains_nil (c : Char) : ([] : cstr).contains c = false := by
  simp [List.contains, List.elem]

/-- What `strtok(p, " ")` does, in terms of the text it scans. -/
theorem strtok_space (p : Option cstr) (save : cstr) :
    strtok p [' '] save =
      match (p.getD save).dropWhile (fun c => c == ' ') with
      | [] => (none, [])
      | c :: cs => (some ((c :: cs).takeWhile (fun x => x != ' ')),
          ((c :: cs).dropWhile (fun x => x != ' ')).tail) := by
  unfold strtok
  simp only [contains_space]
  cases h : List.dropWhile (fun c => c == ' ') (p.getD save) with
  | nil => rfl
  | cons c cs =>
    show (match List.dropWhile (fun x => !(x == ' ')) (c :: cs) with
      | [] => (some (List.takeWhile (fun x => !(x == ' ')) (c :: cs)), [])
      | _ :: rest => (some (List.takeWhile (fun x => !(x == ' ')) (c :: cs)), rest)) = _
    cases h2 : List.dropWhile (fun x => !(x == ' ')) (c :: cs) with
    | nil => simp [bne, h2]
    | cons d ds => simp [bne, h2]

/-- What `strtok(p, "")` does: the whole remaining text, if there is any. -/
theorem strtok_empty (p : Option cstr) (save : cstr) :
    (strtok p [] save).1 = if p.getD save = [] then none else some (p.getD save) := by
  unfold strtok
  simp only [contains_nil]
  cases h : p.getD save with
  | nil => simp
  | cons c cs =>
    have h1 : List.dropWhile (fun _ : Char => true) cs = [] := by
      rw [List.dropWhile_eq_nil_iff]; intros; rfl
    have h2 : List.takeWhile (fun _ : Char => true) cs = cs := by
      rw [List.takeWhile_eq_self_iff]; intros; rfl
    simp [h1, h2]

/-! ### The words of a text -/

theorem spec_words_from_cur (t cur : cstr) (h : cur ≠ []) :
    spec_words_from t cur =
      (cur ++ t.takeWhile (fun x => x != ' ')) :: spec_words_from (t.dropWhile (fun x => x != ' ')) [] := by
  induction t generalizing cur with
  | nil => simp [spec_words_from, h]
  | cons c cs ih =>
    by_cases hc : c = ' '
    · subst hc
      simp [spec_words_from, h]
    · have hne : cur ++ [c] ≠ [] := by simp
      rw [spec_words_from, if_neg hc, ih _ hne]
      simp [List.takeWhile_cons, List.dropWhile_cons, hc]

theorem spec_words_skip (t : cstr) :
    spec_words t = spec_words (t.dropWhile (fun c => c == ' ')) := by
  induction t with
  | nil => rfl
  | cons c cs ih =>
    by_cases hc : c = ' '
    · subst hc
      have : spec_words (' ' :: cs) = spec_words cs := by simp [spec_words, spec_words_from]
      rw [this, ih]
      simp [List.dropWhile_cons]
    · simp [List.dropWhile_cons, hc]

theorem spec_words_cons (c : Char) (cs : cstr) (hc : c ≠ ' ') :
    spec_words (c :: cs) =
      (c :: cs).takeWhile (fun x => x != ' ') :: spec_words ((c :: cs).dropWhile (fun x => x != ' ')) := by
  have h := spec_words_from_cur cs [c] (by simp)
  simp only [spec_words, spec_words_from, if_neg hc, List.nil_append]
  rw [h]
  simp [List.takeWhile_cons, List.dropWhile_cons, hc, spec_words]

/-- The text behind a word is empty or begins with a space. -/
theorem dropWhile_ne_space (t : cstr) :
    t.dropWhile (fun x => x != ' ') = [] ∨
      ∃ r, t.dropWhile (fun x => x != ' ') = ' ' :: r := by
  induction t with
  | nil => left; rfl
  | cons c cs ih =>
    by_cases hc : c = ' '
    · subst hc; right; exact ⟨cs, by simp [List.dropWhile_cons]⟩
    · simpa [List.dropWhile_cons, hc] using ih

/-- The text after skipping spaces is empty or begins with a non-space. -/
theorem dropWhile_space_head (t : cstr) (c : Char) (cs : cstr)
    (h : t.dropWhile (fun x => x == ' ') = c :: cs) : c ≠ ' ' := by
  induction t with
  | nil => simp at h
  | cons d ds ih =>
    by_cases hd : d = ' '
    · subst hd
      apply ih
      simpa [List.dropWhile_cons] using h
    · simp [List.dropWhile_cons, hd] at h
      rw [← h.1]; exact hd

theorem spec_words_space (r : cstr) : spec_words (' ' :: r) = spec_words r := by
  simp [spec_words, spec_words_from]

theorem spec_words_tail (t : cstr) :
    spec_words (t.dropWhile (fun x => x != ' ')).tail = spec_words (t.dropWhile (fun x => x != ' ')) := by
  rcases dropWhile_ne_space t with h | ⟨r, h⟩
  · rw [h]; rfl
  · rw [h, spec_words_space]; rfl

theorem spec_words_eq_nil (t : cstr) (h : t.dropWhile (fun c => c == ' ') = []) :
    spec_words t = [] := by
  rw [spec_words_skip, h]; rfl

/-- The words of a text: none when only spaces are left, else the first word
and the words of what follows it. -/
theorem spec_words_step (t : cstr) (c : Char) (cs : cstr)
    (h : t.dropWhile (fun x => x == ' ') = c :: cs) :
    spec_words t = (c :: cs).takeWhile (fun x => x != ' ') ::
      spec_words ((c :: cs).dropWhile (fun x => x != ' ')).tail := by
  rw [spec_words_skip, h, spec_words_cons c cs (dropWhile_space_head t c cs h), spec_words_tail]

theorem spec_words_from_eq_go (t acc : cstr) :
    spec_words_from t acc.reverse =
      (List.splitOnP.go (fun c => c == ' ') t acc).filter (fun w => decide (w ≠ [])) := by
  induction t generalizing acc with
  | nil =>
    by_cases h : acc.reverse = []
    · simp [spec_words_from, List.splitOnP.go, h]
    · simp [spec_words_from, List.splitOnP.go, h]
  | cons c cs ih =>
    by_cases hc : c = ' '
    · subst hc
      have ih0 := ih []
      simp only [List.reverse_nil] at ih0
      by_cases h : acc.reverse = []
      · simp [spec_words_from, List.splitOnP.go, h, ih0]
      · simp [spec_words_from, List.splitOnP.go, h, ih0]
    · have ih1 := ih (c :: acc)
      simp only [List.reverse_cons] at ih1
      simp [spec_words_from, List.splitOnP.go, hc, ih1]

/-- The words of the reference are the non-empty pieces between the spaces. -/
theorem spec_words_eq_splitOn (t : cstr) :
    spec_words t = (t.splitOn ' ').filter (fun w => decide (w ≠ [])) := by
  have := spec_words_from_eq_go t []
  simpa [spec_words, List.splitOn, List.splitOnP] using this

/-! ### Trimming -/

theorem spec_trim_space (r : cstr) : spec_trim (' ' :: r) = spec_trim r := by
  simp [spec_trim, List.dropWhile_cons]

theorem spec_rest_after_space (k : Nat) (r : cstr) :
    spec_trim (spec_rest_after k (' ' :: r)) = spec_trim (spec_rest_after k r) := by
  cases k with
  | zero => simp [spec_rest_after, spec_trim_space]
  | succ j => simp [spec_rest_after, List.dropWhile_cons]

theorem spec_rest_after_tail (k : Nat) (t : cstr) :
    spec_trim (spec_rest_after k (t.dropWhile (fun x => x != ' ')).tail) =
      spec_trim (spec_rest_after k (t.dropWhile (fun x => x != ' '))) := by
  rcases dropWhile_ne_space t with h | ⟨r, h⟩
  · rw [h]; rfl
  · rw [h, spec_rest_after_space]; rfl

/-- The backward scan of `text_to_parv` stops where the trailing spaces begin. -/
theorem trim_back_take (q : cstr) (hq : q.head? ≠ some ' ') (i : Nat) (hi : i < q.length) :
    q.take (trim_back q i + 1) = (q.take (i + 1)).rdropWhile (fun c => c == ' ') := by
  induction i with
  | zero =>
    cases q with
    | nil => simp at hi
    | cons c cs =>
      have hc : c ≠ ' ' := by simpa using hq
      simp [trim_back, List.rdropWhile_singleton, hc]
  | succ j ih =>
    have hj : j < q.length := by omega
    have hget : q[j + 1]? = some q[j + 1] := List.getElem?_eq_getElem hi
    have htake : q.take (j + 1 + 1) = q.take (j + 1) ++ [q[j + 1]] := by
      rw [List.take_succ, hget]; rfl
    by_cases hs : q[j + 1] = ' '
    · have h1 : trim_back q (j + 1) = trim_back q j := by
        rw [trim_back, hget, hs]; simp
      rw [h1, ih hj, htake, hs, List.rdropWhile_concat_pos]
      simp
    · have h1 : trim_back q (j + 1) = j + 1 := by
        rw [trim_back, hget]; simp [hs]
      rw [h1, htake, List.rdropWhile_concat_neg]
      simpa using hs

theorem trim_back_eq (c : Char) (cs : cstr) (hc : c ≠ ' ') :
    (c :: cs).take (trim_back (c :: cs) cs.length + 1) = (c :: cs).rdropWhile (fun x => x == ' ') := by
  have h := trim_back_take (c :: cs) (by simpa using hc) cs.length (by simp)
  rw [h]
  congr 1
  exact List.take_of_length_le (by simp)

/-! ### The code against the reference -/

theorem spec_tokenize_nil_words (t : cstr) (n : Nat) (h : spec_words t = []) (hn : 0 < n) :
    spec_tokenize t n = [] := by
  simp [spec_tokenize, h, hn]

theorem spec_tokenize_cons (t : cstr) (w : cstr) (r : cstr) (k : Nat)
    (hw : spec_words t = w :: spec_words r)
    (hr : spec_trim (spec_rest_after (k + 1) t) = spec_trim (spec_rest_after k r)) :
    spec_tokenize t (k + 2) = w :: spec_tokenize r (k + 1) := by
  unfold spec_tokenize
  rw [hw]
  by_cases hlen : (spec_words r).length < k + 1
  · have h2 : (w :: spec_words r).length < k + 2 := by simpa using hlen
    rw [if_pos hlen, if_pos h2]
  · have h2 : ¬ (w :: spec_words r).length < k + 2 := by simpa using hlen
    rw [if_neg hlen, if_neg h2]
    simp [hr]

/-- The loop and the remainder slot together compute the reference. -/
theorem text_to_parv_rest_loop (k : Nat) (p : Option cstr) (save : cstr) (acc : List cstr) :
    text_to_parv_rest (text_to_parv_loop k p save acc) = acc ++ spec_tokenize (p.getD save) (k + 1) := by
  induction k generalizing p save acc with
  | zero =>
    simp only [text_to_parv_loop, text_to_parv_rest, strtok_empty]
    by_cases hT : p.getD save = []
    · rw [if_pos hT, hT]
      simp [spec_tokenize, spec_words, spec_words_from]
    · rw [if_neg hT]
      cases hS : (p.getD save).dropWhile (fun c => c == ' ') with
      | nil =>
        simp [hS, spec_tokenize_nil_words _ 1 (spec_words_eq_nil _ hS)]
      | cons c cs =>
        have hc := dropWhile_space_head _ c cs hS
        have hw := spec_words_step _ c cs hS
        simp only [hS]
        rw [trim_back_eq c cs hc]
        simp [spec_tokenize, hw, spec_rest_after, spec_trim, hS]
  | succ k ih =>
    rw [text_to_parv_loop, strtok_space]
    cases hS : (p.getD save).dropWhile (fun c => c == ' ') with
    | nil =>
      simp only [text_to_parv_rest, strtok_empty]
      rw [spec_tokenize_nil_words _ _ (spec_words_eq_nil _ hS) (by omega)]
      cases p with
      | none => simp
      | some t =>
        have hS2 : t.dropWhile (fun c => c == ' ') = [] := by simpa using hS
        by_cases ht : t = []
        · simp [ht]
        · simp [ht, hS2]
    | cons c cs =>
      simp only []
      rw [ih]
      have hw := spec_words_step _ c cs hS
      have hr : spec_trim (spec_rest_after (k + 1) (p.getD save)) =
          spec_trim (spec_rest_after k ((c :: cs).dropWhile (fun x => x != ' ')).tail) := by
        rw [spec_rest_after_tail]
        simp only [spec_rest_after, hS]
      rw [spec_tokenize_cons _ _ _ k hw hr]
      simp

theorem text_to_parv_some (t : cstr) (maxparc : Int) (h : maxparc ≠ 0) :
    text_to_parv (some t) maxparc = spec_tokenize t ((maxparc - 1).toNat + 1) := by
  simp [text_to_parv, h, text_to_parv_rest_loop]

/-! ### Shape of the reference result -/

theorem spec_words_from_is_word (t cur : cstr) (hcur : ' ' ∉ cur) :
    ∀ w ∈ spec_words_from t cur, is_word w := by
  induction t generalizing cur with
  | nil =>
    intro w hw
    by_cases h : cur = []
    · simp [spec_words_from, h] at hw
    · simp only [spec_words_from, if_neg h, List.mem_singleton] at hw
      subst hw
      exact ⟨h, hcur⟩
  | cons c cs ih =>
    intro w hw
    by_cases hc : c = ' '
    · subst hc
      by_cases h : cur = []
      · simp only [spec_words_from, h, if_true] at hw
        exact ih [] (by simp) w hw
      · simp only [spec_words_from, if_neg h, if_true, List.mem_cons] at hw
        rcases hw with hw | hw
        · subst hw; exact ⟨h, hcur⟩
        · exact ih [] (by simp) w hw
    · simp only [spec_words_from, if_neg hc] at hw
      refine ih (cur ++ [c]) ?_ w hw
      simp only [List.mem_append, List.mem_singleton, not_or]
      exact ⟨hcur, fun h => hc h.symm⟩

theorem spec_words_is_word (t : cstr) : ∀ w ∈ spec_words t, is_word w :=
  spec_words_from_is_word t [] (by simp)

theorem is_word_is_trimmed (w : cstr) (h : is_word w) : is_trimmed w := by
  obtain ⟨hne, hsp⟩ := h
  refine ⟨hne, ?_, ?_⟩
  · intro hh
    exact hsp (List.mem_of_mem_head? hh)
  · intro hh
    exact hsp (List.mem_of_mem_getLast? hh)

theorem spec_words_rest_after (k : Nat) (t : cstr) :
    spec_words (spec_rest_after k t) = (spec_words t).drop k := by
  induction k generalizing t with
  | zero => simp [spec_rest_after]
  | succ k ih =>
    rw [spec_rest_after, ih]
    cases hS : t.dropWhile (fun c => c == ' ') with
    | nil =>
      rw [spec_words_eq_nil t hS]
      simp [spec_words, spec_words_from]
    | cons c cs =>
      rw [spec_words_step t c cs hS, spec_words_tail]
      simp

theorem spec_trim_is_trimmed (r : cstr) (h : spec_words r ≠ []) : is_trimmed (spec_trim r) := by
  cases hS : r.dropWhile (fun c => c == ' ') with
  | nil => exact absurd (spec_words_eq_nil r hS) h
  | cons c cs =>
    have hc := dropWhile_space_head r c cs hS
    have hne : (c :: cs).rdropWhile (fun x => x == ' ') ≠ [] := by
      rw [Ne, List.rdropWhile_eq_nil_iff]
      intro hall
      have := hall c (List.mem_cons_self _ _)
      simp [hc] at this
    unfold spec_trim
    rw [hS]
    refine ⟨hne, ?_, ?_⟩
    · obtain ⟨s, hs⟩ := List.rdropWhile_prefix (fun x => x == ' ') (c :: cs)
      cases hr : (c :: cs).rdropWhile (fun x => x == ' ') with
      | nil => exact absurd hr hne
      | cons d ds =>
        rw [hr] at hs
        simp only [List.cons_append, List.cons.injEq] at hs
        simp only [List.head?_cons, ne_eq, Option.some.injEq]
        rw [hs.1]; exact hc
    · intro hl
      have h1 := List.rdropWhile_last_not (fun x => x == ' ') (c :: cs) hne
      rw [List.getLast?_eq_getLast _ hne] at hl
      simp only [Option.some.injEq] at hl
      rw [hl] at h1
      simp at h1

/-- Shape of a tokenizer result with `k + 1` slots: at most `k` words, then at
most one trimmed remainder, which is there only behind `k` words. -/
theorem spec_tokenize_shape (t : cstr) (k : Nat) :
    ∃ ws tl, spec_tokenize t (k + 1) = ws ++ tl ∧ ws.length ≤ k ∧ (∀ w ∈ ws, is_word w) ∧
      (tl = [] ∨ (ws.length = k ∧ ∃ l, tl = [l] ∧ is_trimmed l)) := by
  unfold spec_tokenize
  by_cases hlen : (spec_words t).length < k + 1
  · rw [if_pos hlen]
    exact ⟨spec_words t, [], by simp, by omega, spec_words_is_word t, Or.inl rfl⟩
  · rw [if_neg hlen]
    refine ⟨(spec_words t).take k, [spec_trim (spec_rest_after k t)], by simp, by simp, ?_, Or.inr ⟨?_, _, rfl, ?_⟩⟩
    · intro w hw
      exact spec_words_is_word t w (List.mem_of_mem_take hw)
    · simp; omega
    · apply spec_trim_is_trimmed
      rw [spec_words_rest_after]
      intro h0
      have := congrArg List.length h0
      simp at this
      omega

/-! ### Claims C5 to C8 -/

/-- C5: for a non-null text and `maxArgs >= 1`, `text_to_parv` returns what the
reference returns: the maximal space-free words of the text when there are
fewer than `maxArgs`, else the first `maxArgs - 1` words followed by the rest
of the text behind them with its leading and trailing spaces removed. -/
theorem text_to_parv_eq_spec_tokenize (text : cstr) (maxArgs : Int) (h : 1 ≤ maxArgs) :
    text_to_parv (some text) maxArgs = spec_tokenize text maxArgs.toNat := by
  rw [text_to_parv_some text maxArgs (by omega)]
  congr 1
  omega

theorem text_to_parv_eq_spec_tokenize_witness :
    (1 : Int) ≤ 2 ∧
      text_to_parv (some " ab  cd e ".toList) 2 = spec_tokenize " ab  cd e ".toList (2 : Int).toNat ∧
      spec_tokenize " ab  cd e ".toList (2 : Int).toNat = ["ab".toList, "cd e".toList] :=
  ⟨by decide, text_to_parv_eq_spec_tokenize " ab  cd e ".toList 2 (by decide), by decide⟩

/-- C6 as stated fails: applied to the whole line, command name included,
`text_to_parv` with `maxparc` 3 returns `KICK`, `#chan` and `nick some reason`. -/
theorem text_to_parv_kick_line :
    text_to_parv (some "KICK #chan nick some reason".toList) cs_kick.maxparc =
        ["KICK".toList, "#chan".toList, "nick some reason".toList] ∧
      text_to_parv (some "KICK #chan nick some reason".toList) cs_kick.maxparc ≠
        ["#chan".toList, "nick".toList, "some reason".toList] := by
  decide

/-- C6, amended: applied to the argument text of the KICK line, that is the
line without the command name, `text_to_parv` with the `maxparc` of `cs_kick`
(3) returns exactly the three tokens `#chan`, `nick` and `some reason`. -/
theorem text_to_parv_kick_args :
    cs_kick.maxparc = 3 ∧
      text_to_parv (some "#chan nick some reason".toList) cs_kick.maxparc =
        ["#chan".toList, "nick".toList, "some reason".toList] := by
  decide

theorem text_to_parv_shape (text : Option cstr) (maxparc : Int) :
    ∃ ws tl, text_to_parv text maxparc = ws ++ tl ∧ (ws.length : Int) < max maxparc 1 ∧
      (∀ w ∈ ws, is_word w) ∧
      (tl = [] ∨ ((ws.length : Int) = max maxparc 1 - 1 ∧ maxparc ≠ 0 ∧ ∃ l, tl = [l] ∧ is_trimmed l)) := by
  by_cases h0 : maxparc = 0
  · exact ⟨[], [], by simp [text_to_parv, h0], by simp, by simp, Or.inl rfl⟩
  · cases text with
    | none => exact ⟨[], [], by simp [text_to_parv, h0], by simp, by simp, Or.inl rfl⟩
    | some t =>
      obtain ⟨ws, tl, heq, hlen, hws, htl⟩ := spec_tokenize_shape t (maxparc - 1).toNat
      refine ⟨ws, tl, by rw [text_to_parv_some t maxparc h0, heq], by omega, hws, ?_⟩
      rcases htl with htl | ⟨h1, h2⟩
      · exact Or.inl htl
      · exact Or.inr ⟨by omega, h0, h2⟩

/-- C7: `text_to_parv` never produces an empty token.  Every token at a position
before the `maxparc`-th is a word (not empty, no space); every token, so also
the `maxparc`-th, is not empty and neither begins nor ends with a space; and a
remainder that is empty after trimming is left out, as in
`tokenize("  #chan   nick  ", 3) = ["#chan", "nick"]`. -/
theorem text_to_parv_tokens (text : Option cstr) (maxparc : Int) :
    (∀ tok ∈ text_to_parv text maxparc, tok ≠ []) ∧
      (∀ (i : Nat) (tok : cstr), (i : Int) + 1 < maxparc →
        (text_to_parv text maxparc)[i]? = some tok → is_word tok) ∧
      (∀ tok ∈ text_to_parv text maxparc, is_trimmed tok) ∧
      text_to_parv (some "  #chan   nick  ".toList) 3 = ["#chan".toList, "nick".toList] := by
  obtain ⟨ws, tl, heq, hlen, hws, htl⟩ := text_to_parv_shape text maxparc
  have htrim : ∀ tok ∈ text_to_parv text maxparc, is_trimmed tok := by
    intro tok htok
    rw [heq, List.mem_append] at htok
    rcases htok with htok | htok
    · exact is_word_is_trimmed tok (hws tok htok)
    · rcases htl with htl | ⟨_, _, l, hl, hlt⟩
      · simp [htl] at htok
      · rw [hl, List.mem_singleton] at htok
        subst htok; exact hlt
  refine ⟨fun tok htok => (htrim tok htok).1, ?_, htrim, by decide⟩
  intro i tok hi hget
  rw [heq] at hget
  by_cases hiw : i < ws.length
  · rw [List.getElem?_append_left hiw] at hget
    exact hws tok (List.getElem?_mem hget)
  · rcases htl with htl | ⟨h1, _, _⟩
    · rw [htl, List.append_nil] at hget
      have := List.getElem?_eq_none (Nat.le_of_not_lt hiw)
      rw [this] at hget
      cases hget
    · omega

/-- C8: for `maxparc >= 0` the number of tokens `text_to_parv` returns is at
most `maxparc`; with `maxparc` 0 it returns no token whatever the text, and
for a null text it returns no token whatever `maxparc`. -/
theorem text_to_parv_length (text : Option cstr) (maxparc : Int) :
    (0 ≤ maxparc → ((text_to_parv text maxparc).length : Int) ≤ maxparc) ∧
      text_to_parv text 0 = [] ∧ text_to_parv none maxparc = [] := by
  refine ⟨?_, by simp [text_to_parv], by simp [text_to_parv]⟩
  intro h0
  obtain ⟨ws, tl, heq, hlen, _, htl⟩ := text_to_parv_shape text maxparc
  rw [heq, List.length_append]
  rcases htl with htl | ⟨h1, h2, l, hl, _⟩
  · rw [htl]
    by_cases hz : maxparc = 0
    · have hnil : text_to_parv text maxparc = [] := by simp [text_to_parv, hz]
      rw [heq, htl, List.append_nil] at hnil
      simp [hnil, hz]
    · simp only [List.length_nil, Nat.add_zero]
      omega
  · rw [hl]
    simp only [List.length_singleton, Nat.cast_add, Nat.cast_one]
    omega

theorem text_to_parv_length_witness :
    ((text_to_parv (some "a b c d".toList) 2).length : Int) ≤ 2 :=
  (text_to_parv_length (some "a b c d".toList) 2).1 (by decide)

/-! ## Theorems: command tree and dispatcher -/

theorem node_find_eq_none (data : Nat) (l : List Nat) : node_find data l = none ↔ data ∉ l := by
  unfold node_find
  rw [← List.indexOf_lt_length]
  split <;> simp_all

theorem node_find_eq_some (data : Nat) (l : List Nat) (n : Nat) (h : node_find data l = some n) :
    data ∈ l ∧ n = l.indexOf data := by
  unfold node_find at h
  split at h
  · rename_i hlt
    simp only [Option.some.injEq] at h
    exact ⟨List.indexOf_lt_length.mp hlt, h.symm⟩
  · cases h

theorem command_add_of_mem (cmd : cmdptr) (tree : List cmdptr) (h : cmd ∈ tree) :
    command_add cmd tree = tree := by
  unfold command_add
  cases hf : node_find cmd tree with
  | none => exact absurd h ((node_find_eq_none cmd tree).mp hf)
  | some n => rfl

theorem command_add_of_not_mem (cmd : cmdptr) (tree : List cmdptr) (h : cmd ∉ tree) :
    command_add cmd tree = tree ++ [cmd] := by
  unfold command_add
  rw [(node_find_eq_none cmd tree).mpr h]
  rfl

theorem command_delete_eq_erase (cmd : cmdptr) (tree : List cmdptr) :
    command_delete cmd tree = tree.erase cmd := by
  unfold command_delete
  cases hf : node_find cmd tree with
  | none =>
    have := (node_find_eq_none cmd tree).mp hf
    simp [List.erase_of_not_mem this]
  | some n =>
    obtain ⟨_, hn⟩ := node_find_eq_some cmd tree n hf
    simp [node_del, hn]

theorem command_add_nodup (cmd : cmdptr) (tree : List cmdptr) (h : tree.Nodup) :
    (command_add cmd tree).Nodup := by
  by_cases hm : cmd ∈ tree
  · rw [command_add_of_mem cmd tree hm]; exact h
  · rw [command_add_of_not_mem cmd tree hm]
    exact List.Nodup.append h (List.nodup_singleton cmd) (by simpa using hm)

theorem apply_tree_ops_nodup (ops : List tree_op) (tree : List cmdptr) (h : tree.Nodup) :
    (apply_tree_ops ops tree).Nodup := by
  induction ops generalizing tree with
  | nil => exact h
  | cons op ops ih =>
    cases op with
    | add cmd => exact ih _ (command_add_nodup cmd tree h)
    | delete cmd =>
      apply ih
      rw [command_delete_eq_erase]
      exact h.erase cmd

theorem text_to_parv_loop_length (k : Nat) :
    ∀ (p : Option cstr) (save : cstr) (acc : List cstr),
      (text_to_parv_loop k p save acc).1.length ≤ acc.length + k := by
  induction k with
  | zero => intro p save acc; simp [text_to_parv_loop]
  | succ k ih =>
    intro p save acc
    rw [text_to_parv_loop]
    cases hs : strtok p [' '] save with
    | mk tok save1 =>
      cases tok with
      | none => simp only []; omega
      | some w =>
        simp only []
        have := ih none save1 (acc ++ [w])
        simp only [List.length_append, List.length_singleton] at this
        omega

/-- With a maximum argument count of at most 20, `text_to_parv` stores to
`parv[0]` up to `parv[19]` at most. -/
theorem parv_overrun_of_le (text : Option cstr) (maxparc : Int) (h : maxparc ≤ 20) :
    parv_overrun text maxparc = false := by
  unfold parv_overrun text_to_parv_top
  by_cases h0 : maxparc = 0
  · simp [h0]
  · rw [if_neg h0]
    cases text with
    | none => rfl
    | some t =>
      simp only [decide_eq_false_iff_not, not_le]
      have := text_to_parv_loop_length (maxparc - 1).toNat (some t) [] []
      simp only [List.length_nil, Nat.zero_add] at this
      omega

/-- C4, for commands that fit the argument vector.  Let the command that
`command_find` finds, if it finds one, have a maximum argument count of at most
20, the number of slots of `parv`.  Then `command_exec_split` invokes a handler
exactly when `command_find` finds the name and `has_priv` holds for the
command's privilege, and then its whole effect is one call of that command's
handler, with the tokens of the argument text.  When the name is not found its
whole effect is one `Invalid command` notice.  When the command is found and
the privilege check fails its whole effect is one `fault_noprivs` failure: the
`You do not have %s privilege` variant if `has_any_privs` holds, else the `You
are not authorized` variant. -/
theorem command_exec_split_dispatch (privs : privs_t) (mem : cmdstore) (si : sourceinfo_t)
    (cmd : cstr) (text : Option cstr) (tree : List cmdptr)
    (hmax : ∀ c, command_find mem tree cmd = some c → (mem c).maxparc ≤ 20) :
    ((∃ l, command_exec_split privs mem si cmd text tree = some l ∧
          ∃ e ∈ l, e.is_handler = true) ↔
        ∃ c, command_find mem tree cmd = some c ∧ privs.has_priv si (mem c).access = true) ∧
      (∀ c, command_find mem tree cmd = some c → privs.has_priv si (mem c).access = true →
        command_exec_split privs mem si cmd text tree =
          some [effect_t.handler (mem c).cmd si (text_to_parv text (mem c).maxparc).length
            (parv_fill (text_to_parv text (mem c).maxparc))]) ∧
      (command_find mem tree cmd = none →
        command_exec_split privs mem si cmd text tree =
          some [effect_t.notice_invalid_command si]) ∧
      (∀ c, command_find mem tree cmd = some c → privs.has_priv si (mem c).access = false →
        command_exec_split privs mem si cmd text tree =
          some [if privs.has_any_privs si then effect_t.fail_noprivs_priv si (mem c).access
           else effect_t.fail_noprivs_unauthorized si]) := by
  unfold command_exec_split command_exec
  cases hf : command_find mem tree cmd with
  | none => simp [effect_t.is_handler]
  | some c =>
    have hfit := parv_overrun_of_le text (mem c).maxparc (hmax c hf)
    by_cases hp : privs.has_priv si (mem c).access = true
    · simp [hfit, hp, effect_t.is_handler]
    · by_cases ha : privs.has_any_privs si = true
      · simp [hfit, hp, ha, effect_t.is_handler]
      · simp [hfit, hp, ha, effect_t.is_handler]

theorem command_exec_split_dispatch_witness :
    command_exec_split ⟨fun _ _ => true, fun _ => false⟩ two_kicks 5 "kick".toList
        (some "#chan nick some reason".toList) [1] =
      some [effect_t.handler cs_cmd_kick 5 3
        ([some "#chan".toList, some "nick".toList, some "some reason".toList] ++
          List.replicate 17 none)] :=
  (command_exec_split_dispatch ⟨fun _ _ => true, fun _ => false⟩ two_kicks 5 "kick".toList
    (some "#chan nick some reason".toList) [1] (by decide)).2.1 1 (by decide) (by decide)

/-- C4 as stated fails for a command with more arguments than `parv` has
slots.  The command `WIDE` has a maximum argument count of 21.  With an
argument text of 21 words `text_to_parv` has 21 tokens to store, and with one
of 20 words it has 20 tokens and stores the `NULL` behind them: either way it
stores to `parv[20]`, past the end of `char *parv[20]`.  This is undefined
behaviour, before the privilege check, whether the caller holds the privilege
or not: neither the handler call nor the `fault_noprivs` failure is what the
code is bound to do. -/
theorem command_exec_split_overrun :
    command_find wide_commands [1] "wide".toList = some 1 ∧
      (text_to_parv (some words_21) (wide_commands 1).maxparc).length = 21 ∧
      (text_to_parv (some words_20) (wide_commands 1).maxparc).length = 20 ∧
      text_to_parv_top (some words_21) (wide_commands 1).maxparc = some 20 ∧
      text_to_parv_top (some words_20) (wide_commands 1).maxparc = some 20 ∧
      command_exec_split ⟨fun _ _ => true, fun _ => true⟩ wide_commands 5 "wide".toList
        (some words_21) [1] = none ∧
      command_exec_split ⟨fun _ _ => false, fun _ => false⟩ wide_commands 5 "wide".toList
        (some words_21) [1] = none ∧
      command_exec_split ⟨fun _ _ => true, fun _ => true⟩ wide_commands 5 "wide".toList
        (some words_20) [1] = none := by
  decide

/-- C9 as stated fails: a command object whose name is already in the tree,
but which is another object than the registered one, is appended, and the
tree then holds the name twice. -/
theorem command_add_duplicate_name :
    (two_kicks 2).name = (two_kicks 1).name ∧ command_add 2 [1] = [1, 2] ∧
      command_add 2 [1] ≠ [1] ∧ apply_tree_ops [tree_op.add 1, tree_op.add 2] [] = [1, 2] ∧
      ¬ ((apply_tree_ops [tree_op.add 1, tree_op.add 2] []).map (fun c => (two_kicks c).name)).Nodup := by
  decide

/-- C9, amended: `command_add` never links the same command object twice.  If
the tree already contains the object being registered, `command_add` leaves
the tree unchanged; consequently every tree built from the empty tree by
`command_add` and `command_delete` holds pairwise distinct command objects. -/
theorem command_add_no_duplicate_object (cmd : cmdptr) (tree : List cmdptr) (ops : List tree_op) :
    (cmd ∈ tree → command_add cmd tree = tree) ∧ (apply_tree_ops ops []).Nodup :=
  ⟨command_add_of_mem cmd tree, apply_tree_ops_nodup ops [] List.nodup_nil⟩

theorem command_add_no_duplicate_object_witness :
    command_add 1 [1, 2] = [1, 2] ∧
      (apply_tree_ops [tree_op.add 1, tree_op.add 2, tree_op.add 1, tree_op.delete 2] []).Nodup :=
  ⟨(command_add_no_duplicate_object 1 [1, 2]
      [tree_op.add 1, tree_op.add 2, tree_op.add 1, tree_op.delete 2]).1 (by decide),
    (command_add_no_duplicate_object 1 [1, 2]
      [tree_op.add 1, tree_op.add 2, tree_op.add 1, tree_op.delete 2]).2⟩

theorem command_find_append (mem : cmdstore) (tree : List cmdptr) (cmd : cmdptr) (name : cstr)
    (c : cmdptr) (h : command_find mem tree name = some c) :
    command_find mem (tree ++ [cmd]) name = some c := by
  unfold command_find at h ⊢
  rw [List.find?_append, h]
  rfl

theorem command_find_mem (mem : cmdstore) (tree : List cmdptr) (name : cstr) (c : cmdptr)
    (h : command_find mem tree name = some c) : c ∈ tree :=
  List.mem_of_find?_eq_some h

/-- C10: if `command_find` finds a command under a name, then after
`command_add` of any command, in particular of one that carries this name,
`command_find` under that name still returns the same, originally registered
command object; the store, hence its handler, is not touched, and a newly
offered object is never the one returned. -/
theorem command_add_keeps_find (mem : cmdstore) (tree : List cmdptr) (cmd : cmdptr) (name : cstr)
    (c : cmdptr) (h : command_find mem tree name = some c) :
    command_find mem (command_add cmd tree) name = some c ∧
      (cmd ∉ tree → command_find mem (command_add cmd tree) name ≠ some cmd) := by
  have hfind : command_find mem (command_add cmd tree) name = some c := by
    by_cases hm : cmd ∈ tree
    · rw [command_add_of_mem cmd tree hm]; exact h
    · rw [command_add_of_not_mem cmd tree hm]
      exact command_find_append mem tree cmd name c h
  refine ⟨hfind, ?_⟩
  intro hm heq
  rw [hfind] at heq
  simp only [Option.some.injEq] at heq
  exact hm (heq ▸ command_find_mem mem tree name c h)

theorem command_add_keeps_find_witness :
    command_find two_kicks [1] (two_kicks 2).name = some 1 ∧
      command_find two_kicks (command_add 2 [1]) (two_kicks 2).name = some 1 ∧
      (two_kicks 1).cmd = cs_cmd_kick :=
  ⟨by decide, (command_add_keeps_find two_kicks [1] 2 (two_kicks 2).name 1 (by decide)).1, by decide⟩

/-! ### Command lookup, registration, argument vector and help -/

theorem tolower_eq (c : Char) :
    tolower c = if 65 ≤ c.toNat ∧ c.toNat ≤ 90 then (c.toNat : Int) + 32 else (c.toNat : Int) := by
  unfold tolower
  have h1 : ('A' ≤ c) ↔ 65 ≤ c.toNat := by
    rw [Char.le_def]; rfl
  have h2 : (c ≤ 'Z') ↔ c.toNat ≤ 90 := by
    rw [Char.le_def]; rfl
  simp only [h1, h2]

theorem char_toNat_inj (x y : Char) (h : x.toNat = y.toNat) : x = y := by
  apply Char.ext
  apply UInt32.ext  
  exact h

theorem tolower_eq_iff (x y : Char) : tolower x = tolower y ↔ same_letter x y := by
  rw [tolower_eq, tolower_eq]
  unfold same_letter
  constructor
  · intro h
    by_cases hx : 65 ≤ x.toNat ∧ x.toNat ≤ 90 <;> by_cases hy : 65 ≤ y.toNat ∧ y.toNat ≤ 90
    · rw [if_pos hx, if_pos hy] at h
      left; apply char_toNat_inj; omega
    · rw [if_pos hx, if_neg hy] at h
      right; left; exact ⟨hx.1, hx.2, by omega⟩
    · rw [if_neg hx, if_pos hy] at h
      right; right; exact ⟨hy.1, hy.2, by omega⟩
    · rw [if_neg hx, if_neg hy] at h
      left; apply char_toNat_inj; omega
  · rintro (h | ⟨h1, h2, h3⟩ | ⟨h1, h2, h3⟩)
    · rw [h]
    · rw [if_pos ⟨h1, h2⟩, if_neg (by omega)]; omega
    · rw [if_neg (by omega), if_pos ⟨h1, h2⟩]; omega

theorem tolower_ne_zero (c : Char) (h : c.toNat ≠ 0) : tolower c ≠ 0 := by
  rw [tolower_eq]
  split <;> omega

/-- On C strings `strcasecmp` returns 0 exactly for names that are equal
ignoring letter case. -/
theorem strcasecmp_eq_zero_iff (a b : cstr) (ha : cstr_ok a) (hb : cstr_ok b) :
    strcasecmp a b = 0 ↔ eq_ignoring_case a b := by
  induction a generalizing b with
  | nil =>
    cases b with
    | nil => simp [strcasecmp, eq_ignoring_case]
    | cons y ys =>
      have := tolower_ne_zero y (hb y (List.mem_cons_self _ _))
      simp only [strcasecmp, eq_ignoring_case]
      constructor
      · intro h; omega
      · intro h; cases h
  | cons x xs ih =>
    cases b with
    | nil =>
      have := tolower_ne_zero x (ha x (List.mem_cons_self _ _))
      simp only [strcasecmp, eq_ignoring_case]
      constructor
      · intro h; exact absurd h this
      · intro h; cases h
    | cons y ys =>
      have ha2 : cstr_ok xs := fun c hc => ha c (List.mem_cons_of_mem _ hc)
      have hb2 : cstr_ok ys := fun c hc => hb c (List.mem_cons_of_mem _ hc)
      simp only [strcasecmp, eq_ignoring_case, List.forall₂_cons]
      by_cases hxy : tolower x = tolower y
      · rw [if_pos hxy, ih ys ha2 hb2]
        exact ⟨fun h => ⟨(tolower_eq_iff x y).mp hxy, h⟩, fun h => h.2⟩
      · rw [if_neg hxy]
        constructor
        · intro h; exact absurd (by omega) hxy
        · intro h; exact absurd ((tolower_eq_iff x y).mpr h.1) hxy

theorem strcasecmp_self (a : cstr) : strcasecmp a a = 0 := by
  induction a with
  | nil => rfl
  | cons x xs ih => simp [strcasecmp, ih]

/-- C11: on C strings, `command_find(tree, name)` returns the first entry, in
the order of the list (insertion order), whose name equals `name` ignoring
letter case: it returns `c` exactly if `c` is an entry of the tree with such a
name and no entry before it has one; and it returns no command exactly if no
entry of the tree has a name equal to `name` ignoring case. -/
theorem command_find_first_match (mem : cmdstore) (tree : List cmdptr) (name : cstr)
    (hname : cstr_ok name) (htree : ∀ c ∈ tree, cstr_ok (mem c).name) :
    (∀ c, command_find mem tree name = some c ↔
      ∃ pre post, tree = pre ++ c :: post ∧ eq_ignoring_case name (mem c).name ∧
        ∀ x ∈ pre, ¬ eq_ignoring_case name (mem x).name) ∧
    (command_find mem tree name = none ↔ ∀ c ∈ tree, ¬ eq_ignoring_case name (mem c).name) := by
  have hp : ∀ c ∈ tree, ((strcasecmp name (mem c).name == 0) = true ↔
      eq_ignoring_case name (mem c).name) := by
    intro c hc
    rw [beq_iff_eq]
    exact strcasecmp_eq_zero_iff name (mem c).name hname (htree c hc)
  constructor
  · intro c
    unfold command_find
    rw [List.find?_eq_some]
    constructor
    · rintro ⟨hc, pre, post, htr, hpre⟩
      have hcm : c ∈ tree := by rw [htr]; simp
      refine ⟨pre, post, htr, (hp c hcm).mp hc, ?_⟩
      intro x hx hcase
      have hxm : x ∈ tree := by rw [htr]; simp [hx]
      have := hpre x hx
      rw [(hp x hxm).mpr hcase] at this
      cases this
    · rintro ⟨pre, post, htr, hc, hpre⟩
      have hcm : c ∈ tree := by rw [htr]; simp
      refine ⟨(hp c hcm).mpr hc, pre, post, htr, ?_⟩
      intro x hx
      have hxm : x ∈ tree := by rw [htr]; simp [hx]
      cases hb : strcasecmp name (mem x).name == 0 with
      | false => rfl
      | true => exact absurd ((hp x hxm).mp hb) (hpre x hx)
  · unfold command_find
    rw [List.find?_eq_none]
    constructor
    · intro h c hc hcase
      exact h c hc ((hp c hc).mpr hcase)
    · intro h c hc hb
      exact h c hc ((hp c hc).mp hb)

theorem command_find_first_match_witness :
    command_find two_kicks [2, 1] "kick".toList = some 2 ↔
      ∃ pre post, [2, 1] = pre ++ 2 :: post ∧ eq_ignoring_case "kick".toList (two_kicks 2).name ∧
        ∀ x ∈ pre, ¬ eq_ignoring_case "kick".toList (two_kicks x).name :=
  (command_find_first_match two_kicks [2, 1] "kick".toList
    (by intro c hc; simp at hc; rcases hc with h | h | h | h <;> subst h <;> decide)
    (by
      intro c hc x hx
      simp only [List.mem_cons, List.mem_singleton, List.not_mem_nil, or_false] at hc
      rcases hc with h | h <;> subst h <;>
        (simp [two_kicks, cs_kick] at hx; rcases hx with h | h | h | h <;> subst h <;> decide))).1 2

/-- C12: for a command that is not yet in the tree, `command_add` appends it
behind all existing entries, which stay as they are and in their order, and a
following `command_delete` of the same command gives back exactly the tree
there was; `command_delete` of a command that is not registered leaves the
tree unchanged. -/
theorem command_add_delete (cmd : cmdptr) (tree : List cmdptr) (h : cmd ∉ tree) :
    command_add cmd tree = tree ++ [cmd] ∧ command_delete cmd (command_add cmd tree) = tree ∧
      command_delete cmd tree = tree := by
  refine ⟨command_add_of_not_mem cmd tree h, ?_, ?_⟩
  · rw [command_add_of_not_mem cmd tree h, command_delete_eq_erase]
    rw [List.erase_append_right _ h]
    simp
  · rw [command_delete_eq_erase, List.erase_of_not_mem h]

theorem command_add_delete_witness :
    command_add 3 [1, 2] = [1, 2, 3] ∧ command_delete 3 (command_add 3 [1, 2]) = [1, 2] ∧
      command_delete 3 [1, 2] = [1, 2] :=
  command_add_delete 3 [1, 2] (by decide)

/-- The clearing loop on an array: behind the `i` entries `pre` the next `k`
entries are set to `NULL`, the others stay. -/
theorem parv_clear_append (k : Nat) :
    ∀ (pre suf : List (Option cstr)), k ≤ suf.length →
      parv_clear k pre.length (pre ++ suf) = pre ++ List.replicate k none ++ suf.drop k := by
  induction k with
  | zero => intro pre suf _; simp [parv_clear]
  | succ k ih =>
    intro pre suf hk
    cases suf with
    | nil => simp at hk
    | cons x suf2 =>
      rw [parv_clear]
      have hset : (pre ++ x :: suf2).set pre.length none = (pre ++ [none]) ++ suf2 := by
        simp [List.set_append]
      rw [hset]
      have := ih (pre ++ [none]) suf2 (by simpa using hk)
      simp only [List.length_append, List.length_singleton] at this
      rw [this]
      simp [List.replicate_succ]

/-- Whatever the array held before, after `text_to_parv` has stored at most 20
tokens and the clearing loop has run it holds the tokens and then `NULL`s. -/
theorem parv_fill_eq (tokens : List cstr) (h : tokens.length ≤ 20) :
    parv_fill tokens = tokens.map some ++ List.replicate (20 - tokens.length) none := by
  unfold parv_fill
  apply List.take_of_length_le
  simp only [List.length_append, List.length_map, List.length_replicate]
  omega

theorem parv_clear_store (old : List (Option cstr)) (tokens : List cstr) (hold : old.length = 20)
    (hlen : tokens.length ≤ 20) :
    parv_clear (20 - tokens.length) tokens.length (parv_store old tokens) = parv_fill tokens := by
  have h := parv_clear_append (20 - tokens.length) (tokens.map some) (old.drop tokens.length)
    (by simp [hold])
  simp only [List.length_map] at h
  rw [parv_fill_eq tokens hlen]
  unfold parv_store
  rw [h]
  have hnil : List.drop (20 - tokens.length) (List.drop tokens.length old) = [] := by
    apply List.drop_eq_nil_of_le
    simp [hold]
  rw [hnil]
  simp

theorem text_to_parv_length_le (text : Option cstr) (maxparc : Int) :
    ((text_to_parv text maxparc).length : Int) ≤ max maxparc 1 := by
  obtain ⟨ws, tl, heq, hlen, _, htl⟩ := text_to_parv_shape text maxparc
  rw [heq, List.length_append]
  rcases htl with htl | ⟨h1, _, l, hl, _⟩
  · rw [htl]; simp only [List.length_nil, Nat.add_zero]; omega
  · rw [hl]; simp only [List.length_singleton, Nat.cast_add, Nat.cast_one]; omega

/-- C13: when `command_exec_split` finds the command, the caller holds its
privilege and the command's maximum argument count is at most 20, the size of
the dispatcher's argument vector, then the handler is invoked once, with
`parc` the number of tokens of `text_to_parv(text, c->maxparc)` and with the
20-entry vector `parv` that the clearing loop leaves, whatever the vector held
before: its first `parc` entries are those tokens in order, and every later
entry, so every position from `parc` up to the maximum argument count, is
`NULL`. -/
theorem command_exec_split_parv (privs : privs_t) (mem : cmdstore) (si : sourceinfo_t)
    (cmd : cstr) (text : Option cstr) (tree : List cmdptr) (c : cmdptr)
    (hfind : command_find mem tree cmd = some c)
    (hpriv : privs.has_priv si (mem c).access = true) (hmax : (mem c).maxparc ≤ 20) :
    ∃ parv, command_exec_split privs mem si cmd text tree =
        some [effect_t.handler (mem c).cmd si (text_to_parv text (mem c).maxparc).length parv] ∧
      parv.length = 20 ∧
      (∀ old : List (Option cstr), old.length = 20 →
        parv = parv_clear (20 - (text_to_parv text (mem c).maxparc).length)
          (text_to_parv text (mem c).maxparc).length
          (parv_store old (text_to_parv text (mem c).maxparc))) ∧
      parv.take (text_to_parv text (mem c).maxparc).length =
        (text_to_parv text (mem c).maxparc).map some ∧
      (∀ i : Nat, (text_to_parv text (mem c).maxparc).length ≤ i → i < 20 →
        parv[i]? = some none) ∧
      (∀ i : Nat, (text_to_parv text (mem c).maxparc).length ≤ i → (i : Int) < (mem c).maxparc →
        parv[i]? = some none) := by
  have hlen : (text_to_parv text (mem c).maxparc).length ≤ 20 := by
    have := text_to_parv_length_le text (mem c).maxparc
    omega
  have hnull : ∀ i : Nat, (text_to_parv text (mem c).maxparc).length ≤ i → i < 20 →
      (parv_fill (text_to_parv text (mem c).maxparc))[i]? = some none := by
    intro i h1 h2
    rw [parv_fill_eq _ hlen]
    rw [List.getElem?_append_right (by simpa using h1)]
    simp only [List.length_map]
    rw [List.getElem?_replicate]
    simp only [ite_eq_left_iff, not_lt]
    intro h3
    omega
  refine ⟨parv_fill (text_to_parv text (mem c).maxparc), ?_, ?_, ?_, ?_, hnull, ?_⟩
  · simp [command_exec_split, command_exec, hfind, hpriv,
      parv_overrun_of_le text (mem c).maxparc hmax]
  · rw [parv_fill_eq _ hlen]
    simp only [List.length_append, List.length_map, List.length_replicate]
    omega
  · intro old hold
    exact (parv_clear_store old _ hold hlen).symm
  · rw [parv_fill_eq _ hlen]
    simp
  · intro i h1 h2
    exact hnull i h1 (by omega)

theorem command_exec_split_parv_witness :
    ∃ parv, command_exec_split ⟨fun _ _ => true, fun _ => false⟩ two_kicks 5 "kick".toList
        (some "#chan nick".toList) [1] =
        some [effect_t.handler (two_kicks 1).cmd 5
          (text_to_parv (some "#chan nick".toList) (two_kicks 1).maxparc).length parv] ∧
      parv.length = 20 ∧ parv[2]? = some none :=
  (command_exec_split_parv ⟨fun _ _ => true, fun _ => false⟩ two_kicks 5 "kick".toList
    (some "#chan nick".toList) [1] 1 (by decide) (by decide) (by decide)).elim
    (fun parv h => ⟨parv, h.1, h.2.1, h.2.2.2.2.2 2 (by decide) (by decide)⟩)

theorem command_help_loop_eq (privs : privs_t) (translation_get : cstr → cstr) (mem : cmdstore)
    (si : sourceinfo_t) (tree : List cmdptr) :
    command_help_loop privs translation_get mem si tree =
      (tree.filter (fun c => privs.has_priv si (mem c).access)).map
        (fun c => help_line_t.entry (mem c).name (translation_get (mem c).desc)) := by
  induction tree with
  | nil => rfl
  | cons c rest ih =>
    by_cases h : privs.has_priv si (mem c).access = true
    · simp [command_help_loop, h, ih]
    · simp [command_help_loop, h, ih]

/-- C14: `command_help` emits one header line and then, for the commands of
the tree in the order of the tree, one line for each command `c` for which
`has_priv(si, c->access)` holds, made of the name of `c` and its (translated)
help summary; a command that fails the privilege check gives no line. -/
theorem command_help_lines (privs : privs_t) (translation_get : cstr → cstr) (mem : cmdstore)
    (si : sourceinfo_t) (main : Bool) (tree : List cmdptr) :
    command_help privs translation_get mem si main tree =
      (if main then help_line_t.commands_available else help_line_t.subcommands_available) ::
        (tree.filter (fun c => privs.has_priv si (mem c).access)).map
          (fun c => help_line_t.entry (mem c).name (translation_get (mem c).desc)) ∧
    (command_help privs translation_get mem si main tree).length =
      1 + (tree.filter (fun c => privs.has_priv si (mem c).access)).length := by
  unfold command_help
  rw [command_help_loop_eq]
  simp [Nat.add_comm]

/-! ### Short help listing -/

theorem strlcat_eq (dst src : cstr) (h : dst.length + src.length ≤ 255) :
    strlcat dst src 256 = dst ++ src := by
  unfold strlcat
  rw [List.take_of_length_le (by omega)]

theorem join_names_singleton (a : cstr) : join_names [a] = a := by
  simp [join_names, List.intercalate]

theorem join_names_cons_cons (a b : cstr) (t : List cstr) :
    join_names (a :: b :: t) = a ++ ", ".toList ++ join_names (b :: t) := by
  simp [join_names, List.intercalate, List.intersperse]

theorem join_names_append_singleton (cur : List cstr) (x : cstr) (h : cur ≠ []) :
    join_names (cur ++ [x]) = join_names cur ++ ", ".toList ++ x := by
  induction cur with
  | nil => exact absurd rfl h
  | cons a t ih =>
    cases t with
    | nil => simp [join_names_singleton, join_names_cons_cons]
    | cons b t2 =>
      rw [List.cons_append, List.cons_append, join_names_cons_cons, ← List.cons_append,
        ih (by simp), join_names_cons_cons]
      simp [List.append_assoc]

theorem join_names_length_pos (cur : List cstr) (h : cur ≠ []) (hne : ∀ x ∈ cur, x ≠ []) :
    0 < (join_names cur).length := by
  cases cur with
  | nil => exact absurd rfl h
  | cons a t =>
    have ha : 0 < a.length := List.length_pos.mpr (hne a (List.mem_cons_self _ _))
    cases t with
    | nil => rw [join_names_singleton]; exact ha
    | cons b t2 =>
      rw [join_names_cons_cons]
      simp only [List.length_append]
      omega

theorem groups_ok_cons (pre indent : cstr) (g : List cstr) (gs : List (List cstr)) (hg : g ≠ [])
    (hfit : line_fits pre g)
    (hflush : gs ≠ [] → 55 < (pre ++ join_names g ++ ", ".toList).length)
    (hrest : groups_ok indent indent gs) : groups_ok pre indent (g :: gs) := by
  cases gs with
  | nil => exact ⟨hg, hfit⟩
  | cons g2 gs2 => exact ⟨hg, hfit, hflush (by simp), hrest⟩

theorem command_help_short_other_eq (privs : privs_t) (mem : cmdstore) (si : sourceinfo_t)
    (maincmds : Option cstr) (lv : Nat) (tree : List cmdptr) :
    ∀ st, command_help_short_other privs mem si maincmds lv tree st =
      help_short_block lv (other_names privs mem si maincmds tree) st := by
  induction tree with
  | nil => intro st; rfl
  | cons c rest ih =>
    intro st
    rw [command_help_short_other]
    by_cases hc : (!string_in_list maincmds (mem c).name && privs.has_priv si (mem c).access) = true
    · simp only [hc, if_true, other_names, List.filter_cons, List.map_cons, help_short_block]
      cases help_short_add lv (mem c).name st with
      | none => rfl
      | some st1 => exact ih st1
    · simp only [hc, if_false, other_names, List.filter_cons]
      exact ih st

theorem command_help_short_main_eq (privs : privs_t) (translation_get : cstr → cstr)
    (mem : cmdstore) (si : sourceinfo_t) (maincmds : Option cstr) (tree : List cmdptr) :
    command_help_short_main privs translation_get mem si maincmds tree =
      (tree.filter (fun c =>
        string_in_list maincmds (mem c).name && privs.has_priv si (mem c).access)).map
          (fun c => help_line_t.entry (mem c).name (translation_get (mem c).desc)) := by
  induction tree with
  | nil => rfl
  | cons c rest ih =>
    rw [command_help_short_main]
    by_cases hc : (string_in_list maincmds (mem c).name && privs.has_priv si (mem c).access) = true
    · simp only [hc, if_true, List.filter_cons, List.map_cons, ih]
    · simp only [hc, Bool.false_eq_true, if_false, List.filter_cons, ih]

theorem join_names_nil : join_names [] = [] := rfl

/-- The wrapped block: what the second loop of `command_help_short` does with
the names `ns` when the line in `buf` begins with `pre` and holds the names
`cur`.  The names go into groups in order, the first group continuing `cur`. -/
theorem help_short_block_groups (lv : Nat) (hlv : 0 < lv) (hlv55 : lv ≤ 55) :
    ∀ (ns : List cstr) (pre : cstr) (cur : List cstr) (out : List help_line_t),
      pre.length ≤ 55 → (∀ x ∈ ns, x ≠ [] ∧ x.length ≤ 198) → (∀ x ∈ cur, x ≠ []) →
      (pre ++ join_names cur).length ≤ 253 →
      ∃ g1 gs out1 buf1 l1,
        help_short_block lv ns (out, pre ++ join_names cur, pre.length) = some (out1, buf1, l1) ∧
        ns = g1 ++ gs.flatten ∧
        out1 ++ (if buf1.length > l1 then [help_line_t.text buf1] else []) =
          out ++ (if cur ++ g1 = [] then []
            else (block_lines pre (List.replicate lv ' ') ((cur ++ g1) :: gs)).map
              help_line_t.text) ∧
        (∀ k, cur.length ≤ k → 0 < k → k < (cur ++ g1).length →
          (pre ++ join_names ((cur ++ g1).take k) ++ ", ".toList).length ≤ 55) ∧
        (gs ≠ [] → cur ++ g1 ≠ [] ∧
          55 < (pre ++ join_names (cur ++ g1) ++ ", ".toList).length) ∧
        (ns ≠ [] → cur ++ g1 ≠ []) ∧
        groups_ok (List.replicate lv ' ') (List.replicate lv ' ') gs := by
  intro ns
  induction ns with
  | nil =>
    intro pre cur out _ _ hcur _
    refine ⟨[], [], out, pre ++ join_names cur, pre.length, rfl, rfl, ?_, ?_, ?_, ?_, trivial⟩
    · by_cases hc : cur = []
      · subst hc
        simp [join_names_nil]
      · have := join_names_length_pos cur hc hcur
        simp only [List.append_nil, hc, if_false, block_lines, List.map_cons, List.map_nil,
          List.length_append]
        rw [if_pos (by omega)]
    · intro k h1 _ h2
      simp only [List.append_nil] at h2
      omega
    · intro h; exact absurd rfl h
    · intro h; exact absurd rfl h
  | cons x ns ih =>
    intro pre cur out hpre hns hcur hbuf
    have hx := hns x (List.mem_cons_self _ _)
    have hns2 : ∀ y ∈ ns, y ≠ [] ∧ y.length ≤ 198 := fun y hy => hns y (List.mem_cons_of_mem _ hy)
    rw [help_short_block]
    by_cases hc : cur = []
    · -- the first name of the block
      subst hc
      have hadd : help_short_add lv x (out, pre ++ join_names [], pre.length) =
          some (out, pre ++ join_names [x], pre.length) := by
        simp only [help_short_add, join_names_nil, join_names_singleton, List.append_nil,
          gt_iff_lt, Nat.lt_irrefl, if_false]
        rw [if_neg (by omega), strlcat_eq pre x (by omega)]
      rw [hadd]
      obtain ⟨g1, gs, out1, buf1, l1, h1, h2, h3, h4, h5, _, h7⟩ :=
        ih pre [x] out hpre hns2 (by simpa using hx.1)
          (by rw [join_names_singleton]; simp only [List.length_append]; omega)
      refine ⟨x :: g1, gs, out1, buf1, l1, h1, by rw [h2]; rfl, ?_, ?_, ?_, ?_, h7⟩
      · rw [h3]; simp
      · intro k _ hk0 hk
        exact h4 k (by simpa using hk0) hk0 (by simpa using hk)
      · intro hgs
        have := h5 hgs
        simpa using this
      · intro _; simp
    · have hjl := join_names_length_pos cur hc hcur
      have hgt : (pre ++ join_names cur).length > pre.length := by
        simp only [List.length_append]; omega
      have hsep : (", ".toList).length = 2 := rfl
      have hcat : strlcat (pre ++ join_names cur) ", ".toList 256 =
          pre ++ join_names cur ++ ", ".toList :=
        strlcat_eq _ _ (by rw [hsep]; omega)
      by_cases hfl : 55 < (pre ++ join_names cur ++ ", ".toList).length
      · -- the line is flushed
        have hadd : help_short_add lv x (out, pre ++ join_names cur, pre.length) =
            some (out ++ [help_line_t.text (pre ++ join_names cur ++ ", ".toList)],
              List.replicate lv ' ' ++ join_names [x], (List.replicate lv ' ').length) := by
          simp only [help_short_add, if_pos hgt, hcat, gt_iff_lt, if_pos hfl,
            Nat.pos_iff_ne_zero.mp hlv, if_false, join_names_singleton, List.length_replicate]
          rw [strlcat_eq _ x (by simp only [List.length_replicate]; omega)]
        rw [hadd]
        obtain ⟨g1, gs, out1, buf1, l1, h1, h2, h3, h4, h5, _, h7⟩ :=
          ih (List.replicate lv ' ') [x] (out ++ [help_line_t.text (pre ++ join_names cur ++ ", ".toList)])
            (by simpa using hlv55) hns2 (by simpa using hx.1)
            (by rw [join_names_singleton]; simp only [List.length_append, List.length_replicate]; omega)
        refine ⟨[], ([x] ++ g1) :: gs, out1, buf1, l1, h1, by rw [h2]; simp, ?_, ?_, ?_, ?_, ?_⟩
        · rw [h3]
          simp only [List.append_nil, hc, if_false, List.singleton_append, List.cons_ne_nil,
            block_lines, List.map_cons, List.append_assoc, List.singleton_append]
        · intro k h1 _ h2
          simp only [List.append_nil] at h2
          omega
        · intro _
          simp only [List.append_nil]
          exact ⟨hc, hfl⟩
        · intro _
          simpa using hc
        · refine groups_ok_cons _ _ _ _ (by simp) ?_ ?_ h7
          · intro k hk0 hk
            exact h4 k (by simpa using hk0) hk0 hk
          · intro hgs
            exact (h5 hgs).2
      · -- the name goes onto the line
        have hadd : help_short_add lv x (out, pre ++ join_names cur, pre.length) =
            some (out, pre ++ join_names (cur ++ [x]), pre.length) := by
          simp only [help_short_add, if_pos hgt, hcat, gt_iff_lt, if_neg hfl]
          rw [strlcat_eq _ x (by omega), join_names_append_singleton cur x hc]
          simp [List.append_assoc]
        rw [hadd]
        have hle : (pre ++ join_names cur ++ ", ".toList).length ≤ 55 := Nat.le_of_not_lt hfl
        obtain ⟨g1, gs, out1, buf1, l1, h1, h2, h3, h4, h5, _, h7⟩ :=
          ih pre (cur ++ [x]) out hpre hns2
            (by
              intro y hy
              simp only [List.mem_append, List.mem_singleton] at hy
              rcases hy with hy | hy
              · exact hcur y hy
              · rw [hy]; exact hx.1)
            (by
              rw [join_names_append_singleton cur x hc]
              simp only [List.length_append] at hle ⊢
              omega)
        refine ⟨x :: g1, gs, out1, buf1, l1, h1, by rw [h2]; rfl, ?_, ?_, ?_, ?_, h7⟩
        · rw [h3]
          simp only [List.append_assoc, List.singleton_append]
        · intro k hk1 hk0 hk
          by_cases hkc : k = cur.length
          · subst hkc
            rw [List.take_left]
            exact hle
          · have := h4 k (by simp only [List.length_append, List.length_singleton]; omega) hk0
              (by simpa [List.append_assoc] using hk)
            simpa [List.append_assoc] using this
        · intro hgs
          have := h5 hgs
          simpa [List.append_assoc] using this
        · intro _
          simp [hc]

/-! ### Names in a list of names -/

theorem strncasecmp_eq_zero_iff (b : cstr) :
    ∀ (a : cstr), b.length ≤ a.length →
      (strncasecmp a b b.length = 0 ↔ eq_ignoring_case (a.take b.length) b) := by
  induction b with
  | nil =>
    intro a _
    simp [strncasecmp, eq_ignoring_case]
  | cons y ys ih =>
    intro a ha
    cases a with
    | nil => simp at ha
    | cons x xs =>
      simp only [List.length_cons, Nat.succ_le_succ_iff] at ha
      simp only [List.length_cons, strncasecmp, List.take_succ_cons, eq_ignoring_case,
        List.forall₂_cons]
      by_cases hxy : tolower x = tolower y
      · rw [if_pos hxy, ih xs ha]
        exact ⟨fun h => ⟨(tolower_eq_iff x y).mp hxy, h⟩, fun h => h.2⟩
      · rw [if_neg hxy]
        constructor
        · intro h; exact absurd (by omega) hxy
        · intro h; exact absurd ((tolower_eq_iff x y).mpr h.1) hxy

theorem spec_words_nil : spec_words [] = [] := rfl

/-- On C strings `string_in_list` finds a name that is not empty exactly if it
is, up to letter case, one of the words of the list between spaces. -/
theorem string_in_list_loop_iff (name : cstr) (hname : cstr_ok name) (hne : name ≠ []) :
    ∀ (k : Nat) (str : cstr), cstr_ok str → str.length < k →
      (string_in_list_loop name k str = true ↔
        ∃ w ∈ spec_words str, eq_ignoring_case w name) := by
  intro k
  induction k with
  | zero => intro str _ h; omega
  | succ k ih =>
    intro str hstr hlen
    rw [string_in_list_loop]
    cases str with
    | nil => simp [spec_words_nil]
    | cons c cs =>
      simp only [List.cons_ne_nil, not_false_eq_true, if_false, reduceCtorEq]
      have hsplit := List.takeWhile_append_dropWhile (fun x => x != ' ') (c :: cs)
      have hlen2 : ((c :: cs).takeWhile (fun x => x != ' ')).length +
          ((c :: cs).dropWhile (fun x => x != ' ')).length = (c :: cs).length := by
        rw [← List.length_append, hsplit]
      have hdrop : (c :: cs).drop ((c :: cs).takeWhile (fun x => x != ' ')).length =
          (c :: cs).dropWhile (fun x => x != ' ') := by
        have h := List.drop_left ((c :: cs).takeWhile (fun x => x != ' '))
          ((c :: cs).dropWhile (fun x => x != ' '))
        rw [hsplit] at h
        exact h
      have htake : (c :: cs).take ((c :: cs).takeWhile (fun x => x != ' ')).length =
          (c :: cs).takeWhile (fun x => x != ' ') := by
        have h := List.take_left ((c :: cs).takeWhile (fun x => x != ' '))
          ((c :: cs).dropWhile (fun x => x != ' '))
        rw [hsplit] at h
        exact h
      have hokd : ∀ (l : cstr), cstr_ok l → cstr_ok (l.dropWhile (fun x => x == ' ')) :=
        fun l hl x hx => hl x ((List.dropWhile_sublist _).subset hx)
      have hokn : cstr_ok ((c :: cs).dropWhile (fun x => x != ' ')) :=
        fun x hx => hstr x ((List.dropWhile_sublist _).subset hx)
      by_cases hc : c = ' '
      · subst hc
        have htw : (' ' :: cs).takeWhile (fun x => x != ' ') = [] := by simp
        have hn0 : name.length ≠ 0 := fun h => hne (List.length_eq_zero.mp h)
        simp only [htw, List.length_nil, List.length_cons, Nat.zero_lt_succ, if_true,
          List.drop_zero]
        rw [if_neg (by simp [Ne.symm hn0])]
        rw [spec_words_skip (' ' :: cs)]
        refine ih _ (hokd _ hstr) ?_
        have : ((' ' :: cs).dropWhile (fun x => x == ' ')).length ≤ cs.length := by
          simp only [List.dropWhile_cons, beq_self_eq_true, if_true]
          exact (List.dropWhile_sublist _).length_le
        simp only [List.length_cons] at hlen
        omega
      · rw [spec_words_cons c cs hc]
        by_cases hdw : (c :: cs).dropWhile (fun x => x != ' ') = []
        · have hfull : (c :: cs).takeWhile (fun x => x != ' ') = c :: cs := by
            rw [hdw, List.append_nil] at hsplit
            exact hsplit
          rw [hdw, List.length_nil, Nat.add_zero] at hlen2
          rw [if_neg (by omega), hfull, hdw, spec_words_nil]
          simp only [beq_iff_eq, List.mem_singleton, exists_eq_left]
          exact strcasecmp_eq_zero_iff _ _ hstr hname
        · have hpos : 0 < ((c :: cs).dropWhile (fun x => x != ' ')).length :=
            List.length_pos.mpr hdw
          rw [if_pos (by omega)]
          have hcond : (decide (((c :: cs).takeWhile (fun x => x != ' ')).length = name.length) &&
              strncasecmp (c :: cs) name ((c :: cs).takeWhile (fun x => x != ' ')).length == 0) =
                true ↔ eq_ignoring_case ((c :: cs).takeWhile (fun x => x != ' ')) name := by
            simp only [Bool.and_eq_true, decide_eq_true_eq, beq_iff_eq]
            constructor
            · rintro ⟨h1, h2⟩
              rw [h1] at h2
              have := (strncasecmp_eq_zero_iff name (c :: cs) (by omega)).mp h2
              rw [← h1, htake] at this
              exact this
            · intro h
              have h1 : ((c :: cs).takeWhile (fun x => x != ' ')).length = name.length :=
                List.Forall₂.length_eq h
              refine ⟨h1, ?_⟩
              rw [h1]
              apply (strncasecmp_eq_zero_iff name (c :: cs) (by omega)).mpr
              rw [← h1, htake]
              exact h
          by_cases hm : eq_ignoring_case ((c :: cs).takeWhile (fun x => x != ' ')) name
          · rw [if_pos (hcond.mpr hm)]
            simp only [true_iff]
            exact ⟨_, List.mem_cons_self _ _, hm⟩
          · rw [if_neg (fun h => hm (hcond.mp h)), hdrop]
            have hlt : (((c :: cs).dropWhile (fun x => x != ' ')).dropWhile
                (fun x => x == ' ')).length < k := by
              have h1 := (List.dropWhile_sublist (fun x => x == ' ')
                (l := (c :: cs).dropWhile (fun x => x != ' '))).length_le
              have h2 : 0 < ((c :: cs).takeWhile (fun x => x != ' ')).length := by
                simp [List.takeWhile_cons, hc]
              omega
            rw [ih _ (hokd _ hokn) hlt, ← spec_words_skip]
            constructor
            · rintro ⟨w, hw, he⟩
              exact ⟨w, List.mem_cons_of_mem _ hw, he⟩
            · rintro ⟨w, hw, he⟩
              rcases List.mem_cons.mp hw with hw | hw
              · rw [hw] at he; exact absurd he hm
              · exact ⟨w, hw, he⟩

theorem groups_ok_flatten_ne_nil (pre indent : cstr) (g : List cstr) (gs : List (List cstr))
    (h : groups_ok pre indent (g :: gs)) : (g :: gs).flatten ≠ [] := by
  have hg : g ≠ [] := by
    cases gs with
    | nil => exact h.1
    | cons g2 gs2 => exact h.1
  intro hf
  simp only [List.flatten_cons, List.append_eq_nil] at hf
  exact hg hf.1

/-- The lines of `command_help_short` when no name overflows the buffer. -/
theorem command_help_short_groups (privs : privs_t) (translation_get : cstr → cstr)
    (mem : cmdstore) (si : sourceinfo_t) (main : Bool) (tree : List cmdptr)
    (maincmds : Option cstr) (hhdr : (translation_get other_commands).length ≤ 55)
    (hlv : 0 < visible_count (translation_get other_commands))
    (hnames : ∀ x ∈ other_names privs mem si maincmds tree, x ≠ [] ∧ x.length ≤ 198) :
    ∃ groups : List (List cstr),
      groups.flatten = other_names privs mem si maincmds tree ∧
      groups_ok (translation_get other_commands)
        (List.replicate (visible_count (translation_get other_commands)) ' ') groups ∧
      command_help_short privs translation_get mem si main tree maincmds =
        some ((if main then help_line_t.commands_available
            else help_line_t.subcommands_available) ::
          (tree.filter (fun c =>
            string_in_list maincmds (mem c).name && privs.has_priv si (mem c).access)).map
              (fun c => help_line_t.entry (mem c).name (translation_get (mem c).desc)) ++
          [help_line_t.text " ".toList] ++
          (block_lines (translation_get other_commands)
            (List.replicate (visible_count (translation_get other_commands)) ' ') groups).map
              help_line_t.text) ∧
      (other_names privs mem si maincmds tree = [] → groups = []) := by
  have hcpy : strlcpy (translation_get other_commands) 256 = translation_get other_commands := by
    unfold strlcpy
    exact List.take_of_length_le (by omega)
  have hlv55 : visible_count (translation_get other_commands) ≤ 55 :=
    Nat.le_trans (List.length_filter_le _ _) hhdr
  obtain ⟨g1, gs, out1, buf1, l1, h1, h2, h3, h4, h5, h6, h7⟩ :=
    help_short_block_groups (visible_count (translation_get other_commands)) hlv hlv55
      (other_names privs mem si maincmds tree) (translation_get other_commands) [] [] hhdr hnames
      (by intro x hx; cases hx) (by rw [join_names_nil, List.append_nil]; omega)
  rw [join_names_nil, List.append_nil] at h1
  have hrun : command_help_short privs translation_get mem si main tree maincmds =
      some ((if main then help_line_t.commands_available
          else help_line_t.subcommands_available) ::
        command_help_short_main privs translation_get mem si maincmds tree ++
        [help_line_t.text " ".toList] ++ out1 ++
        (if buf1.length > l1 then [help_line_t.text buf1] else [])) := by
    unfold command_help_short
    rw [hcpy, command_help_short_other_eq, h1]
  rw [hrun, command_help_short_main_eq]
  simp only [List.nil_append] at h3 h4 h5 h6
  by_cases hg : g1 = []
  · have hgs : gs = [] := by
      by_contra hne
      exact (h5 hne).1 hg
    refine ⟨[], ?_, trivial, ?_, fun _ => rfl⟩
    · rw [h2, hg, hgs]; rfl
    · rw [List.append_assoc _ out1, h3, if_pos hg]
      simp [block_lines]
  · refine ⟨g1 :: gs, ?_, ?_, ?_, ?_⟩
    · rw [h2]; rfl
    · exact groups_ok_cons _ _ _ _ hg (fun k hk0 hk => h4 k (Nat.zero_le _) hk0 hk)
        (fun hne => (h5 hne).2) h7
    · rw [List.append_assoc _ out1, h3, if_neg hg]
    · intro hnil
      rw [hnil] at h2
      have : g1 = [] := (List.append_eq_nil.mp h2.symm).1
      exact absurd this hg

/-- C25, for names that fit the buffer.  Let the translated text `Other
commands:` have at most 55 characters, one of them no control character, and
let every command that the second loop lists have a name that is not empty and
has at most 198 characters.  Then `command_help_short` sends the header line,
then one line with name and summary for each command with `has_priv` whose name
`string_in_list` finds in `maincmds`, in the order of the tree, then the line
`" "`, then the block: the names of the other commands with `has_priv`, each
once and whole and in the order of the tree, in groups of one line each, joined
by `", "`, the first line behind the translated text and the later ones behind
as many spaces as that text has visible characters.  A name goes onto a line
that has names only while the line with its `", "` has at most 55 characters;
else the line is sent, ending in `", "`, and the name begins the next one.
There is no block line if there is no such command.  On C strings
`string_in_list` finds a name that is not empty exactly if it is, up to letter
case, one of the words of `maincmds` between spaces. -/
theorem command_help_short_lines (privs : privs_t) (translation_get : cstr → cstr)
    (mem : cmdstore) (si : sourceinfo_t) (main : Bool) (tree : List cmdptr)
    (maincmds : Option cstr) (hhdr : (translation_get other_commands).length ≤ 55)
    (hlv : 0 < visible_count (translation_get other_commands))
    (hnames : ∀ x ∈ other_names privs mem si maincmds tree, x ≠ [] ∧ x.length ≤ 198) :
    (∃ groups : List (List cstr),
      groups.flatten = other_names privs mem si maincmds tree ∧
      groups_ok (translation_get other_commands)
        (List.replicate (visible_count (translation_get other_commands)) ' ') groups ∧
      command_help_short privs translation_get mem si main tree maincmds =
        some ((if main then help_line_t.commands_available
            else help_line_t.subcommands_available) ::
          (tree.filter (fun c =>
            string_in_list maincmds (mem c).name && privs.has_priv si (mem c).access)).map
              (fun c => help_line_t.entry (mem c).name (translation_get (mem c).desc)) ++
          [help_line_t.text " ".toList] ++
          (block_lines (translation_get other_commands)
            (List.replicate (visible_count (translation_get other_commands)) ' ') groups).map
              help_line_t.text) ∧
      (other_names privs mem si maincmds tree = [] → groups = [])) ∧
    ∀ str name, maincmds = some str → cstr_ok str → cstr_ok name → name ≠ [] →
      (string_in_list maincmds name = true ↔ ∃ w ∈ spec_words str, eq_ignoring_case w name) := by
  refine ⟨command_help_short_groups privs translation_get mem si main tree maincmds hhdr hlv
    hnames, ?_⟩
  intro str name hm hstr hname hne
  subst hm
  exact string_in_list_loop_iff name hname hne _ str hstr (Nat.lt_succ_self _)

theorem command_help_short_lines_witness :
    ∃ groups : List (List cstr),
      groups.flatten =
        other_names privs_all nine_commands 0 (some "help".toList) [1, 2, 3, 4, 5, 6, 7, 8, 9] ∧
      groups_ok other_commands (List.replicate (visible_count other_commands) ' ') groups ∧
      command_help_short privs_all id nine_commands 0 true [1, 2, 3, 4, 5, 6, 7, 8, 9]
          (some "help".toList) =
        some ((if true then help_line_t.commands_available
            else help_line_t.subcommands_available) ::
          ([1, 2, 3, 4, 5, 6, 7, 8, 9].filter (fun c =>
            string_in_list (some "help".toList) (nine_commands c).name &&
              privs_all.has_priv 0 (nine_commands c).access)).map
              (fun c => help_line_t.entry (nine_commands c).name (id (nine_commands c).desc)) ++
          [help_line_t.text " ".toList] ++
          (block_lines other_commands
            (List.replicate (visible_count other_commands) ' ') groups).map help_line_t.text) ∧
      (other_names privs_all nine_commands 0 (some "help".toList) [1, 2, 3, 4, 5, 6, 7, 8, 9] = [] →
        groups = []) :=
  (command_help_short_lines privs_all id nine_commands 0 true [1, 2, 3, 4, 5, 6, 7, 8, 9]
    (some "help".toList) (by decide) (by decide) (by decide)).1

/-- C25 fails for a name that does not fit the buffer: with the text `Other
commands:` untranslated and one command, for which `has_priv` holds and which
is not in `maincmds`, whose name has 250 letters, the block is one line of 255
characters, the text and the first 237 letters of the name; nine short names
are listed as the claim says, on two lines. -/
theorem command_help_short_long_name :
    (long_names 1).name.length = 250 ∧
      command_help_short privs_all id long_names 0 true [1] none =
        some [help_line_t.commands_available, help_line_t.text " ".toList,
          help_line_t.text (other_commands ++ List.replicate 237 'A')] ∧
      command_help_short privs_all id nine_commands 0 true [1, 2, 3, 4, 5, 6, 7, 8, 9]
          (some "help".toList) =
        some [help_line_t.commands_available,
          help_line_t.entry "HELP".toList "A command.".toList, help_line_t.text " ".toList,
          help_line_t.text
            (other_commands ++ "KICK, OP, DEOP, VOICE, DEVOICE, INVITE, ".toList),
          help_line_t.text ("                UNBAN, TOPIC".toList)] := by
  decide!

/-! ## Theorems: module loader -/

/-- A load that fails one of the checks takes a failing path, on which no
callback is invoked. -/
theorem load_precheck_of_not_checks (env : env_t) (filespec : cstr) (s : mstate)
    (h : ¬ load_checks env s filespec) :
    ∃ evs, load_precheck env s filespec = Except.error evs ∧ ∀ e ∈ evs, e.is_callback = false := by
  unfold load_precheck
  split
  · exact ⟨_, rfl, by simp [event_t.is_callback]⟩
  · rename_i hfind
    split
    · exact ⟨_, rfl, by simp [event_t.is_callback]⟩
    · rename_i handle hopen
      split
      · exact ⟨_, rfl, by simp [event_t.is_callback]⟩
      · rename_i hd hflt
        have hhd : env.header handle = some hd ∧ hd.atheme_mod = env.MAPI_ATHEME_MAGIC := by
          cases hh : env.header handle with
          | none => simp [hh] at hflt
          | some hd2 =>
            rw [hh] at hflt
            simp only [Option.filter] at hflt
            split at hflt
            · rename_i hm
              simp only [Option.some.injEq] at hflt
              subst hflt
              exact ⟨rfl, by simpa using hm⟩
            · cases hflt
        split
        · exact ⟨_, rfl, by simp [event_t.is_callback]⟩
        · rename_i hver
          split
          · exact ⟨_, rfl, by simp [event_t.is_callback]⟩
          · rename_i hrev
            split
            · exact ⟨_, rfl, by simp [event_t.is_callback]⟩
            · rename_i hpub
              exact absurd ⟨hfind, handle, hopen, hd, hhd.1, hhd.2, not_not.mp hver,
                not_not.mp hrev, hpub⟩ h

/-- A load that fails one of the checks returns `NULL` and leaves the state as
it was, but for events that are no callbacks. -/
theorem module_load_of_not_checks (env : env_t) (fuel : Nat) (filespec : cstr) (s : mstate)
    (h : ¬ load_checks env s filespec) :
    ∃ evs, module_load env (fuel + 1) filespec s = res_t.ok (none, { s with trace := s.trace ++ evs }) ∧
      ∀ e ∈ evs, e.is_callback = false := by
  obtain ⟨evs, hev, hall⟩ := load_precheck_of_not_checks env filespec s h
  exact ⟨evs, by simp [module_load, hev], hall⟩

/-- C1: in `module_load` a callback runs only if every check before it has
passed (no registered module with this path, the code object opened, header
present with the right magic tag, MAPI version and ABI revision, no registered
module with the same published name).  A load that fails one of the checks
returns `NULL`, changes nothing but the event log, and invokes no callback,
neither init nor deinit; so a load in whose course an init or deinit callback
is invoked, whether or not the load runs to its end, has passed all the
checks. -/
theorem module_load_callbacks_only_after_checks (env : env_t) (fuel : Nat) (filespec : cstr)
    (s : mstate) :
    (¬ load_checks env s filespec →
      ∃ evs, module_load env (fuel + 1) filespec s =
          res_t.ok (none, { s with trace := s.trace ++ evs }) ∧
        ∀ e ∈ evs, e.is_callback = false) ∧
      ((∃ e ∈ (apply_mod_op env (fuel + 1) (mod_op.load filespec) s).reached.trace.drop
          s.trace.length, e.is_callback = true) → load_checks env s filespec) := by
  refine ⟨module_load_of_not_checks env fuel filespec s, ?_⟩
  rintro ⟨e, he, hcb⟩
  by_contra hno
  obtain ⟨evs, hev, hall⟩ := module_load_of_not_checks env fuel filespec s hno
  simp only [apply_mod_op, hev, res_t.reached, List.drop_left] at he
  rw [hall e he] at hcb
  cases hcb

theorem demo_load_bad_magic_not_checks : ¬ load_checks demo_env mstate.init "e.so".toList := by
  rintro ⟨_, handle, hopen, h, hh, hmagic, _⟩
  have h5 : handle = 5 := by
    have : demo_env.linker_open_ext "e.so".toList = some 5 := by decide!
    rw [this] at hopen
    exact (Option.some.inj hopen).symm
  subst h5
  have : h = { demo_header "e".toList modinit_t.done 15 with atheme_mod := 8 } :=
    (Option.some.inj hh).symm
  subst this
  revert hmagic
  decide

theorem module_load_callbacks_only_after_checks_witness :
    ∃ evs, module_load demo_env 1 "e.so".toList mstate.init =
        res_t.ok (none, { mstate.init with trace := mstate.init.trace ++ evs }) ∧
      ∀ e ∈ evs, e.is_callback = false :=
  (module_load_callbacks_only_after_checks demo_env 0 "e.so".toList mstate.init).1
    demo_load_bad_magic_not_checks

/-! ### Lists of nodes -/

theorem node_find_del (data : Nat) (l : List Nat) :
    (match node_find data l with
      | some n => node_del n l
      | none => l) = l.erase data := by
  cases hf : node_find data l with
  | none =>
    have := (node_find_eq_none data l).mp hf
    simp [List.erase_of_not_mem this]
  | some n =>
    obtain ⟨_, hn⟩ := node_find_eq_some data l n hf
    simp [node_del, hn]

theorem node_del_zero (l : List Nat) : node_del 0 l = l.tail := by
  cases l <;> rfl

theorem node_find_some_mem (data : Nat) (l : List Nat) (n : Nat) (h : node_find data l = some n) :
    data ∈ l :=
  (node_find_eq_some data l n h).1

theorem sublist_cons_head (t : Nat) (l r : List Nat) (hs : l.Sublist (t :: r)) (hmem : t ∈ l)
    (hnot : t ∉ r) : ∃ l1, l = t :: l1 := by
  cases hs with
  | cons _ h => exact absurd (h.subset hmem) hnot
  | cons₂ _ h => exact ⟨_, rfl⟩

theorem sublist_cons_of_not_mem (n : Nat) (l r : List Nat) (hs : l.Sublist (n :: r)) (hnot : n ∉ l) :
    l.Sublist r := by
  cases hs with
  | cons _ h => exact h
  | cons₂ _ h => simp at hnot

/-! ### Stores and the edge invariant -/

theorem heap_update_same (heap : modptr → Option module_t) (p : modptr) (f : module_t → module_t) :
    heap_update heap p f p = (heap p).map f := by
  simp [heap_update]

theorem heap_update_other (heap : modptr → Option module_t) (p q : modptr) (f : module_t → module_t)
    (h : q ≠ p) : heap_update heap p f q = heap q := by
  simp [heap_update, h]

theorem heap_le_refl (heap : modptr → Option module_t) : heap_le heap heap :=
  fun _ r1 h => ⟨r1, h, List.Sublist.refl _, List.Sublist.refl _⟩

theorem heap_le_trans (h2 h1 h0 : modptr → Option module_t) (a : heap_le h2 h1) (b : heap_le h1 h0) :
    heap_le h2 h0 := by
  intro p r2 hp
  obtain ⟨r1, hr1, hd1, hh1⟩ := a p r2 hp
  obtain ⟨r0, hr0, hd0, hh0⟩ := b p r1 hr1
  exact ⟨r0, hr0, hd1.trans hd0, hh1.trans hh0⟩

theorem edges_ok_symmetric (heap : modptr → Option module_t) (h : edges_ok heap)
    (a b : modptr) (ra rb : module_t) (ha : heap a = some ra) (hb : heap b = some rb) :
    b ∈ ra.deplist ↔ a ∈ rb.dephost := by
  constructor
  · intro hmem
    obtain ⟨rb2, hb2, hin⟩ := (h a ra ha).2.2.1 b hmem
    rw [hb] at hb2
    cases hb2
    exact hin
  · intro hmem
    obtain ⟨ra2, ha2, hin⟩ := (h b rb hb).2.2.2 a hmem
    rw [ha] at ha2
    cases ha2
    exact hin

/-- A store that rewrites the two lists of every object, those of `a` by `fd a`
and `fh a`, keeps the edge invariant if the rewritten lists are duplicate-free,
mutually inverse and hold allocated modules only. -/
theorem edges_ok_map (heap heap2 : modptr → Option module_t)
    (fd fh : modptr → List modptr → List modptr)
    (hmap : ∀ a, (heap2 a).map (fun r => (r.deplist, r.dephost)) =
      (heap a).map (fun r => (fd a r.deplist, fh a r.dephost)))
    (hnd : ∀ a ra, heap a = some ra → (fd a ra.deplist).Nodup ∧ (fh a ra.dephost).Nodup)
    (hdep : ∀ a b ra rb, heap a = some ra → heap b = some rb → b ∈ fd a ra.deplist →
      a ∈ fh b rb.dephost)
    (hhost : ∀ a b ra rb, heap a = some ra → heap b = some rb → b ∈ fh a ra.dephost →
      a ∈ fd b rb.deplist)
    (hclosed : ∀ a b ra, heap a = some ra → (b ∈ fd a ra.deplist ∨ b ∈ fh a ra.dephost) →
      (heap b).isSome = true) :
    edges_ok heap2 := by
  have hback : ∀ a ra2, heap2 a = some ra2 →
      ∃ ra, heap a = some ra ∧ ra2.deplist = fd a ra.deplist ∧ ra2.dephost = fh a ra.dephost := by
    intro a ra2 ha2
    have := hmap a
    rw [ha2] at this
    cases ha : heap a with
    | none => simp [ha] at this
    | some ra =>
      rw [ha] at this
      simp only [Option.map_some', Option.some.injEq, Prod.mk.injEq] at this
      exact ⟨ra, rfl, this.1, this.2⟩
  have hfwd : ∀ b rb, heap b = some rb →
      ∃ rb2, heap2 b = some rb2 ∧ rb2.deplist = fd b rb.deplist ∧ rb2.dephost = fh b rb.dephost := by
    intro b rb hb
    have := hmap b
    rw [hb] at this
    cases hb2 : heap2 b with
    | none => simp [hb2] at this
    | some rb2 =>
      rw [hb2] at this
      simp only [Option.map_some', Option.some.injEq, Prod.mk.injEq] at this
      exact ⟨rb2, rfl, this.1, this.2⟩
  intro a ra2 ha2
  obtain ⟨ra, ha, hd, hh⟩ := hback a ra2 ha2
  rw [hd, hh]
  refine ⟨(hnd a ra ha).1, (hnd a ra ha).2, ?_, ?_⟩
  · intro b hb
    have hsome := hclosed a b ra ha (Or.inl hb)
    cases hbb : heap b with
    | none => simp [hbb] at hsome
    | some rb =>
      obtain ⟨rb2, hb2, _, hh2⟩ := hfwd b rb hbb
      exact ⟨rb2, hb2, by rw [hh2]; exact hdep a b ra rb ha hbb hb⟩
  · intro b hb
    have hsome := hclosed a b ra ha (Or.inr hb)
    cases hbb : heap b with
    | none => simp [hbb] at hsome
    | some rb =>
      obtain ⟨rb2, hb2, hd2, _⟩ := hfwd b rb hbb
      exact ⟨rb2, hb2, by rw [hd2]; exact hhost a b ra rb ha hbb hb⟩

theorem edges_ok_live_dep (heap : modptr → Option module_t) (h : edges_ok heap) (a b : modptr)
    (ra : module_t) (ha : heap a = some ra) (hb : b ∈ ra.deplist) : (heap b).isSome = true := by
  obtain ⟨rb, hrb, _⟩ := (h a ra ha).2.2.1 b hb
  simp [hrb]

theorem edges_ok_live_host (heap : modptr → Option module_t) (h : edges_ok heap) (a b : modptr)
    (ra : module_t) (ha : heap a = some ra) (hb : b ∈ ra.dephost) : (heap b).isSome = true := by
  obtain ⟨rb, hrb, _⟩ := (h a ra ha).2.2.2 b hb
  simp [hrb]

/-- A store that leaves the lists of every object as they are. -/
theorem edges_ok_same_lists (heap heap2 : modptr → Option module_t)
    (hmap : ∀ a, (heap2 a).map (fun r => (r.deplist, r.dephost)) =
      (heap a).map (fun r => (r.deplist, r.dephost)))
    (h : edges_ok heap) : edges_ok heap2 := by
  refine edges_ok_map heap heap2 (fun _ l => l) (fun _ l => l) hmap ?_ ?_ ?_ ?_
  · intro a ra ha
    exact ⟨(h a ra ha).1, (h a ra ha).2.1⟩
  · intro a b ra rb ha hb hmem
    exact (edges_ok_symmetric heap h a b ra rb ha hb).mp hmem
  · intro a b ra rb ha hb hmem
    exact (edges_ok_symmetric heap h b a rb ra hb ha).mpr hmem
  · intro a b ra ha hmem
    rcases hmem with hmem | hmem
    · exact edges_ok_live_dep heap h a b ra ha hmem
    · exact edges_ok_live_host heap h a b ra ha hmem

/-- The edge `t -> m` is added (module_locate_symbol, lines 340-341). -/
theorem edges_ok_add (heap : modptr → Option module_t) (t m : modptr) (tr : module_t)
    (ht : heap t = some tr) (hm : (heap m).isSome = true) (hnot : m ∉ tr.deplist)
    (h : edges_ok heap) :
    edges_ok (heap_update (heap_update heap t (fun r => { r with deplist := node_add m r.deplist }))
      m (fun r => { r with dephost := node_add t r.dephost })) := by
  refine edges_ok_map heap _ (fun a l => if a = t then l ++ [m] else l)
    (fun a l => if a = m then l ++ [t] else l) ?_ ?_ ?_ ?_ ?_
  · intro a
    by_cases ham : a = m <;> by_cases hat : a = t <;>
      cases ha : heap a <;> simp [heap_update, ham, hat, ha, node_add] <;> simp_all
  · intro a ra ha
    constructor
    · by_cases hat : a = t
      · subst hat
        rw [ht] at ha; cases ha
        simp only [if_true]
        exact List.Nodup.append (h a tr ht).1 (List.nodup_singleton m) (by simpa using hnot)
      · simp only [if_neg hat]; exact (h a ra ha).1
    · by_cases ham : a = m
      · subst ham
        simp only [if_true]
        refine List.Nodup.append (h a ra ha).2.1 (List.nodup_singleton t) ?_
        simp only [List.disjoint_singleton]
        intro hmem
        exact hnot ((edges_ok_symmetric heap h t a tr ra ht ha).mpr hmem)
      · simp only [if_neg ham]; exact (h a ra ha).2.1
  · intro a b ra rb ha hb hmem
    have horig : b ∈ ra.deplist → a ∈ (if b = m then rb.dephost ++ [t] else rb.dephost) := by
      intro hm1
      have := (edges_ok_symmetric heap h a b ra rb ha hb).mp hm1
      split <;> simp [this]
    by_cases hat : a = t
    · simp only [hat, if_true, List.mem_append, List.mem_singleton] at hmem
      rcases hmem with hmem | hmem
      · exact horig hmem
      · simp [hmem, hat]
    · simp only [if_neg hat] at hmem
      exact horig hmem
  · intro a b ra rb ha hb hmem
    have horig : b ∈ ra.dephost → a ∈ (if b = t then rb.deplist ++ [m] else rb.deplist) := by
      intro hm1
      have := (edges_ok_symmetric heap h b a rb ra hb ha).mpr hm1
      split <;> simp [this]
    by_cases ham : a = m
    · simp only [ham, if_true, List.mem_append, List.mem_singleton] at hmem
      rcases hmem with hmem | hmem
      · exact horig hmem
      · simp [hmem, ham]
    · simp only [if_neg ham] at hmem
      exact horig hmem
  · intro a b ra ha hmem
    rcases hmem with hmem | hmem
    · by_cases hat : a = t
      · simp only [hat, if_true, List.mem_append, List.mem_singleton] at hmem
        rcases hmem with hmem | hmem
        · exact edges_ok_live_dep heap h a b ra ha hmem
        · rw [hmem]; exact hm
      · simp only [if_neg hat] at hmem
        exact edges_ok_live_dep heap h a b ra ha hmem
    · by_cases ham : a = m
      · simp only [ham, if_true, List.mem_append, List.mem_singleton] at hmem
        rcases hmem with hmem | hmem
        · exact edges_ok_live_host heap h a b ra ha hmem
        · rw [hmem, ht]; rfl
      · simp only [if_neg ham] at hmem
        exact edges_ok_live_host heap h a b ra ha hmem

theorem heap_le_of_map (heap heap2 : modptr → Option module_t)
    (fd fh : modptr → List modptr → List modptr)
    (hmap : ∀ a, (heap2 a).map (fun r => (r.deplist, r.dephost)) =
      (heap a).map (fun r => (fd a r.deplist, fh a r.dephost)))
    (hd : ∀ a l, (fd a l).Sublist l) (hh : ∀ a l, (fh a l).Sublist l) : heap_le heap2 heap := by
  intro p r1 hp
  have := hmap p
  rw [hp] at this
  cases hp0 : heap p with
  | none => simp [hp0] at this
  | some r0 =>
    rw [hp0] at this
    simp only [Option.map_some', Option.some.injEq, Prod.mk.injEq] at this
    exact ⟨r0, rfl, this.1 ▸ hd p r0.deplist, this.2 ▸ hh p r0.dephost⟩

/-- The lists after one iteration of the second loop of `module_unload`. -/
theorem heap_del_lists (heap : modptr → Option module_t) (m hm : modptr) (a : modptr) :
    ((heap_update (heap_update heap hm (fun r =>
        { r with dephost :=
            match node_find m r.dephost with
            | some hn => node_del hn r.dephost
            | none => r.dephost }))
      m (fun r => { r with deplist := node_del 0 r.deplist })) a).map
        (fun r => (r.deplist, r.dephost)) =
      (heap a).map (fun r => (if a = m then r.deplist.tail else r.deplist,
        if a = hm then r.dephost.erase m else r.dephost)) := by
  by_cases ham : a = m <;> by_cases hah : a = hm <;>
    cases ha : heap a <;>
    simp [heap_update, ham, hah, ha, node_find_del, node_del_zero] <;> simp_all

/-- One iteration of the second loop of `module_unload`: the edge `m -> hm`,
first in the `deplist` of `m`, is removed from both lists. -/
theorem edges_ok_del (heap : modptr → Option module_t) (m hm : modptr) (mr : module_t)
    (rest : List modptr) (hmr : heap m = some mr) (hdl : mr.deplist = hm :: rest)
    (h : edges_ok heap) :
    edges_ok (heap_update (heap_update heap hm (fun r =>
        { r with dephost :=
            match node_find m r.dephost with
            | some hn => node_del hn r.dephost
            | none => r.dephost }))
      m (fun r => { r with deplist := node_del 0 r.deplist })) := by
  have hnd := (h m mr hmr).1
  rw [hdl] at hnd
  refine edges_ok_map heap _ (fun a l => if a = m then l.tail else l)
    (fun a l => if a = hm then l.erase m else l) (heap_del_lists heap m hm) ?_ ?_ ?_ ?_
  · intro a ra ha
    beta_reduce
    constructor
    · split
      · exact (h a ra ha).1.sublist (List.tail_sublist _)
      · exact (h a ra ha).1
    · split
      · exact (h a ra ha).2.1.erase m
      · exact (h a ra ha).2.1
  · intro a b ra rb ha hb hmem
    beta_reduce at hmem ⊢
    by_cases ham : a = m
    · subst ham
      rw [hmr] at ha; cases ha
      simp only [if_true, hdl, List.tail_cons] at hmem
      have hbne : b ≠ hm := by
        intro hb2; subst hb2
        exact (List.nodup_cons.mp hnd).1 hmem
      simp only [if_neg hbne]
      exact (edges_ok_symmetric heap h a b mr rb hmr hb).mp (by rw [hdl]; exact List.mem_cons_of_mem _ hmem)
    · simp only [if_neg ham] at hmem
      have := (edges_ok_symmetric heap h a b ra rb ha hb).mp hmem
      split
      · exact (List.mem_erase_of_ne ham).mpr this
      · exact this
  · intro a b ra rb ha hb hmem
    beta_reduce at hmem ⊢
    have key : b ∈ ra.dephost → b ≠ m ∨ a ≠ hm → a ∈ (if b = m then rb.deplist.tail else rb.deplist) := by
      intro hm1 hor
      have hab := (edges_ok_symmetric heap h b a rb ra hb ha).mpr hm1
      by_cases hbm : b = m
      · subst hbm
        rw [hmr] at hb; cases hb
        simp only [if_true, hdl, List.tail_cons]
        rw [hdl] at hab
        rcases List.mem_cons.mp hab with hab | hab
        · rcases hor with hor | hor
          · exact absurd rfl hor
          · exact absurd hab hor
        · exact hab
      · simp only [if_neg hbm]; exact hab
    by_cases hah : a = hm
    · simp only [hah, if_true] at hmem
      have hm2 := (List.Nodup.mem_erase_iff (h a ra ha).2.1).mp (by simpa [hah] using hmem)
      exact key hm2.2 (Or.inl hm2.1)
    · simp only [if_neg hah] at hmem
      exact key hmem (Or.inr hah)
  · intro a b ra ha hmem
    beta_reduce at hmem
    rcases hmem with hmem | hmem
    · refine edges_ok_live_dep heap h a b ra ha ?_
      split at hmem
      · exact List.mem_of_mem_tail hmem
      · exact hmem
    · refine edges_ok_live_host heap h a b ra ha ?_
      split at hmem
      · exact List.mem_of_mem_erase hmem
      · exact hmem

theorem heap_le_del (heap : modptr → Option module_t) (m hm : modptr) :
    heap_le (heap_update (heap_update heap hm (fun r =>
        { r with dephost :=
            match node_find m r.dephost with
            | some hn => node_del hn r.dephost
            | none => r.dephost }))
      m (fun r => { r with deplist := node_del 0 r.deplist })) heap := by
  refine heap_le_of_map heap _ (fun a l => if a = m then l.tail else l)
    (fun a l => if a = hm then l.erase m else l) (heap_del_lists heap m hm) ?_ ?_
  · intro a l
    beta_reduce
    split
    · exact List.tail_sublist l
    · exact List.Sublist.refl l
  · intro a l
    beta_reduce
    split
    · exact List.erase_sublist m l
    · exact List.Sublist.refl l

/-- The block of a module without edges is freed. -/
theorem edges_ok_free (heap : modptr → Option module_t) (m : modptr) (mr : module_t)
    (hmr : heap m = some mr) (hd : mr.deplist = []) (hh : mr.dephost = []) (h : edges_ok heap) :
    edges_ok (heap_free heap m) := by
  intro a ra ha
  have ham : a ≠ m := by
    intro hc; simp [heap_free, hc] at ha
  have ha0 : heap a = some ra := by simpa [heap_free, ham] using ha
  refine ⟨(h a ra ha0).1, (h a ra ha0).2.1, ?_, ?_⟩
  · intro b hb
    obtain ⟨rb, hrb, hin⟩ := (h a ra ha0).2.2.1 b hb
    have hbm : b ≠ m := by
      intro hc; subst hc
      rw [hmr] at hrb; cases hrb
      rw [hh] at hin; cases hin
    exact ⟨rb, by simpa [heap_free, hbm] using hrb, hin⟩
  · intro b hb
    obtain ⟨rb, hrb, hin⟩ := (h a ra ha0).2.2.2 b hb
    have hbm : b ≠ m := by
      intro hc; subst hc
      rw [hmr] at hrb; cases hrb
      rw [hd] at hin; cases hin
    exact ⟨rb, by simpa [heap_free, hbm] using hrb, hin⟩

theorem heap_le_free (heap : modptr → Option module_t) (m : modptr) : heap_le (heap_free heap m) heap := by
  intro p r1 hp
  by_cases hpm : p = m
  · simp [heap_free, hpm] at hp
  · exact ⟨r1, by simpa [heap_free, hpm] using hp, List.Sublist.refl _, List.Sublist.refl _⟩

/-- A fresh block is allocated for a module without edges. -/
theorem edges_ok_alloc (heap : modptr → Option module_t) (p : modptr) (r : module_t)
    (hp : heap p = none) (hd : r.deplist = []) (hh : r.dephost = []) (h : edges_ok heap) :
    edges_ok (heap_alloc heap p r) := by
  intro a ra ha
  by_cases hap : a = p
  · subst hap
    simp only [heap_alloc, if_true, Option.some.injEq] at ha
    subst ha
    simp [hd, hh]
  · have ha0 : heap a = some ra := by simpa [heap_alloc, hap] using ha
    refine ⟨(h a ra ha0).1, (h a ra ha0).2.1, ?_, ?_⟩
    · intro b hb
      obtain ⟨rb, hrb, hin⟩ := (h a ra ha0).2.2.1 b hb
      have hbp : b ≠ p := by
        intro hc; subst hc; rw [hp] at hrb; cases hrb
      exact ⟨rb, by simpa [heap_alloc, hbp] using hrb, hin⟩
    · intro b hb
      obtain ⟨rb, hrb, hin⟩ := (h a ra ha0).2.2.2 b hb
      have hbp : b ≠ p := by
        intro hc; subst hc; rw [hp] at hrb; cases hrb
      exact ⟨rb, by simpa [heap_alloc, hbp] using hrb, hin⟩


/-! ### The invariant, field by field -/

theorem mstate_ok_iff (s : mstate) :
    mstate_ok s ↔
      edges_ok s.heap ∧ s.modules.Nodup ∧ (∀ m ∈ s.modules, (s.heap m).isSome = true) ∧
      (∀ t, s.modtarget = some t → (s.heap t).isSome = true) ∧
      (∀ g ∈ s.seen, reg_ok g) ∧ ∀ p, s.brk ≤ p → s.heap p = none := by
  simp only [mstate_ok, reg_ok, units_allocated, mstate.view, and_assoc]

theorem mstate_ok_seen (s : mstate) (h : mstate_ok s) : seen_ok s := h.2.1

theorem res_inv_mono {α : Type} (post post2 : α → Prop) (r : res_t α)
    (hpost : ∀ a, post a → post2 a) (h : res_inv post r) : res_inv post2 r := by
  cases r with
  | ok a => exact hpost a h
  | undefined s => exact h
  | out_of_fuel s => exact h

theorem res_inv_ok {α : Type} (post : α → Prop) (r : res_t α) (a : α) (h : res_inv post r)
    (hr : r = res_t.ok a) : post a := by
  rw [hr] at h; exact h

theorem heap_update_isSome (heap : modptr → Option module_t) (p q : modptr)
    (f : module_t → module_t) : (heap_update heap p f q).isSome = (heap q).isSome := by
  by_cases h : q = p
  · subst h; cases hq : heap q <;> simp [heap_update, hq]
  · simp [heap_update, h]

theorem mstate_ok_emit (s : mstate) (e : event_t) (h : mstate_ok s) : mstate_ok (s.emit e) := h

theorem mstate_ok_observe (s : mstate) (h : mstate_ok s) : mstate_ok s.observe := by
  rw [mstate_ok_iff] at h ⊢
  obtain ⟨h1, h2, h3, h4, h5, h6⟩ := h
  refine ⟨h1, h2, h3, h4, ?_, h6⟩
  intro g hg
  simp only [mstate.observe, List.mem_append, List.mem_singleton] at hg
  rcases hg with hg | hg
  · exact h5 g hg
  · subst hg
    exact ⟨h1, h2, h3, h4⟩

/-- A store that keeps the allocated blocks and the edge invariant keeps the
whole invariant. -/
theorem mstate_ok_heap (s : mstate) (heap2 : modptr → Option module_t) (h : mstate_ok s)
    (hsome : ∀ q, (heap2 q).isSome = (s.heap q).isSome) (hedges : edges_ok heap2) :
    mstate_ok { s with heap := heap2 } := by
  rw [mstate_ok_iff] at h ⊢
  obtain ⟨_, h2, h3, h4, h5, h6⟩ := h
  refine ⟨hedges, h2, ?_, ?_, h5, ?_⟩
  · intro m hm
    show (heap2 m).isSome = true
    rw [hsome]; exact h3 m hm
  · intro t ht
    show (heap2 t).isSome = true
    rw [hsome]; exact h4 t ht
  · intro p hp
    have := h6 p hp
    have h7 := hsome p
    show heap2 p = none
    rw [this] at h7
    simpa using h7

/-! ### The second loop and the end of `module_unload` -/

theorem unload_deplist_ok (m : modptr) (l : List modptr) :
    ∀ (s : mstate) (mr : module_t), mstate_ok s → s.heap m = some mr → mr.deplist = l →
      mr.dephost = [] →
      res_inv (fun s1 => mstate_ok s1 ∧ heap_le s1.heap s.heap ∧
        (∃ mr1, s1.heap m = some mr1 ∧ mr1.deplist = [] ∧ mr1.dephost = []) ∧
        s1.modules = s.modules ∧ s1.modtarget = s.modtarget ∧ s1.brk = s.brk)
        (unload_deplist m l s) := by
  induction l with
  | nil =>
    intro s mr hok hmr hdl hdh
    exact ⟨hok, heap_le_refl _, ⟨mr, hmr, hdl, hdh⟩, rfl, rfl, rfl⟩
  | cons hm rest ih =>
    intro s mr hok hmr hdl hdh
    rw [unload_deplist]
    cases hhm : s.heap hm with
    | none => exact mstate_ok_seen s hok
    | some hr =>
      simp only []
      have hedges := edges_ok_del s.heap m hm mr rest hmr hdl ((mstate_ok_iff s).mp hok).1
      have hlists := heap_del_lists s.heap m hm m
      rw [hmr] at hlists
      simp only [Option.map_some', if_true, hdl, List.tail_cons, hdh] at hlists
      have hok2 := mstate_ok_heap s _ hok (fun q => by
        rw [heap_update_isSome, heap_update_isSome]) hedges
      cases hm2 : (heap_update (heap_update s.heap hm (fun r =>
        { r with dephost :=
            match node_find m r.dephost with
            | some hn => node_del hn r.dephost
            | none => r.dephost }))
          m (fun r => { r with deplist := node_del 0 r.deplist })) m with
      | none => simp [hm2] at hlists
      | some mr2 =>
        rw [hm2] at hlists
        simp only [Option.map_some', Option.some.injEq, Prod.mk.injEq] at hlists
        have hdh2 : mr2.dephost = [] := by
          have := hlists.2
          split at this <;> simp_all
        refine res_inv_mono _ _ _ ?_ (ih _ mr2 hok2 hm2 hlists.1 hdh2)
        rintro s1 ⟨a1, a2, a3, a4, a5, a6⟩
        exact ⟨a1, heap_le_trans _ _ _ a2 (heap_le_del s.heap m hm), a3, a4, a5, a6⟩

theorem node_del_of_find (data : Nat) (l : List Nat) (n : Nat) (h : node_find data l = some n) :
    node_del n l = l.erase data := by
  have := node_find_del data l
  rw [h] at this
  exact this

theorem unload_finish_fields (m : modptr) (s s1 : mstate) (h : unload_finish m s = res_t.ok s1) :
    s1.heap = heap_free s.heap m ∧ s1.modules = s.modules.erase m ∧ s1.modtarget = s.modtarget ∧
      s1.brk = s.brk ∧ (s1.seen = s.seen ∨ s1.seen = s.seen ++ [s.view]) := by
  unfold unload_finish at h
  cases hm : s.heap m with
  | none => simp [hm] at h
  | some mr =>
    simp only [hm] at h
    cases hf : node_find m s.modules with
    | none =>
      simp only [hf, res_t.ok.injEq] at h
      subst h
      have := (node_find_eq_none m s.modules).mp hf
      exact ⟨rfl, (List.erase_of_not_mem this).symm, rfl, rfl, Or.inl rfl⟩
    | some n =>
      have hdel := node_del_of_find m s.modules n hf
      simp only [hf, res_t.ok.injEq] at h
      subst h
      cases hd : mr.header.deinit with
      | none => exact ⟨by simp [hd, mstate.emit], by simp [hd, mstate.emit, hdel], by simp [hd, mstate.emit], by simp [hd, mstate.emit], Or.inl (by simp [hd, mstate.emit])⟩
      | some fn =>
        exact ⟨by simp [hd, mstate.emit, mstate.observe], by simp [hd, mstate.emit, mstate.observe, hdel],
          by simp [hd, mstate.emit, mstate.observe], by simp [hd, mstate.emit, mstate.observe],
          Or.inr (by simp [hd, mstate.emit, mstate.observe, mstate.view])⟩

theorem unload_post_trans (s s1 s2 : mstate) (a : unload_post s s1) (b : unload_post s1 s2) :
    unload_post s s2 :=
  ⟨b.1, heap_le_trans _ _ _ b.2.1 a.2.1, b.2.2.1, b.2.2.2.1.trans a.2.2.2.1,
    b.2.2.2.2.trans a.2.2.2.2⟩

theorem unload_finish_ok (m : modptr) (s : mstate) (mr : module_t) (hok : mstate_ok s)
    (hmr : s.heap m = some mr) (hdl : mr.deplist = []) (hdh : mr.dephost = [])
    (htar : s.modtarget = none) :
    res_inv (fun s1 => unload_post s s1 ∧ s1.heap m = none) (unload_finish m s) := by
  cases h : unload_finish m s with
  | undefined su => exact absurd h (by simp [unload_finish, hmr])
  | out_of_fuel su => exact absurd h (by simp [unload_finish, hmr])
  | ok s1 =>
    obtain ⟨f1, f2, f3, f4, f5⟩ := unload_finish_fields m s s1 h
    have hok0 := hok
    rw [mstate_ok_iff] at hok
    obtain ⟨h1, h2, h3, h4, h5, h6⟩ := hok
    refine ⟨⟨?_, ?_, by rw [f3, htar], f4, by rw [f2]; exact List.erase_sublist m s.modules⟩, ?_⟩
    · rw [mstate_ok_iff, f1, f2, f3, f4]
      refine ⟨edges_ok_free s.heap m mr hmr hdl hdh h1, h2.erase m, ?_, ?_, ?_, ?_⟩
      · intro x hx
        have hx2 := (List.Nodup.mem_erase_iff h2).mp hx
        simp only [heap_free, if_neg hx2.1]
        exact h3 x hx2.2
      · intro t ht
        rw [htar] at ht; cases ht
      · intro g hg
        rcases f5 with f5 | f5
        · rw [f5] at hg; exact h5 g hg
        · rw [f5] at hg
          simp only [List.mem_append, List.mem_singleton] at hg
          rcases hg with hg | hg
          · exact h5 g hg
          · subst hg; exact hok0.1
      · intro p hp
        simp only [heap_free]
        split
        · rfl
        · exact h6 p hp
    · rw [f1]; exact heap_le_free s.heap m
    · rw [f1]; simp [heap_free]

theorem unload_after_hosts_ok (m : modptr) (s : mstate) (mr : module_t) (hok : mstate_ok s)
    (hmr : s.heap m = some mr) (hdh : mr.dephost = []) (htar : s.modtarget = none) :
    res_inv (fun s1 => unload_post s s1 ∧ s1.heap m = none) (unload_after_hosts m s) := by
  unfold unload_after_hosts
  simp only [hmr]
  have hl0 := unload_deplist_ok m mr.deplist s mr hok hmr rfl hdh
  cases hl : unload_deplist m mr.deplist s with
  | undefined su => rw [hl] at hl0; exact hl0
  | out_of_fuel su => rw [hl] at hl0; exact hl0
  | ok s2 =>
    rw [hl] at hl0
    obtain ⟨a1, a2, ⟨mr2, a3, a4, a5⟩, a6, a7, a8⟩ := hl0
    refine res_inv_mono _ _ _ ?_ (unload_finish_ok m s2 mr2 a1 a3 a4 a5 (by rw [a7, htar]))
    rintro s1 ⟨b1, b2⟩
    refine ⟨⟨b1.1, heap_le_trans _ _ _ b1.2.1 a2, b1.2.2.1, by rw [b1.2.2.2.1, a8], ?_⟩, b2⟩
    rw [← a6]; exact b1.2.2.2.2

/-- A module that has been freed is in no list of an allocated module. -/
theorem not_mem_dephost_of_freed (s : mstate) (hok : mstate_ok s) (m n : modptr) (mr : module_t)
    (hmr : s.heap m = some mr) (hn : s.heap n = none) : n ∉ mr.dephost := by
  intro hmem
  have := edges_ok_live_host s.heap ((mstate_ok_iff s).mp hok).1 m n mr hmr hmem
  rw [hn] at this
  cases this

/-- The unload cascade keeps the invariant: `module_unload` and its first
loop, by induction on the depth of the nested calls. -/
theorem module_unload_ok (fuel : Nat) :
    (∀ (m : modptr) (s : mstate), mstate_ok s → s.modtarget = none →
      res_inv (fun s1 => unload_post s s1 ∧ s1.heap m = none) (module_unload fuel (some m) s)) ∧
    (∀ (m n : modptr) (s : mstate) (mr : module_t) (rest : List modptr), mstate_ok s →
      s.modtarget = none → s.heap m = some mr → mr.dephost = n :: rest →
      res_inv (fun s1 => unload_post s s1 ∧ ∀ mr1, s1.heap m = some mr1 → mr1.dephost = [])
        (unload_dephost fuel m n s)) := by
  induction fuel with
  | zero =>
    constructor
    · intro m s hok _
      exact mstate_ok_seen s hok
    · intro m n s mr rest hok _ _ _
      exact mstate_ok_seen s hok
  | succ fuel ih =>
    obtain ⟨ih1, ih2⟩ := ih
    constructor
    · intro m s hok htar
      rw [module_unload]
      cases hmr : s.heap m with
      | none => exact mstate_ok_seen s hok
      | some mr =>
        simp only []
        cases hdh : mr.dephost with
        | nil => exact unload_after_hosts_ok m s mr hok hmr hdh htar
        | cons n rest =>
          simp only []
          have hl0 := ih2 m n s mr rest hok htar hmr hdh
          cases hl : unload_dephost fuel m n s with
          | undefined su => rw [hl] at hl0; exact hl0
          | out_of_fuel su => rw [hl] at hl0; exact hl0
          | ok s2 =>
            rw [hl] at hl0
            obtain ⟨a1, a2⟩ := hl0
            simp only []
            cases hmr2 : s2.heap m with
            | none =>
              simp only [unload_after_hosts, hmr2]
              exact mstate_ok_seen s2 a1.1
            | some mr2 =>
              refine res_inv_mono _ _ _ ?_
                (unload_after_hosts_ok m s2 mr2 a1.1 hmr2 (a2 mr2 hmr2) a1.2.2.1)
              rintro s1 ⟨b1, b2⟩
              exact ⟨unload_post_trans s s2 s1 a1 b1, b2⟩
    · intro m n s mr rest hok htar hmr hdh
      rw [unload_dephost]
      simp only [hmr]
      have hu0 := ih1 n s hok htar
      cases hu : module_unload fuel (some n) s with
      | undefined su => rw [hu] at hu0; exact hu0
      | out_of_fuel su => rw [hu] at hu0; exact hu0
      | ok s2 =>
        rw [hu] at hu0
        obtain ⟨a1, a2⟩ := hu0
        simp only []
        have hnd : (n :: rest).Nodup := hdh ▸ (((mstate_ok_iff s).mp hok).1 m mr hmr).2.1
        have hnext : node_next n mr.dephost = rest.head? := by
          rw [hdh]; simp [node_next]
        rw [hnext]
        cases hrest : rest with
        | nil =>
          simp only [List.head?_nil]
          refine ⟨a1, ?_⟩
          intro mr1 hmr1
          obtain ⟨r0, hr0, _, hsub⟩ := a1.2.1 m mr1 hmr1
          rw [hmr] at hr0; cases hr0
          rw [hdh, hrest] at hsub
          have hnot := not_mem_dephost_of_freed s2 a1.1 m n mr1 hmr1 a2
          have := sublist_cons_of_not_mem n mr1.dephost [] hsub hnot
          exact List.eq_nil_of_sublist_nil this
        | cons tn rest2 =>
          simp only [List.head?_cons]
          cases hmr2 : s2.heap m with
          | none => exact mstate_ok_seen s2 a1.1
          | some mr2 =>
            simp only []
            cases hf : node_find tn mr2.dephost with
            | none => exact mstate_ok_seen s2 a1.1
            | some k =>
              simp only []
              obtain ⟨r0, hr0, _, hsub⟩ := a1.2.1 m mr2 hmr2
              rw [hmr] at hr0; cases hr0
              rw [hdh, hrest] at hsub
              have hnot := not_mem_dephost_of_freed s2 a1.1 m n mr2 hmr2 a2
              have hsub2 := sublist_cons_of_not_mem n mr2.dephost _ hsub hnot
              rw [hrest] at hnd
              have htn : tn ∉ rest2 := (List.nodup_cons.mp (List.nodup_cons.mp hnd).2).1
              obtain ⟨l1, hl1⟩ := sublist_cons_head tn mr2.dephost rest2 hsub2
                (node_find_some_mem tn mr2.dephost k hf) htn
              refine res_inv_mono _ _ _ ?_ (ih2 m tn s2 mr2 l1 a1.1 a1.2.2.1 hmr2 hl1)
              rintro s1 ⟨b1, b2⟩
              exact ⟨unload_post_trans s s2 s1 a1 b1, b2⟩

/-! ### Loads and symbol lookups -/

theorem load_post_refl (s : mstate) (h : mstate_ok s) : load_post s s :=
  ⟨h, Nat.le_refl _, fun _ hx => Or.inl hx, fun h => h⟩

theorem load_post_trans (s s1 s2 : mstate) (a : load_post s s1) (b : load_post s1 s2) :
    load_post s s2 := by
  refine ⟨b.1, Nat.le_trans a.2.1 b.2.1, ?_, fun h => b.2.2.2 (a.2.2.2 h)⟩
  intro x hx
  rcases b.2.2.1 x hx with h | h
  · exact a.2.2.1 x h
  · exact Or.inr (Nat.le_trans a.2.1 h)

theorem module_find_published_live (s : mstate) (name : cstr) (m : modptr)
    (h : module_find_published s name = some m) : (s.heap m).isSome = true := by
  unfold module_find_published at h
  have := List.find?_some h
  cases hm : s.heap m with
  | none => simp [hm] at this
  | some r => rfl

theorem add_dependency_ok (m : modptr) (s : mstate) (hok : mstate_ok s)
    (hm : (s.heap m).isSome = true) :
    res_inv (fun s1 => mstate_ok s1 ∧ s1.brk = s.brk ∧ s1.modules = s.modules ∧
      s1.modtarget = s.modtarget ∧ (s1.heap m).isSome = true) (add_dependency m s) := by
  unfold add_dependency
  cases ht : s.modtarget with
  | none => exact ⟨hok, rfl, rfl, ht, hm⟩
  | some t =>
    simp only []
    cases htr : s.heap t with
    | none => exact mstate_ok_seen s hok
    | some tr =>
      simp only []
      cases hf : node_find m tr.deplist with
      | some k => exact ⟨hok, rfl, rfl, ht, hm⟩
      | none =>
        have hnot := (node_find_eq_none m tr.deplist).mp hf
        have hedges := edges_ok_add s.heap t m tr htr hm hnot ((mstate_ok_iff s).mp hok).1
        refine ⟨?_, rfl, rfl, ht, ?_⟩
        · exact mstate_ok_heap (s.emit (event_t.slog logmsg_t.dependency_added)) _
            (mstate_ok_emit s _ hok)
            (fun q => by
              show (heap_update (heap_update s.heap t _) m _ q).isSome = (s.heap q).isSome
              rw [heap_update_isSome, heap_update_isSome]) hedges
        · show (heap_update (heap_update s.heap t _) m _ m).isSome = true
          rw [heap_update_isSome, heap_update_isSome]; exact hm

theorem module_locate_symbol_ok (env : env_t) (modname sym : cstr) (s : mstate)
    (hok : mstate_ok s) :
    res_inv (fun p => load_post s p.2 ∧ p.2.modules = s.modules ∧ p.2.modtarget = s.modtarget)
      (module_locate_symbol env modname sym s) := by
  unfold module_locate_symbol
  cases hf : module_find_published s modname with
  | none => exact ⟨load_post_refl s hok, rfl, rfl⟩
  | some m =>
    simp only []
    have ha0 := add_dependency_ok m s hok (module_find_published_live s modname m hf)
    cases ha : add_dependency m s with
    | undefined su => rw [ha] at ha0; exact ha0
    | out_of_fuel su => rw [ha] at ha0; exact ha0
    | ok s2 =>
      rw [ha] at ha0
      obtain ⟨a1, a2, a3, a4, a5⟩ := ha0
      simp only []
      have hpost : load_post s s2 :=
        ⟨a1, by rw [a2], fun x hx => Or.inl (a3 ▸ hx), fun hn => by rw [a4]; exact hn⟩
      cases hmr : s2.heap m with
      | none => exact mstate_ok_seen s2 a1
      | some mr =>
        simp only []
        cases hs : env.linker_getsym mr.handle sym with
        | none => exact ⟨hpost, a3, a4⟩
        | some p => exact ⟨hpost, a3, a4⟩

theorem module_request_with_ok (env : env_t)
    (load : cstr → mstate → res_t (Option modptr × mstate))
    (hload : ∀ filespec s, mstate_ok s → res_inv (fun p => load_post s p.2) (load filespec s))
    (name : cstr) (s : mstate) (hok : mstate_ok s) :
    res_inv (fun p => load_post s p.2) (module_request_with env load name s) := by
  unfold module_request_with
  cases hf : module_find_published s name with
  | some m => exact load_post_refl s hok
  | none =>
    simp only []
    have hl0 := hload (module_request_path env name) s hok
    cases hl : load (module_request_path env name) s with
    | undefined su => rw [hl] at hl0; exact hl0
    | out_of_fuel su => rw [hl] at hl0; exact hl0
    | ok p =>
      rw [hl] at hl0
      obtain ⟨r, s2⟩ := p
      cases r with
      | none => exact hl0
      | some m2 => exact hl0

theorem load_post_observe (s s1 : mstate) (h : load_post s s1) : load_post s s1.observe :=
  ⟨mstate_ok_observe s1 h.1, h.2.1, h.2.2.1, h.2.2.2⟩

theorem run_modinit_ok (env : env_t) (load : cstr → mstate → res_t (Option modptr × mstate))
    (hload : ∀ filespec s, mstate_ok s → res_inv (fun p => load_post s p.2) (load filespec s))
    (m : modptr) (init : modinit_t) :
    ∀ (s : mstate), mstate_ok s →
      res_inv (fun s1 => load_post s s1) (run_modinit env load m init s) := by
  induction init with
  | done =>
    intro s hok
    exact load_post_refl s hok
  | set_mflags v k ih =>
    intro s hok
    rw [run_modinit]
    cases hm : s.heap m with
    | none => exact mstate_ok_seen s hok
    | some mr =>
      simp only []
      have hok2 : mstate_ok (s.update m (fun r => { r with mflags := v })) := by
        refine mstate_ok_heap s _ hok (fun q => by rw [heap_update_isSome]) ?_
        refine edges_ok_same_lists s.heap _ ?_ ((mstate_ok_iff s).mp hok).1
        intro a
        by_cases ha : a = m
        · subst ha; simp [heap_update, hm]
        · simp [heap_update, ha]
      refine res_inv_mono _ _ _ ?_ (ih _ hok2)
      intro s1 hp
      exact ⟨hp.1, hp.2.1, hp.2.2.1, hp.2.2.2⟩
  | locate_symbol modname sym k ih =>
    intro s hok
    rw [run_modinit]
    have hl0 := module_locate_symbol_ok env modname sym s hok
    cases hl : module_locate_symbol env modname sym s with
    | undefined su => rw [hl] at hl0; exact hl0
    | out_of_fuel su => rw [hl] at hl0; exact hl0
    | ok p =>
      rw [hl] at hl0
      obtain ⟨r, s2⟩ := p
      have a : load_post s s2 := hl0.1
      refine res_inv_mono _ _ _ ?_ (ih r s2.observe (mstate_ok_observe s2 a.1))
      intro s1 b
      exact load_post_trans s s2.observe s1 (load_post_observe s s2 a) b
  | load filespec k ih =>
    intro s hok
    rw [run_modinit]
    have hl0 := hload filespec s hok
    cases hl : load filespec s with
    | undefined su => rw [hl] at hl0; exact hl0
    | out_of_fuel su => rw [hl] at hl0; exact hl0
    | ok p =>
      rw [hl] at hl0
      obtain ⟨r, s2⟩ := p
      have a : load_post s s2 := hl0
      refine res_inv_mono _ _ _ ?_ (ih r s2.observe (mstate_ok_observe s2 a.1))
      intro s1 b
      exact load_post_trans s s2.observe s1 (load_post_observe s s2 a) b
  | request name k ih =>
    intro s hok
    rw [run_modinit]
    have hl0 := module_request_with_ok env load hload name s hok
    cases hl : module_request_with env load name s with
    | undefined su => rw [hl] at hl0; exact hl0
    | out_of_fuel su => rw [hl] at hl0; exact hl0
    | ok p =>
      rw [hl] at hl0
      obtain ⟨r, s2⟩ := p
      have a : load_post s s2 := hl0
      refine res_inv_mono _ _ _ ?_ (ih r s2.observe (mstate_ok_observe s2 a.1))
      intro s1 b
      exact load_post_trans s s2.observe s1 (load_post_observe s s2 a) b

theorem heap_alloc_isSome_of (heap : modptr → Option module_t) (p q : modptr) (r : module_t)
    (h : (heap q).isSome = true) : (heap_alloc heap p r q).isSome = true := by
  unfold heap_alloc
  split
  · rfl
  · exact h

theorem load_alloc_ok (env : env_t) (filespec : cstr) (handle : Nat) (hd : v2_moduleheader_t)
    (s : mstate) (hok : mstate_ok s) :
    mstate_ok (load_alloc env filespec handle hd s) ∧
      (load_alloc env filespec handle hd s).brk = s.brk + 1 ∧
      (load_alloc env filespec handle hd s).modules = s.modules := by
  refine ⟨?_, rfl, rfl⟩
  rw [mstate_ok_iff] at hok ⊢
  obtain ⟨h1, h2, h3, h4, h5, h6⟩ := hok
  refine ⟨edges_ok_alloc s.heap s.brk _ (h6 s.brk (Nat.le_refl _)) rfl rfl h1, h2, ?_, ?_, h5, ?_⟩
  · intro m hm
    exact heap_alloc_isSome_of s.heap s.brk m _ (h3 m hm)
  · intro t ht
    simp only [load_alloc, Option.some.injEq] at ht
    subst ht
    simp [load_alloc, heap_alloc]
  · intro p hp
    have hne : p ≠ s.brk := by
      intro hc; rw [hc] at hp
      exact absurd hp (by simp [load_alloc])
    simp only [load_alloc, heap_alloc, if_neg hne]
    exact h6 p (Nat.le_of_succ_le hp)

theorem mstate_ok_clear_target (s : mstate) (h : mstate_ok s) :
    mstate_ok { s with modtarget := none } := by
  rw [mstate_ok_iff] at h ⊢
  obtain ⟨h1, h2, h3, _, h5, h6⟩ := h
  exact ⟨h1, h2, h3, fun t ht => Option.noConfusion ht, h5, h6⟩

theorem load_init_ok (env : env_t) (load : cstr → mstate → res_t (Option modptr × mstate))
    (hload : ∀ filespec s, mstate_ok s → res_inv (fun p => load_post s p.2) (load filespec s))
    (m : modptr) (hd : v2_moduleheader_t) (s : mstate) (hok : mstate_ok s) :
    res_inv (fun s1 => load_post s s1 ∧ s1.modtarget = none) (load_init env load m hd s) := by
  unfold load_init
  cases hi : hd.modinit with
  | none =>
    exact ⟨⟨mstate_ok_clear_target s hok, Nat.le_refl _, fun _ hx => Or.inl hx, fun _ => rfl⟩, rfl⟩
  | some init =>
    simp only []
    have hr0 := run_modinit_ok env load hload m init _
      (mstate_ok_emit _ (event_t.modinit m) (mstate_ok_observe s hok))
    cases hr : run_modinit env load m init ((s.observe).emit (event_t.modinit m)) with
    | undefined su => rw [hr] at hr0; exact hr0
    | out_of_fuel su => rw [hr] at hr0; exact hr0
    | ok s2 =>
      rw [hr] at hr0
      have a : load_post ((s.observe).emit (event_t.modinit m)) s2 := hr0
      exact ⟨⟨mstate_ok_clear_target s2 a.1, a.2.1, a.2.2.1, fun _ => rfl⟩, rfl⟩

theorem load_finish_ok (fuel : Nat) (m : modptr) (s : mstate)
    (hok : mstate_ok s) (htar : s.modtarget = none) (hm : m ∉ s.modules) :
    res_inv (fun p => mstate_ok p.2 ∧ p.2.brk = s.brk ∧ (∀ x ∈ p.2.modules, x ∈ s.modules ∨ x = m) ∧
      p.2.modtarget = none) (load_finish fuel m s) := by
  unfold load_finish
  cases hmr : s.heap m with
  | none => exact mstate_ok_seen s hok
  | some mr =>
    simp only []
    split
    · have hu0 := (module_unload_ok fuel).1 m _ (mstate_ok_emit s (event_t.slog logmsg_t.init_failed) hok) htar
      cases hu : module_unload fuel (some m) (s.emit (event_t.slog logmsg_t.init_failed)) with
      | undefined su => rw [hu] at hu0; exact hu0
      | out_of_fuel su => rw [hu] at hu0; exact hu0
      | ok s2 =>
        rw [hu] at hu0
        obtain ⟨a, _⟩ := hu0
        exact ⟨a.1, a.2.2.2.1, fun x hx => Or.inl (a.2.2.2.2.subset hx), a.2.2.1⟩
    · refine ⟨?_, rfl, ?_, htar⟩
      · rw [mstate_ok_iff] at hok ⊢
        obtain ⟨h1, h2, h3, h4, h5, h6⟩ := hok
        refine ⟨h1, ?_, ?_, h4, h5, h6⟩
        · show (node_add m s.modules).Nodup
          exact List.Nodup.append h2 (List.nodup_singleton m) (by simpa using hm)
        · intro x hx
          have hx2 : x ∈ s.modules ++ [m] := hx
          simp only [List.mem_append, List.mem_singleton] at hx2
          rcases hx2 with hx2 | hx2
          · exact h3 x hx2
          · subst hx2
            show (s.heap x).isSome = true
            rw [hmr]; rfl
      · intro x hx
        have hx2 : x ∈ s.modules ++ [m] := hx
        simpa using hx2

theorem not_registered_of_fresh (s : mstate) (hok : mstate_ok s) (p : modptr) (hp : s.brk ≤ p) :
    p ∉ s.modules := by
  intro hmem
  rw [mstate_ok_iff] at hok
  have h1 := hok.2.2.1 p hmem
  rw [hok.2.2.2.2.2 p hp] at h1
  cases h1

/-- The invariant is kept by `module_load`, whatever the init callbacks do. -/
theorem module_load_ok (env : env_t) (fuel : Nat) :
    ∀ (filespec : cstr) (s : mstate), mstate_ok s →
      res_inv (fun p => load_post s p.2) (module_load env fuel filespec s) := by
  induction fuel with
  | zero =>
    intro filespec s hok
    exact mstate_ok_seen s hok
  | succ fuel ih =>
    intro filespec s hok
    rw [module_load]
    cases hp : load_precheck env s filespec with
    | error evs => exact ⟨hok, Nat.le_refl _, fun _ hx => Or.inl hx, fun hn => hn⟩
    | ok p =>
      obtain ⟨handle, hd⟩ := p
      simp only []
      obtain ⟨a1, a2, a3⟩ := load_alloc_ok env filespec handle hd s hok
      have hi0 := load_init_ok env (module_load env fuel) ih s.brk hd _ a1
      cases hi : load_init env (module_load env fuel) s.brk hd (load_alloc env filespec handle hd s) with
      | undefined su => rw [hi] at hi0; exact hi0
      | out_of_fuel su => rw [hi] at hi0; exact hi0
      | ok s2 =>
        rw [hi] at hi0
        obtain ⟨b, btar⟩ := hi0
        simp only []
        have hnot : s.brk ∉ s2.modules := by
          intro hmem
          rcases b.2.2.1 _ hmem with hx | hx
          · rw [a3] at hx
            exact not_registered_of_fresh s hok s.brk (Nat.le_refl _) hx
          · rw [a2] at hx
            exact absurd hx (by simp)
        refine res_inv_mono _ _ _ ?_ (load_finish_ok fuel s.brk s2 b.1 btar hnot)
        rintro p ⟨c1, c2, c3, c4⟩
        refine ⟨c1, ?_, ?_, fun _ => c4⟩
        · rw [c2]
          have := b.2.1
          rw [a2] at this
          exact Nat.le_of_succ_le this
        · intro x hx
          rcases c3 x hx with hx2 | hx2
          · rcases b.2.2.1 x hx2 with hx3 | hx3
            · left; rw [a3] at hx3; exact hx3
            · right; rw [a2] at hx3; exact Nat.le_of_succ_le hx3
          · right; rw [hx2]

theorem mstate_ok_init : mstate_ok mstate.init := by
  rw [mstate_ok_iff]
  refine ⟨?_, List.nodup_nil, ?_, ?_, ?_, ?_⟩
  · intro a ra h; cases h
  · intro m hm; cases hm
  · intro t ht; cases ht
  · intro g hg; cases hg
  · intro p _; rfl

theorem apply_mod_op_ok (env : env_t) (fuel : Nat) (op : mod_op) (s : mstate)
    (hok : mstate_ok s) (htar : s.modtarget = none) :
    res_inv (fun s1 => mstate_ok s1 ∧ s1.modtarget = none) (apply_mod_op env fuel op s) := by
  cases op with
  | load filespec =>
    simp only [apply_mod_op]
    have hl0 := module_load_ok env fuel filespec s hok
    cases hl : module_load env fuel filespec s with
    | undefined su => rw [hl] at hl0; exact hl0
    | out_of_fuel su => rw [hl] at hl0; exact hl0
    | ok p =>
      rw [hl] at hl0
      obtain ⟨r, s2⟩ := p
      have a : load_post s s2 := hl0
      exact ⟨a.1, a.2.2.2 htar⟩
  | request name =>
    simp only [apply_mod_op, module_request]
    have hl0 := module_request_with_ok env _ (module_load_ok env fuel) name s hok
    cases hl : module_request_with env (module_load env fuel) name s with
    | undefined su => rw [hl] at hl0; exact hl0
    | out_of_fuel su => rw [hl] at hl0; exact hl0
    | ok p =>
      rw [hl] at hl0
      obtain ⟨r, s2⟩ := p
      have a : load_post s s2 := hl0
      exact ⟨a.1, a.2.2.2 htar⟩
  | locate_symbol modname sym =>
    simp only [apply_mod_op]
    have hl0 := module_locate_symbol_ok env modname sym s hok
    cases hl : module_locate_symbol env modname sym s with
    | undefined su => rw [hl] at hl0; exact hl0
    | out_of_fuel su => rw [hl] at hl0; exact hl0
    | ok p =>
      rw [hl] at hl0
      obtain ⟨r, s2⟩ := p
      have a : load_post s s2 := hl0.1
      exact ⟨a.1, a.2.2.2 htar⟩
  | unload name =>
    simp only [apply_mod_op]
    cases hf : module_find_published s name with
    | none =>
      cases fuel <;> exact ⟨hok, htar⟩
    | some m =>
      refine res_inv_mono _ _ _ ?_ ((module_unload_ok fuel).1 m s hok htar)
      rintro s1 ⟨a, _⟩
      exact ⟨a.1, a.2.2.1⟩

theorem run_mod_ops_ok (env : env_t) (fuel : Nat) (ops : List mod_op) :
    ∀ (s : mstate), mstate_ok s → s.modtarget = none →
      res_inv (fun s1 => mstate_ok s1 ∧ s1.modtarget = none) (run_mod_ops env fuel ops s) := by
  induction ops with
  | nil =>
    intro s hok htar
    exact ⟨hok, htar⟩
  | cons op ops ih =>
    intro s hok htar
    rw [run_mod_ops]
    have ha0 := apply_mod_op_ok env fuel op s hok htar
    cases ha : apply_mod_op env fuel op s with
    | undefined su => rw [ha] at ha0; exact ha0
    | out_of_fuel su => rw [ha] at ha0; exact ha0
    | ok s2 =>
      rw [ha] at ha0
      exact ih s2 ha0.1 ha0.2

theorem reg_ok_symmetric (g : registry_t) (h : reg_ok g) : units_allocated g ∧ dep_symmetric g :=
  ⟨h.2.2, fun a b ra rb ha hb => edges_ok_symmetric g.heap h.1 a b ra rb ha hb⟩

theorem reg_ok_edges (g : registry_t) (h : reg_ok g) :
    units_allocated g ∧ dep_symmetric g ∧ edges_ok g.heap :=
  ⟨h.2.2, fun a b ra rb ha hb => edges_ok_symmetric g.heap h.1 a b ra rb ha hb, h.1⟩

/-- C3: dependency symmetry is an invariant of `module_load`,
`module_locate_symbol`, `module_request` and `module_unload`.  Take any
sequence of these calls from the empty registry, with any init callbacks.  In
the state after it, and in every registry an init or deinit callback saw on
the way (when it was invoked, and each time a call it made returned), also on
a run that breaks off, the registered modules and the module that is loading
are allocated; for all allocated modules `a` and `b`, `b` is in the `deplist`
of `a` if and only if `a` is in the `dephost` of `b`; and the lists have no
entry without its counterpart: every entry `b` of the `deplist` of an
allocated module `a` is an allocated module that has `a` in its `dephost`,
every entry `b` of the `dephost` of `a` is an allocated module that has `a` in
its `deplist`, so no list holds a module that has been unloaded, and no list
holds a module twice. -/
theorem dependency_symmetry_invariant (env : env_t) (fuel : Nat) (ops : List mod_op) :
    (∀ s, run_mod_ops env fuel ops mstate.init = res_t.ok s →
      units_allocated s.view ∧ dep_symmetric s.view ∧ edges_ok s.heap) ∧
    ∀ g ∈ (run_mod_ops env fuel ops mstate.init).reached.seen,
      units_allocated g ∧ dep_symmetric g ∧ edges_ok g.heap := by
  have h := run_mod_ops_ok env fuel ops mstate.init mstate_ok_init rfl
  constructor
  · intro s hs
    rw [hs] at h
    exact reg_ok_edges s.view h.1.1
  · intro g hg
    cases hr : run_mod_ops env fuel ops mstate.init with
    | ok s =>
      rw [hr] at h hg
      exact reg_ok_edges g (h.1.2.1 g hg)
    | undefined su =>
      rw [hr] at h hg
      exact reg_ok_edges g (h g hg)
    | out_of_fuel su =>
      rw [hr] at h hg
      exact reg_ok_edges g (h g hg)

/-! ### More nested calls allowed, same outcome -/

theorem module_unload_succ (fuel : Nat) :
    (∀ (m : Option modptr) (s : mstate), (module_unload fuel m s).is_out_of_fuel = false →
      module_unload (fuel + 1) m s = module_unload fuel m s) ∧
    (∀ (m n : modptr) (s : mstate), (unload_dephost fuel m n s).is_out_of_fuel = false →
      unload_dephost (fuel + 1) m n s = unload_dephost fuel m n s) := by
  induction fuel with
  | zero =>
    constructor
    · intro m s h
      cases m with
      | none => simp [module_unload]
      | some m => simp [module_unload, res_t.is_out_of_fuel] at h
    · intro m n s h
      simp [unload_dephost, res_t.is_out_of_fuel] at h
  | succ fuel ih =>
    obtain ⟨ih1, ih2⟩ := ih
    constructor
    · intro m s h
      cases m with
      | none => simp [module_unload]
      | some m =>
        rw [module_unload] at h ⊢
        rw [module_unload]
        cases hmr : s.heap m with
        | none => rfl
        | some mr =>
          simp only [hmr] at h ⊢
          cases hdh : mr.dephost with
          | nil => rfl
          | cons n rest =>
            simp only [hdh] at h ⊢
            have hne : (unload_dephost fuel m n s).is_out_of_fuel = false := by
              cases hc : unload_dephost fuel m n s with
              | out_of_fuel su => rw [hc] at h; exact h
              | ok _ => rfl
              | undefined _ => rfl
            rw [ih2 m n s hne]
    · intro m n s h
      rw [unload_dephost] at h ⊢
      rw [unload_dephost]
      cases hmr : s.heap m with
      | none => rfl
      | some mr =>
        simp only [hmr] at h ⊢
        have hne : (module_unload fuel (some n) s).is_out_of_fuel = false := by
          cases hc : module_unload fuel (some n) s with
          | out_of_fuel su => rw [hc] at h; exact h
          | ok _ => rfl
          | undefined _ => rfl
        rw [ih1 (some n) s hne]
        cases hu : module_unload fuel (some n) s with
        | undefined su => rfl
        | out_of_fuel su => rfl
        | ok s1 =>
          simp only [hu] at h ⊢
          cases hnx : node_next n mr.dephost with
          | none => rfl
          | some tn =>
            simp only [hnx] at h ⊢
            cases hmr1 : s1.heap m with
            | none => rfl
            | some mr1 =>
              simp only [hmr1] at h ⊢
              cases hf : node_find tn mr1.dephost with
              | none => rfl
              | some k =>
                simp only [hf] at h ⊢
                exact ih2 m tn s1 h

theorem module_request_with_mono (env : env_t)
    (load load2 : cstr → mstate → res_t (Option modptr × mstate))
    (hload : ∀ filespec s, (load filespec s).is_out_of_fuel = false →
      load2 filespec s = load filespec s)
    (name : cstr) (s : mstate) (h : (module_request_with env load name s).is_out_of_fuel = false) :
    module_request_with env load2 name s = module_request_with env load name s := by
  unfold module_request_with at h ⊢
  cases hf : module_find_published s name with
  | some _ => rfl
  | none =>
    simp only [hf] at h ⊢
    have hne : (load (module_request_path env name) s).is_out_of_fuel = false := by
      cases hc : load (module_request_path env name) s with
      | out_of_fuel su => rw [hc] at h; exact h
      | ok _ => rfl
      | undefined _ => rfl
    rw [hload _ s hne]

theorem run_modinit_mono (env : env_t)
    (load load2 : cstr → mstate → res_t (Option modptr × mstate))
    (hload : ∀ filespec s, (load filespec s).is_out_of_fuel = false →
      load2 filespec s = load filespec s)
    (m : modptr) (init : modinit_t) :
    ∀ (s : mstate), (run_modinit env load m init s).is_out_of_fuel = false →
      run_modinit env load2 m init s = run_modinit env load m init s := by
  induction init with
  | done => intro s _; rfl
  | set_mflags v k ih =>
    intro s h
    rw [run_modinit] at h ⊢
    rw [run_modinit]
    cases hm : s.heap m with
    | none => rfl
    | some mr =>
      simp only [hm] at h ⊢
      exact ih _ h
  | locate_symbol modname sym k ih =>
    intro s h
    rw [run_modinit] at h ⊢
    rw [run_modinit]
    cases hl : module_locate_symbol env modname sym s with
    | undefined su => rfl
    | out_of_fuel su => rfl
    | ok p =>
      simp only [hl] at h ⊢
      exact ih _ _ h
  | load filespec k ih =>
    intro s h
    rw [run_modinit] at h ⊢
    rw [run_modinit]
    have hne : (load filespec s).is_out_of_fuel = false := by
      cases hc : load filespec s with
      | out_of_fuel su => rw [hc] at h; exact h
      | ok _ => rfl
      | undefined _ => rfl
    rw [hload filespec s hne]
    cases hl : load filespec s with
    | undefined su => rfl
    | out_of_fuel su => rfl
    | ok p =>
      simp only [hl] at h ⊢
      exact ih _ _ h
  | request name k ih =>
    intro s h
    rw [run_modinit] at h ⊢
    rw [run_modinit]
    have hne : (module_request_with env load name s).is_out_of_fuel = false := by
      cases hc : module_request_with env load name s with
      | out_of_fuel su => rw [hc] at h; exact h
      | ok _ => rfl
      | undefined _ => rfl
    rw [module_request_with_mono env load load2 hload name s hne]
    cases hl : module_request_with env load name s with
    | undefined su => rfl
    | out_of_fuel su => rfl
    | ok p =>
      simp only [hl] at h ⊢
      exact ih _ _ h

theorem module_load_succ (env : env_t) (fuel : Nat) :
    ∀ (filespec : cstr) (s : mstate), (module_load env fuel filespec s).is_out_of_fuel = false →
      module_load env (fuel + 1) filespec s = module_load env fuel filespec s := by
  induction fuel with
  | zero =>
    intro filespec s h
    simp [module_load, res_t.is_out_of_fuel] at h
  | succ fuel ih =>
    intro filespec s h
    rw [module_load] at h ⊢
    rw [module_load]
    cases hp : load_precheck env s filespec with
    | error evs => rfl
    | ok p =>
      obtain ⟨handle, hd⟩ := p
      simp only [hp] at h ⊢
      have hinit : (load_init env (module_load env fuel) s.brk hd
          (load_alloc env filespec handle hd s)).is_out_of_fuel = false := by
        cases hc : load_init env (module_load env fuel) s.brk hd (load_alloc env filespec handle hd s) with
        | out_of_fuel su => rw [hc] at h; exact h
        | ok _ => rfl
        | undefined _ => rfl
      have hinit2 : load_init env (module_load env (fuel + 1)) s.brk hd
          (load_alloc env filespec handle hd s) =
          load_init env (module_load env fuel) s.brk hd (load_alloc env filespec handle hd s) := by
        unfold load_init at hinit ⊢
        cases hi : hd.modinit with
        | none => rfl
        | some init =>
          simp only [hi] at hinit ⊢
          have hne : (run_modinit env (module_load env fuel) s.brk init
              (((load_alloc env filespec handle hd s).observe).emit
                (event_t.modinit s.brk))).is_out_of_fuel = false := by
            cases hc : run_modinit env (module_load env fuel) s.brk init
              (((load_alloc env filespec handle hd s).observe).emit (event_t.modinit s.brk)) with
            | out_of_fuel su => rw [hc] at hinit; exact hinit
            | ok _ => rfl
            | undefined _ => rfl
          rw [run_modinit_mono env _ _ ih s.brk init _ hne]
      rw [hinit2]
      cases hi : load_init env (module_load env fuel) s.brk hd (load_alloc env filespec handle hd s) with
      | undefined su => rfl
      | out_of_fuel su => rfl
      | ok s2 =>
        simp only [hi] at h ⊢
        unfold load_finish at h ⊢
        cases hmr : s2.heap s.brk with
        | none => rfl
        | some mr =>
          simp only [hmr] at h ⊢
          split
          · rename_i hfail
            rw [if_pos hfail] at h
            have hne : (module_unload fuel (some s.brk)
                (s2.emit (event_t.slog logmsg_t.init_failed))).is_out_of_fuel = false := by
              cases hc : module_unload fuel (some s.brk) (s2.emit (event_t.slog logmsg_t.init_failed)) with
              | out_of_fuel su => rw [hc] at h; exact h
              | ok _ => rfl
              | undefined _ => rfl
            rw [(module_unload_succ fuel).1 _ _ hne]
          · rfl

theorem apply_mod_op_succ (env : env_t) (fuel : Nat) (op : mod_op) (s : mstate)
    (h : (apply_mod_op env fuel op s).is_out_of_fuel = false) :
    apply_mod_op env (fuel + 1) op s = apply_mod_op env fuel op s := by
  cases op with
  | load filespec =>
    simp only [apply_mod_op] at h ⊢
    have hne : (module_load env fuel filespec s).is_out_of_fuel = false := by
      cases hc : module_load env fuel filespec s with
      | out_of_fuel su => rw [hc] at h; exact h
      | ok _ => rfl
      | undefined _ => rfl
    rw [module_load_succ env fuel filespec s hne]
  | request name =>
    simp only [apply_mod_op, module_request] at h ⊢
    have hne : (module_request_with env (module_load env fuel) name s).is_out_of_fuel = false := by
      cases hc : module_request_with env (module_load env fuel) name s with
      | out_of_fuel su => rw [hc] at h; exact h
      | ok _ => rfl
      | undefined _ => rfl
    rw [module_request_with_mono env _ _ (module_load_succ env fuel) name s hne]
  | locate_symbol modname sym => rfl
  | unload name =>
    simp only [apply_mod_op] at h ⊢
    exact (module_unload_succ fuel).1 _ s h

theorem run_mod_ops_succ (env : env_t) (fuel : Nat) (ops : List mod_op) :
    ∀ (s : mstate), (run_mod_ops env fuel ops s).is_out_of_fuel = false →
      run_mod_ops env (fuel + 1) ops s = run_mod_ops env fuel ops s := by
  induction ops with
  | nil => intro s _; rfl
  | cons op ops ih =>
    intro s h
    rw [run_mod_ops] at h ⊢
    rw [run_mod_ops]
    have hne : (apply_mod_op env fuel op s).is_out_of_fuel = false := by
      cases hc : apply_mod_op env fuel op s with
      | out_of_fuel su => rw [hc] at h; exact h
      | ok _ => rfl
      | undefined _ => rfl
    rw [apply_mod_op_succ env fuel op s hne]
    cases ha : apply_mod_op env fuel op s with
    | undefined su => rfl
    | out_of_fuel su => rfl
    | ok s1 =>
      simp only [ha] at h ⊢
      exact ih s1 h

/-- A run that ends within `fuel` nested calls ends the same way when more are
allowed. -/
theorem run_mod_ops_add (env : env_t) (fuel : Nat) (ops : List mod_op) (s : mstate)
    (h : (run_mod_ops env fuel ops s).is_out_of_fuel = false) (k : Nat) :
    run_mod_ops env (fuel + k) ops s = run_mod_ops env fuel ops s := by
  induction k with
  | zero => rfl
  | succ k ih =>
    rw [← Nat.add_assoc, run_mod_ops_succ env (fuel + k) ops s (by rw [ih]; exact h), ih]

theorem res_t_is_undefined_not_out_of_fuel {α : Type} (r : res_t α) (h : r.is_undefined = true) :
    r.is_out_of_fuel = false := by
  cases r with
  | undefined s => rfl
  | ok a => rfl
  | out_of_fuel s => cases h

theorem res_t_is_ok_not_out_of_fuel {α : Type} (r : res_t α) (h : r.is_ok = true) :
    r.is_out_of_fuel = false := by
  cases r with
  | undefined s => rfl
  | ok a => rfl
  | out_of_fuel s => cases h

theorem res_t_exists_of_is_ok {α : Type} (r : res_t α) (h : r.is_ok = true) : ∃ a, r = res_t.ok a := by
  cases r with
  | ok a => exact ⟨a, rfl⟩
  | undefined s => cases h
  | out_of_fuel s => cases h

theorem demo_run_is_ok : (run_mod_ops demo_env 10 demo_run mstate.init).is_ok = true := by
  decide!

theorem demo_chain_10 : (run_mod_ops demo_env 10 demo_chain mstate.init).is_ok = true := by
  decide!

theorem demo_chain_edges :
    (demo_chain_state.heap 1).map (fun r => (r.deplist, r.dephost)) = some ([], [2]) ∧
      (demo_chain_state.heap 2).map (fun r => (r.deplist, r.dephost)) = some ([1], [3]) ∧
      (demo_chain_state.heap 3).map (fun r => (r.deplist, r.dephost)) = some ([2], []) := by
  decide!

theorem dependency_symmetry_invariant_witness :
    ∃ s, run_mod_ops demo_env 10 demo_chain mstate.init = res_t.ok s ∧
      (units_allocated s.view ∧ dep_symmetric s.view ∧ edges_ok s.heap) ∧
      (s.heap 1).map (fun r => (r.deplist, r.dephost)) = some ([], [2]) ∧
      (s.heap 2).map (fun r => (r.deplist, r.dephost)) = some ([1], [3]) ∧
      (s.heap 3).map (fun r => (r.deplist, r.dephost)) = some ([2], []) :=
  (res_t_exists_of_is_ok _ demo_chain_10).elim
    (fun s hs => ⟨s, hs, (dependency_symmetry_invariant demo_env 10 demo_chain).1 s hs,
      by
        have h := demo_chain_edges
        rw [demo_chain_state, hs] at h
        exact h⟩)

theorem demo_chain_unload_10 :
    (run_mod_ops demo_env 10 (demo_chain ++ [mod_op.unload "c".toList]) mstate.init).is_ok = true ∧
    (run_mod_ops demo_env 10 (demo_chain ++ [mod_op.unload "c".toList]) mstate.init).get?.map
        (fun s => (s.modules, s.trace.filter event_t.is_callback)) =
      some ([], [event_t.modinit 1, event_t.modinit 2, event_t.modinit 3,
        event_t.deinit 3 13, event_t.deinit 2 12, event_t.deinit 1 11]) := by
  decide!

theorem demo_diamond_10 :
    (run_mod_ops demo_env 10 demo_diamond mstate.init).is_ok = true ∧
    (run_mod_ops demo_env 10 demo_diamond mstate.init).get?.map (fun s => s.modules) =
      some [1, 2, 3] ∧
    (run_mod_ops demo_env 10 demo_diamond mstate.init).get?.map
      (fun s => (s.heap 1).map (fun r => r.dephost)) = some (some [2, 3]) ∧
    (run_mod_ops demo_env 10 demo_diamond mstate.init).get?.map
      (fun s => (s.heap 2).map (fun r => r.dephost)) = some (some [3]) ∧
    (run_mod_ops demo_env 10 demo_diamond mstate.init).get?.map
      (fun s => (s.heap 3).map (fun r => r.deplist)) = some (some [2, 1]) := by
  decide!

theorem demo_diamond_unload_10 :
    (run_mod_ops demo_env 10 (demo_diamond ++ [mod_op.unload "c".toList]) mstate.init).is_undefined =
        true ∧
    (run_mod_ops demo_env 10 (demo_diamond ++ [mod_op.unload "c".toList])
        mstate.init).reached.trace.filter event_t.is_callback =
      [event_t.modinit 1, event_t.modinit 2, event_t.modinit 3, event_t.deinit 3 14,
        event_t.deinit 2 12] ∧
    (run_mod_ops demo_env 10 (demo_diamond ++ [mod_op.unload "c".toList])
        mstate.init).reached.modules = [1] := by
  decide!

/-- C2 fails on the code.  Whatever the bound on the depth of nested calls
(`10 + fuel`): on the chain (`a` requires `b`, `b` requires `c`)
`module_unload` of `c` empties the registry and runs the deinit callbacks of
`a`, `b`, `c` in this order; on the diamond (`b` requires `c`, `d` requires
`b` and `c`, loaded in the order `c`, `b`, `d`), which a run from the empty
registry reaches, `module_unload` of `c` reads freed memory, after the deinit
callbacks of `d` and `b` and before that of `c`: the cascade through `b`
unlinks and frees the node of `d` in the `dephost` of `c`, which the loop over
that list has saved as its next node.  With no bound at all does the unload on
the diamond give a result. -/
theorem module_unload_diamond_use_after_free (fuel : Nat) :
    (run_mod_ops demo_env (10 + fuel) (demo_chain ++ [mod_op.unload "c".toList]) mstate.init).get?.map
        (fun s => (s.modules, s.trace.filter event_t.is_callback)) =
      some ([], [event_t.modinit 1, event_t.modinit 2, event_t.modinit 3,
        event_t.deinit 3 13, event_t.deinit 2 12, event_t.deinit 1 11]) ∧
    (run_mod_ops demo_env (10 + fuel) demo_diamond mstate.init).get?.map (fun s => s.modules) =
      some [1, 2, 3] ∧
    (run_mod_ops demo_env (10 + fuel) demo_diamond mstate.init).get?.map
      (fun s => (s.heap 1).map (fun r => r.dephost)) = some (some [2, 3]) ∧
    (run_mod_ops demo_env (10 + fuel) demo_diamond mstate.init).get?.map
      (fun s => (s.heap 2).map (fun r => r.dephost)) = some (some [3]) ∧
    (run_mod_ops demo_env (10 + fuel) demo_diamond mstate.init).get?.map
      (fun s => (s.heap 3).map (fun r => r.deplist)) = some (some [2, 1]) ∧
    (run_mod_ops demo_env (10 + fuel) (demo_diamond ++ [mod_op.unload "c".toList])
      mstate.init).is_undefined = true ∧
    (run_mod_ops demo_env (10 + fuel) (demo_diamond ++ [mod_op.unload "c".toList])
        mstate.init).reached.trace.filter event_t.is_callback =
      [event_t.modinit 1, event_t.modinit 2, event_t.modinit 3, event_t.deinit 3 14,
        event_t.deinit 2 12] ∧
    (run_mod_ops demo_env (10 + fuel) (demo_diamond ++ [mod_op.unload "c".toList])
        mstate.init).reached.modules = [1] ∧
    (run_mod_ops demo_env fuel (demo_diamond ++ [mod_op.unload "c".toList]) mstate.init).is_ok =
      false := by
  have hc := run_mod_ops_add demo_env 10 (demo_chain ++ [mod_op.unload "c".toList]) mstate.init
    (res_t_is_ok_not_out_of_fuel _ demo_chain_unload_10.1) fuel
  have hd := run_mod_ops_add demo_env 10 demo_diamond mstate.init
    (res_t_is_ok_not_out_of_fuel _ demo_diamond_10.1) fuel
  have hu := run_mod_ops_add demo_env 10 (demo_diamond ++ [mod_op.unload "c".toList]) mstate.init
    (res_t_is_undefined_not_out_of_fuel _ demo_diamond_unload_10.1)
  rw [hc, hd, hu fuel]
  refine ⟨demo_chain_unload_10.2, demo_diamond_10.2.1, demo_diamond_10.2.2.1, demo_diamond_10.2.2.2.1,
    demo_diamond_10.2.2.2.2, demo_diamond_unload_10.1, demo_diamond_unload_10.2.1,
    demo_diamond_unload_10.2.2, ?_⟩
  cases hr : run_mod_ops demo_env fuel (demo_diamond ++ [mod_op.unload "c".toList]) mstate.init with
  | undefined su => rfl
  | out_of_fuel su => rfl
  | ok s =>
    exfalso
    have hne : (run_mod_ops demo_env fuel (demo_diamond ++ [mod_op.unload "c".toList])
        mstate.init).is_out_of_fuel = false := by
      rw [hr]; rfl
    have h1 := run_mod_ops_add demo_env fuel _ mstate.init hne 10
    rw [Nat.add_comm, hu fuel, hr] at h1
    have h2 := demo_diamond_unload_10.1
    rw [h1] at h2
    cases h2

/-! ### Failing loads -/

theorem module_find_of_registered (s : mstate) (m : modptr) (r : module_t) (filespec : cstr)
    (hm : m ∈ s.modules) (hr : s.heap m = some r) (hcmp : strcasecmp r.modpath filespec = 0) :
    ∃ m2, module_find s filespec = some m2 := by
  unfold module_find
  cases hf : s.modules.find? (fun m =>
    match s.heap m with
    | some r => strcasecmp r.modpath filespec == 0
    | none => false) with
  | some m2 => exact ⟨m2, rfl⟩
  | none =>
    rw [List.find?_eq_none] at hf
    have := hf m hm
    simp [hr, hcmp] at this

theorem module_find_published_of_registered (s : mstate) (m : modptr) (r : module_t) (name : cstr)
    (hm : m ∈ s.modules) (hr : s.heap m = some r) (hcmp : strcasecmp r.header.name name = 0) :
    ∃ m2, module_find_published s name = some m2 := by
  unfold module_find_published
  cases hf : s.modules.find? (fun m =>
    match s.heap m with
    | some r => strcasecmp r.header.name name == 0
    | none => false) with
  | some m2 => exact ⟨m2, rfl⟩
  | none =>
    rw [List.find?_eq_none] at hf
    have := hf m hm
    simp [hr, hcmp] at this

/-- C15: `module_load` of a path that is the load-path (`modpath`) of a
registered module, be it up to letter case, returns `NULL` and does nothing
but log that the module is already loaded: the code object is not opened, no
callback is invoked, and the registry (the list of modules, hence its size),
the modules and their dependency lists are as before. -/
theorem module_load_already_loaded (env : env_t) (fuel : Nat) (s : mstate) (m : modptr)
    (r : module_t) (filespec : cstr) (hm : m ∈ s.modules) (hr : s.heap m = some r)
    (hpath : filespec = r.modpath ∨ strcasecmp r.modpath filespec = 0) :
    module_load env (fuel + 1) filespec s =
        res_t.ok (none, { s with trace := s.trace ++ [event_t.slog logmsg_t.already_loaded] }) ∧
      (∀ s1, module_load env (fuel + 1) filespec s = res_t.ok (none, s1) →
        s1.modules = s.modules ∧ s1.modules.length = s.modules.length ∧ s1.heap = s.heap ∧
        s1.modtarget = s.modtarget ∧ s1.seen = s.seen ∧
        ∀ e ∈ s1.trace.drop s.trace.length,
          e.is_callback = false ∧ e ≠ event_t.linker_open_ext filespec) := by
  have hcmp : strcasecmp r.modpath filespec = 0 := by
    rcases hpath with h | h
    · rw [h]; exact strcasecmp_self _
    · exact h
  obtain ⟨m2, hfind⟩ := module_find_of_registered s m r filespec hm hr hcmp
  have hrun : module_load env (fuel + 1) filespec s =
      res_t.ok (none, { s with trace := s.trace ++ [event_t.slog logmsg_t.already_loaded] }) := by
    simp [module_load, load_precheck, hfind]
  refine ⟨hrun, ?_⟩
  intro s1 h1
  rw [hrun] at h1
  simp only [res_t.ok.injEq, Prod.mk.injEq, true_and] at h1
  subst h1
  refine ⟨rfl, rfl, rfl, rfl, rfl, ?_⟩
  intro e he
  simp only [List.drop_left, List.mem_singleton] at he
  subst he
  exact ⟨rfl, by simp⟩

theorem demo_state_c_registered :
    (1 ∈ demo_state_c.modules) ∧ (demo_state_c.heap 1).isSome = true := by
  decide!

theorem module_load_already_loaded_witness :
    ∃ r, demo_state_c.heap 1 = some r ∧
      module_load demo_env 1 r.modpath demo_state_c =
        res_t.ok (none,
          { demo_state_c with
            trace := demo_state_c.trace ++ [event_t.slog logmsg_t.already_loaded] }) :=
  (Option.isSome_iff_exists.mp demo_state_c_registered.2).elim
    (fun r hr => ⟨r, hr,
      (module_load_already_loaded demo_env 0 demo_state_c 1 r r.modpath demo_state_c_registered.1 hr
        (Or.inl rfl)).1⟩)

theorem option_filter_eq_some {α : Type} (p : α → Bool) (o : Option α) (a : α)
    (ho : o = some a) (hp : p a = true) : o.filter p = some a := by
  subst ho; simp [Option.filter, hp]

/-- C16: take a path that no registered module has and whose code object
opens.  If the object has no header or a header with the wrong magic tag,
`module_load` logs that the module is incompatible (`NotAnExtension`); with the
right magic tag and a wrong MAPI version it logs the version mismatch; with
the right magic tag and MAPI version and a wrong ABI revision it logs the
revision mismatch.  The three log messages are pairwise different; in each
case the code object is closed again, `NULL` is returned, and the registry
and all dependency lists are as before. -/
theorem module_load_header_errors (env : env_t) (fuel : Nat) (filespec : cstr) (s : mstate)
    (handle : Nat) (hfind : module_find s filespec = none)
    (hopen : env.linker_open_ext filespec = some handle) :
    ((env.header handle = none ∨
        ∃ h, env.header handle = some h ∧ h.atheme_mod ≠ env.MAPI_ATHEME_MAGIC) →
      module_load env (fuel + 1) filespec s =
        res_t.ok (none, { s with trace := s.trace ++ [event_t.linker_open_ext filespec,
          event_t.slog logmsg_t.incompatible_module, event_t.linker_close handle] })) ∧
    (∀ h, env.header handle = some h → h.atheme_mod = env.MAPI_ATHEME_MAGIC →
      h.abi_ver ≠ env.MAPI_ATHEME_V2 →
      module_load env (fuel + 1) filespec s =
        res_t.ok (none, { s with trace := s.trace ++ [event_t.linker_open_ext filespec,
          event_t.slog (logmsg_t.mapi_version_mismatch h.abi_ver env.MAPI_ATHEME_V2),
          event_t.linker_close handle] })) ∧
    (∀ h, env.header handle = some h → h.atheme_mod = env.MAPI_ATHEME_MAGIC →
      h.abi_ver = env.MAPI_ATHEME_V2 → h.abi_rev ≠ env.CURRENT_ABI_REVISION →
      module_load env (fuel + 1) filespec s =
        res_t.ok (none, { s with trace := s.trace ++ [event_t.linker_open_ext filespec,
          event_t.slog (logmsg_t.abi_revision_mismatch h.abi_rev env.CURRENT_ABI_REVISION),
          event_t.linker_close handle] })) ∧
    (∀ a b c d : Nat, logmsg_t.incompatible_module ≠ logmsg_t.mapi_version_mismatch a b ∧
      logmsg_t.incompatible_module ≠ logmsg_t.abi_revision_mismatch c d ∧
      logmsg_t.mapi_version_mismatch a b ≠ logmsg_t.abi_revision_mismatch c d) := by
  refine ⟨?_, ?_, ?_, ?_⟩
  · intro h
    have hflt : (env.header handle).filter (fun h => h.atheme_mod = env.MAPI_ATHEME_MAGIC) = none := by
      rcases h with h | ⟨hd, h1, h2⟩
      · rw [h]; rfl
      · rw [h1]; simp [Option.filter, h2]
    simp [module_load, load_precheck, hfind, hopen, hflt]
  · intro hd h1 h2 h3
    have hflt := option_filter_eq_some (fun h => decide (h.atheme_mod = env.MAPI_ATHEME_MAGIC))
      _ hd h1 (by simpa using h2)
    simp [module_load, load_precheck, hfind, hopen, hflt, h3]
  · intro hd h1 h2 h3 h4
    have hflt := option_filter_eq_some (fun h => decide (h.atheme_mod = env.MAPI_ATHEME_MAGIC))
      _ hd h1 (by simpa using h2)
    simp [module_load, load_precheck, hfind, hopen, hflt, h3, h4]
  · intro a b c d
    exact ⟨by simp, by simp, by simp⟩

theorem module_load_header_errors_witness :
    module_load demo_env 1 "e.so".toList mstate.init =
        res_t.ok (none, { mstate.init with trace := mstate.init.trace ++
          [event_t.linker_open_ext "e.so".toList, event_t.slog logmsg_t.incompatible_module,
            event_t.linker_close 5] }) ∧
      module_load twin_env 1 "v.so".toList mstate.init =
        res_t.ok (none, { mstate.init with trace := mstate.init.trace ++
          [event_t.linker_open_ext "v.so".toList,
            event_t.slog (logmsg_t.mapi_version_mismatch 1 2), event_t.linker_close 3] }) ∧
      module_load twin_env 1 "r.so".toList mstate.init =
        res_t.ok (none, { mstate.init with trace := mstate.init.trace ++
          [event_t.linker_open_ext "r.so".toList,
            event_t.slog (logmsg_t.abi_revision_mismatch 4 5), event_t.linker_close 4] }) :=
  ⟨(module_load_header_errors demo_env 0 "e.so".toList mstate.init 5 (by decide) (by decide!)).1
      (Or.inr ⟨_, rfl, by decide⟩),
    (module_load_header_errors twin_env 0 "v.so".toList mstate.init 3 (by decide)
      (by decide!)).2.1 { demo_header "v".toList modinit_t.done 23 with abi_ver := 1 } rfl rfl
      (by decide),
    (module_load_header_errors twin_env 0 "r.so".toList mstate.init 4 (by decide)
      (by decide!)).2.2.1 { demo_header "r".toList modinit_t.done 24 with abi_rev := 4 } rfl rfl
      rfl (by decide)⟩

/-- C17: take a load that passes the checks before the published-name check
(path not registered, code object opens, header with the right magic tag, MAPI
version and ABI revision).  If a registered module already declares the
published name of the header, be it up to letter case, `module_load` logs that
the published name exists, closes the code object and returns `NULL`: no
`module_t` is allocated, no callback runs, the registry and every dependency
list are as before, and in a sound state no list holds the block the rejected
module would have got. -/
theorem module_load_duplicate_published_name (env : env_t) (fuel : Nat) (filespec : cstr)
    (s : mstate) (handle : Nat) (h : v2_moduleheader_t) (m : modptr) (r : module_t)
    (hfind : module_find s filespec = none) (hopen : env.linker_open_ext filespec = some handle)
    (hhdr : env.header handle = some h) (hmagic : h.atheme_mod = env.MAPI_ATHEME_MAGIC)
    (hver : h.abi_ver = env.MAPI_ATHEME_V2) (hrev : h.abi_rev = env.CURRENT_ABI_REVISION)
    (hm : m ∈ s.modules) (hr : s.heap m = some r)
    (hname : r.header.name = h.name ∨ strcasecmp r.header.name h.name = 0) :
    module_load env (fuel + 1) filespec s =
        res_t.ok (none, { s with trace := s.trace ++ [event_t.linker_open_ext filespec,
          event_t.slog logmsg_t.published_name_exists, event_t.linker_close handle] }) ∧
      (mstate_ok s → ∀ p rp, s.heap p = some rp → s.brk ∉ rp.deplist ∧ s.brk ∉ rp.dephost) := by
  have hcmp : strcasecmp r.header.name h.name = 0 := by
    rcases hname with hn | hn
    · rw [hn]; exact strcasecmp_self _
    · exact hn
  obtain ⟨m2, hpub⟩ := module_find_published_of_registered s m r h.name hm hr hcmp
  have hflt := option_filter_eq_some (fun h => decide (h.atheme_mod = env.MAPI_ATHEME_MAGIC))
    _ h hhdr (by simpa using hmagic)
  constructor
  · simp [module_load, load_precheck, hfind, hopen, hflt, hver, hrev, hpub]
  · intro hok p rp hp
    have hfree := ((mstate_ok_iff s).mp hok).2.2.2.2.2 s.brk (Nat.le_refl _)
    have hedges := ((mstate_ok_iff s).mp hok).1
    constructor
    · intro hmem
      have := edges_ok_live_dep s.heap hedges p s.brk rp hp hmem
      rw [hfree] at this; cases this
    · intro hmem
      have := edges_ok_live_host s.heap hedges p s.brk rp hp hmem
      rw [hfree] at this; cases this

theorem twin_state_y_registered :
    (1 ∈ twin_state_y.modules) ∧ (twin_state_y.heap 1).isSome = true ∧
      (twin_state_y.heap 1).map (fun r => r.header.name) = some "x".toList ∧
      module_find twin_state_y "x.so".toList = none := by
  decide!

theorem module_load_duplicate_published_name_witness :
    ∃ r, twin_state_y.heap 1 = some r ∧
      module_load twin_env 1 "x.so".toList twin_state_y =
        res_t.ok (none, { twin_state_y with trace := twin_state_y.trace ++
          [event_t.linker_open_ext "x.so".toList, event_t.slog logmsg_t.published_name_exists,
            event_t.linker_close 1] }) :=
  (Option.isSome_iff_exists.mp twin_state_y_registered.2.1).elim
    (fun r hr => ⟨r, hr,
      (module_load_duplicate_published_name twin_env 0 "x.so".toList twin_state_y 1
        (demo_header "x".toList (modinit_t.load "y.so".toList (fun _ => modinit_t.done)) 21) 1 r
        twin_state_y_registered.2.2.2 (by decide!) rfl rfl rfl rfl twin_state_y_registered.1 hr
        (Or.inl (by
          have h := twin_state_y_registered.2.2.1
          rw [hr] at h
          simpa [demo_header] using h))).1⟩)

/-! ### Uniqueness of the published name -/

/-- C18: in the twin world, `module_load("x.so")` on the empty registry
completes and leaves two registered modules, the one of `y.so` (loaded from the
init callback of `x.so`) and the one of `x.so`, and both have the published
name `x`: the published-name check of `x.so` ran before `y.so` was registered,
and the one of `y.so` before `x.so` was. -/
theorem module_load_twin_published_name :
    twin_run.is_ok = true ∧ twin_run.reached.modules = [2, 1] ∧
      (twin_run.reached.heap 1).map (fun r => r.header.name) = some "x".toList ∧
      (twin_run.reached.heap 2).map (fun r => r.header.name) = some "x".toList ∧
      (twin_run.reached.heap 1).map (fun r => r.modpath) = some "x.so".toList ∧
      (twin_run.reached.heap 2).map (fun r => r.modpath) = some "y.so".toList := by
  decide!

/-! ### The unload of a module that no module requires -/

theorem erase_erase_of_nodup (m : Nat) (l : List Nat) (h : l.Nodup) :
    (l.erase m).erase m = l.erase m :=
  List.erase_of_not_mem (fun hmem => ((List.Nodup.mem_erase_iff h).mp hmem).1 rfl)

theorem unload_deplist_frame (m : modptr) (l : List modptr) :
    ∀ (s : mstate) (mr : module_t), mstate_ok s → s.heap m = some mr → mr.deplist = l →
      mr.dephost = [] →
      ∃ s1, unload_deplist m l s = res_t.ok s1 ∧ s1.modules = s.modules ∧ s1.trace = s.trace ∧
        s1.seen = s.seen ∧ s1.brk = s.brk ∧ s1.modtarget = s.modtarget ∧
        s1.heap m = some { mr with deplist := [] } ∧
        ∀ p, p ≠ m →
          s1.heap p = (s.heap p).map (fun r => { r with dephost := r.dephost.erase m }) := by
  induction l with
  | nil =>
    intro s mr hok hmr hdl hdh
    refine ⟨s, rfl, rfl, rfl, rfl, rfl, rfl, ?_, ?_⟩
    · rw [hmr, ← hdl]
    · intro p hp
      cases hpr : s.heap p with
      | none => rfl
      | some r =>
        have hnot : m ∉ r.dephost := by
          intro hmem
          obtain ⟨rb, hrb, hin⟩ := (((mstate_ok_iff s).mp hok).1 p r hpr).2.2.2 m hmem
          rw [hmr] at hrb
          cases hrb
          rw [hdl] at hin
          cases hin
        simp [List.erase_of_not_mem hnot]
  | cons hm rest ih =>
    intro s mr hok hmr hdl hdh
    have hedges0 := ((mstate_ok_iff s).mp hok).1
    obtain ⟨hr, hhm, _⟩ := (hedges0 m mr hmr).2.2.1 hm (by rw [hdl]; exact List.mem_cons_self _ _)
    have hne : hm ≠ m := by
      intro heq
      have hself := (hedges0 m mr hmr).2.2.1 hm (by rw [hdl]; exact List.mem_cons_self _ _)
      obtain ⟨rb, hrb, hin⟩ := hself
      rw [heq, hmr] at hrb
      cases hrb
      rw [hdh] at hin
      cases hin
    rw [unload_deplist]
    simp only [hhm]
    have hedges := edges_ok_del s.heap m hm mr rest hmr hdl hedges0
    have hok2 := mstate_ok_heap s _ hok (fun q => by
      rw [heap_update_isSome, heap_update_isSome]) hedges
    have hm2 : (heap_update (heap_update s.heap hm (fun r =>
        { r with dephost :=
            match node_find m r.dephost with
            | some hn => node_del hn r.dephost
            | none => r.dephost }))
          m (fun r => { r with deplist := node_del 0 r.deplist })) m =
        some { mr with deplist := rest } := by
      simp [heap_update, Ne.symm hne, hmr, hdl, node_del_zero]
    obtain ⟨s1, hs1, a1, a2, a3, a4, a5, a6, a7⟩ := ih _ { mr with deplist := rest } hok2 hm2 rfl hdh
    refine ⟨s1, hs1, a1, a2, a3, a4, a5, a6, ?_⟩
    intro p hp
    rw [a7 p hp]
    simp only [mstate.update, heap_update, hp, if_false]
    by_cases hph : p = hm
    · subst hph
      simp only [if_true, hhm, Option.map_some', Option.some.injEq, node_find_del]
      rw [erase_erase_of_nodup m hr.dephost (hedges0 p hr hhm).2.1]
    · simp only [hph, if_false]

theorem module_unload_embryo (fuel : Nat) (m : modptr) (s : mstate) (mr : module_t)
    (hok : mstate_ok s) (hmr : s.heap m = some mr) (hdh : mr.dephost = [])
    (hreg : m ∉ s.modules) :
    ∃ s3, module_unload (fuel + 1) (some m) s = res_t.ok s3 ∧ s3.modules = s.modules ∧
      s3.trace = s.trace ++ [event_t.linker_close mr.handle, event_t.block_free m] ∧
      s3.seen = s.seen ∧ s3.brk = s.brk ∧ s3.modtarget = s.modtarget ∧ s3.heap m = none ∧
      ∀ p, p ≠ m →
        s3.heap p = (s.heap p).map (fun r => { r with dephost := r.dephost.erase m }) := by
  obtain ⟨s1, hs1, a1, a2, a3, a4, a5, a6, a7⟩ := unload_deplist_frame m mr.deplist s mr hok hmr rfl hdh
  have hf : node_find m s1.modules = none := by
    rw [a1]; exact (node_find_eq_none m s.modules).mpr hreg
  refine ⟨{ s1 with
            heap := heap_free s1.heap m
            trace := s1.trace ++ [event_t.linker_close mr.handle, event_t.block_free m] },
    ?_, a1, ?_, a3, a4, a5, ?_, ?_⟩
  · rw [module_unload]
    simp only [hmr, hdh, unload_after_hosts, hs1, unload_finish, a6, hf]
  · simp only [a2]
  · simp [heap_free]
  · intro p hp
    simp only [heap_free, hp, if_false]
    exact a7 p hp

/-! ### A module whose init callback has not returned -/

theorem embryo_of_load_post (e : modptr) (v : module_t) (s s1 : mstate) (he : embryo e v s) (hpost : load_post s s1)
    (hd : ∀ r1, s1.heap e = some r1 → r1.dephost = [] ∧ r1.modpath = v.modpath ∧ r1.handle = v.handle ∧ r1.header = v.header) : embryo e v s1 := by
  refine ⟨fun hmem => ?_, Nat.lt_of_lt_of_le he.2.1 hpost.2.1, hd⟩
  rcases hpost.2.2.1 e hmem with h | h
  · exact he.1 h
  · exact absurd he.2.1 (Nat.not_lt.mpr h)

theorem add_dependency_embryo (e m : modptr) (v : module_t) (s s1 : mstate) (hm : m ∈ s.modules)
    (he : embryo e v s) (h : add_dependency m s = res_t.ok s1) :
    ∀ r1, s1.heap e = some r1 → r1.dephost = [] ∧ r1.modpath = v.modpath ∧ r1.handle = v.handle ∧ r1.header = v.header := by
  have hem : e ≠ m := fun heq => he.1 (heq ▸ hm)
  unfold add_dependency at h
  cases ht : s.modtarget with
  | none =>
    simp only [ht, res_t.ok.injEq] at h
    subst h; exact he.2.2
  | some t =>
    simp only [ht] at h
    cases htr : s.heap t with
    | none => simp [htr] at h
    | some tr =>
      simp only [htr] at h
      cases hf : node_find m tr.deplist with
      | some n =>
        simp only [hf, res_t.ok.injEq] at h
        subst h; exact he.2.2
      | none =>
        simp only [hf, res_t.ok.injEq] at h
        subst h
        intro r1 hr1
        simp only [mstate.update, mstate.emit, heap_update, hem, if_false] at hr1
        by_cases het : e = t
        · simp only [het, if_true] at hr1
          cases hte : s.heap t with
          | none => simp [hte] at hr1
          | some r0 =>
            simp only [hte, Option.map_some', Option.some.injEq] at hr1
            subst hr1
            exact he.2.2 r0 (het ▸ hte)
        · simp only [het, if_false] at hr1
          exact he.2.2 r1 hr1

theorem module_find_published_mem (s : mstate) (name : cstr) (m : modptr)
    (h : module_find_published s name = some m) : m ∈ s.modules :=
  List.mem_of_find?_eq_some h

theorem module_locate_symbol_embryo (env : env_t) (modname sym : cstr) (e : modptr) (v : module_t) (s : mstate)
    (hok : mstate_ok s) (he : embryo e v s) (p : Option Nat × mstate)
    (h : module_locate_symbol env modname sym s = res_t.ok p) : embryo e v p.2 := by
  have hpost := (res_inv_ok _ _ p (module_locate_symbol_ok env modname sym s hok) h).1
  refine embryo_of_load_post e v s p.2 he hpost ?_
  unfold module_locate_symbol at h
  cases hf : module_find_published s modname with
  | none =>
    simp only [hf, res_t.ok.injEq] at h
    subst h; exact he.2.2
  | some m =>
    simp only [hf] at h
    cases ha : add_dependency m s with
    | undefined su => simp [ha] at h
    | out_of_fuel su => simp [ha] at h
    | ok s1 =>
      simp only [ha] at h
      have hd := add_dependency_embryo e m v s s1 (module_find_published_mem s modname m hf) he ha
      cases hm : s1.heap m with
      | none => simp [hm] at h
      | some mr =>
        simp only [hm] at h
        cases hg : env.linker_getsym mr.handle sym with
        | none =>
          simp only [hg, res_t.ok.injEq] at h
          subst h; exact hd
        | some symptr =>
          simp only [hg, res_t.ok.injEq] at h
          subst h; exact hd

theorem module_request_with_embryo (env : env_t)
    (load : cstr → mstate → res_t (Option modptr × mstate)) (e : modptr) (v : module_t)
    (hemb : ∀ filespec s p, mstate_ok s → embryo e v s → load filespec s = res_t.ok p → embryo e v p.2)
    (name : cstr) (s : mstate) (hok : mstate_ok s) (he : embryo e v s) (p : Bool × mstate)
    (h : module_request_with env load name s = res_t.ok p) : embryo e v p.2 := by
  unfold module_request_with at h
  cases hf : module_find_published s name with
  | some m =>
    simp only [hf, res_t.ok.injEq] at h
    subst h; exact he
  | none =>
    simp only [hf] at h
    cases hl : load (module_request_path env name) s with
    | undefined su => simp [hl] at h
    | out_of_fuel su => simp [hl] at h
    | ok q =>
      have := hemb _ s q hok he hl
      obtain ⟨r, s1⟩ := q
      cases r with
      | none =>
        simp only [hl, res_t.ok.injEq] at h
        subst h; exact this
      | some x =>
        simp only [hl, res_t.ok.injEq] at h
        subst h; exact this

theorem embryo_observe (e : modptr) (v : module_t) (s : mstate) (h : embryo e v s) : embryo e v s.observe := h

theorem run_modinit_embryo (env : env_t) (load : cstr → mstate → res_t (Option modptr × mstate))
    (hload : ∀ filespec s, mstate_ok s → res_inv (fun p => load_post s p.2) (load filespec s))
    (e : modptr) (v : module_t)
    (hemb : ∀ filespec s p, mstate_ok s → embryo e v s → load filespec s = res_t.ok p → embryo e v p.2)
    (m : modptr) (init : modinit_t) :
    ∀ (s s2 : mstate), mstate_ok s → embryo e v s → run_modinit env load m init s = res_t.ok s2 →
      embryo e v s2 := by
  induction init with
  | done =>
    intro s s2 _ he h
    simp only [run_modinit, res_t.ok.injEq] at h
    subst h; exact he
  | set_mflags v k ih =>
    intro s s2 hok he h
    rw [run_modinit] at h
    cases hm : s.heap m with
    | none => simp [hm] at h
    | some mr =>
      simp only [hm] at h
      have hpost := run_modinit_ok env load hload m (modinit_t.set_mflags v modinit_t.done) s hok
      simp only [run_modinit, hm] at hpost
      refine ih _ s2 hpost.1 ⟨he.1, he.2.1, ?_⟩ h
      intro r1 hr1
      simp only [mstate.update, heap_update] at hr1
      by_cases hem : e = m
      · simp only [hem, if_true, hm, Option.map_some', Option.some.injEq] at hr1
        subst hr1
        exact he.2.2 mr (hem ▸ hm)
      · simp only [hem, if_false] at hr1
        exact he.2.2 r1 hr1
  | locate_symbol modname sym k ih =>
    intro s s2 hok he h
    rw [run_modinit] at h
    cases hl : module_locate_symbol env modname sym s with
    | undefined su => simp [hl] at h
    | out_of_fuel su => simp [hl] at h
    | ok p =>
      simp only [hl] at h
      have hpost := (res_inv_ok _ _ p (module_locate_symbol_ok env modname sym s hok) hl).1
      exact ih p.1 _ s2 (mstate_ok_observe _ hpost.1)
        (embryo_observe e v _ (module_locate_symbol_embryo env modname sym e v s hok he p hl)) h
  | load filespec k ih =>
    intro s s2 hok he h
    rw [run_modinit] at h
    cases hl : load filespec s with
    | undefined su => simp [hl] at h
    | out_of_fuel su => simp [hl] at h
    | ok p =>
      simp only [hl] at h
      have hpost := res_inv_ok _ _ p (hload filespec s hok) hl
      exact ih p.1 _ s2 (mstate_ok_observe _ hpost.1)
        (embryo_observe e v _ (hemb filespec s p hok he hl)) h
  | request name k ih =>
    intro s s2 hok he h
    rw [run_modinit] at h
    cases hl : module_request_with env load name s with
    | undefined su => simp [hl] at h
    | out_of_fuel su => simp [hl] at h
    | ok p =>
      simp only [hl] at h
      have hpost := res_inv_ok _ _ p (module_request_with_ok env load hload name s hok) hl
      exact ih p.1 _ s2 (mstate_ok_observe _ hpost.1)
        (embryo_observe e v _ (module_request_with_embryo env load e v hemb name s hok he p hl)) h

theorem load_init_embryo (env : env_t) (load : cstr → mstate → res_t (Option modptr × mstate))
    (hload : ∀ filespec s, mstate_ok s → res_inv (fun p => load_post s p.2) (load filespec s))
    (e : modptr) (v : module_t)
    (hemb : ∀ filespec s p, mstate_ok s → embryo e v s → load filespec s = res_t.ok p → embryo e v p.2)
    (m : modptr) (hd : v2_moduleheader_t) (s s2 : mstate) (hok : mstate_ok s) (he : embryo e v s)
    (h : load_init env load m hd s = res_t.ok s2) : embryo e v s2 := by
  unfold load_init at h
  cases hi : hd.modinit with
  | none =>
    simp only [hi, res_t.ok.injEq] at h
    subst h; exact he
  | some init =>
    simp only [hi] at h
    cases hr : run_modinit env load m init ((s.observe).emit (event_t.modinit m)) with
    | undefined su => simp [hr] at h
    | out_of_fuel su => simp [hr] at h
    | ok s1 =>
      simp only [hr, res_t.ok.injEq] at h
      subst h
      exact run_modinit_embryo env load hload e v hemb m init _ s1
        (mstate_ok_emit _ _ (mstate_ok_observe _ hok)) he hr

theorem load_finish_embryo (fuel : Nat) (e m : modptr) (v w : module_t) (s : mstate)
    (p : Option modptr × mstate) (hok : mstate_ok s) (hem : e ≠ m) (he : embryo e v s)
    (hm : embryo m w s) (h : load_finish fuel m s = res_t.ok p) : embryo e v p.2 := by
  unfold load_finish at h
  cases hmr : s.heap m with
  | none => simp [hmr] at h
  | some mr =>
    simp only [hmr] at h
    split at h
    · cases fuel with
      | zero => simp [module_unload] at h
      | succ k =>
        obtain ⟨s3, hs3, a1, _, _, a4, _, _, a7⟩ :=
          module_unload_embryo k m (s.emit (event_t.slog logmsg_t.init_failed)) mr
            (mstate_ok_emit s _ hok) hmr (hm.2.2 mr hmr).1 hm.1
        simp only [hs3, res_t.ok.injEq] at h
        subst h
        refine ⟨fun hmem => he.1 (a1 ▸ hmem), a4 ▸ he.2.1, ?_⟩
        intro r1 hr1
        simp only [a7 e hem] at hr1
        cases hr0 : s.heap e with
        | none => simp [mstate.emit, hr0] at hr1
        | some r0 =>
          simp only [mstate.emit, hr0, Option.map_some', Option.some.injEq] at hr1
          subst hr1
          have := he.2.2 r0 hr0
          exact ⟨by simp [this.1], this.2⟩
    · simp only [res_t.ok.injEq] at h
      subst h
      refine ⟨?_, he.2.1, he.2.2⟩
      simp only [mstate.emit, node_add, List.mem_append, List.mem_singleton]
      rintro (h1 | h1)
      · exact he.1 h1
      · exact hem h1

theorem embryo_load_alloc (env : env_t) (filespec : cstr) (handle : Nat) (hd : v2_moduleheader_t)
    (s : mstate) (hok : mstate_ok s) :
    embryo s.brk
      { modpath := filespec.take (env.BUFSIZE - 1), handle := handle,
        mflags := MODTYPE_STANDARD, header := hd, deplist := [], dephost := [] }
      (load_alloc env filespec handle hd s) := by
  refine ⟨not_registered_of_fresh s hok s.brk (Nat.le_refl _), Nat.lt_succ_self _, ?_⟩
  intro r hr
  simp only [load_alloc, heap_alloc, if_true, Option.some.injEq] at hr
  subst hr
  exact ⟨rfl, rfl, rfl, rfl⟩

theorem module_load_embryo (env : env_t) (fuel : Nat) :
    ∀ (e : modptr) (v : module_t) (filespec : cstr) (s : mstate) (p : Option modptr × mstate), mstate_ok s →
      embryo e v s → module_load env fuel filespec s = res_t.ok p → embryo e v p.2 := by
  induction fuel with
  | zero =>
    intro e v filespec s p _ _ h
    simp [module_load] at h
  | succ n ih =>
    intro e v filespec s p hok he h
    rw [module_load] at h
    cases hc : load_precheck env s filespec with
    | error evs =>
      simp only [hc, res_t.ok.injEq] at h
      subst h; exact he
    | ok hh =>
      obtain ⟨handle, hd⟩ := hh
      simp only [hc] at h
      have hne : e ≠ s.brk := Nat.ne_of_lt he.2.1
      have hoka := (load_alloc_ok env filespec handle hd s hok).1
      have hea : embryo e v (load_alloc env filespec handle hd s) := by
        refine ⟨he.1, Nat.lt_succ_of_lt he.2.1, ?_⟩
        intro r1 hr1
        simp only [load_alloc, heap_alloc, hne, if_false] at hr1
        exact he.2.2 r1 hr1
      cases hi : load_init env (module_load env n) s.brk hd (load_alloc env filespec handle hd s) with
      | undefined su => simp [hi] at h
      | out_of_fuel su => simp [hi] at h
      | ok s2 =>
        simp only [hi] at h
        have hpost := res_inv_ok _ _ s2
          (load_init_ok env (module_load env n) (module_load_ok env n) s.brk hd _ hoka) hi
        have he2 := load_init_embryo env (module_load env n) (module_load_ok env n) e v
          (fun f t q h1 h2 h3 => ih e v f t q h1 h2 h3) s.brk hd _ s2 hoka hea hi
        have hm2 := load_init_embryo env (module_load env n) (module_load_ok env n) s.brk
          { modpath := filespec.take (env.BUFSIZE - 1), handle := handle,
            mflags := MODTYPE_STANDARD, header := hd, deplist := [], dephost := [] }
          (fun f t q h1 h2 h3 => ih _ _ f t q h1 h2 h3) s.brk hd _ s2 hoka
          (embryo_load_alloc env filespec handle hd s hok) hi
        exact load_finish_embryo n e s.brk v _ s2 p hpost.1.1 hne he2 hm2 h

/-! ### A failing init callback -/

theorem load_precheck_of_checks (env : env_t) (s : mstate) (filespec : cstr) (handle : Nat)
    (h : v2_moduleheader_t) (hfind : module_find s filespec = none)
    (hopen : env.linker_open_ext filespec = some handle) (hhdr : env.header handle = some h)
    (hmagic : h.atheme_mod = env.MAPI_ATHEME_MAGIC) (hver : h.abi_ver = env.MAPI_ATHEME_V2)
    (hrev : h.abi_rev = env.CURRENT_ABI_REVISION)
    (hpub : module_find_published s h.name = none) :
    load_precheck env s filespec = Except.ok (handle, h) := by
  have hflt := option_filter_eq_some (fun h => decide (h.atheme_mod = env.MAPI_ATHEME_MAGIC))
    _ h hhdr (by simpa using hmagic)
  simp [load_precheck, hfind, hopen, hflt, hver, hrev, hpub]

/-- C19: take a sound state and a load that passes all checks, whose init
callback returns with `MODTYPE_FAIL` set in the flags of the new module `m`
(the block `s.brk`).  Then `module_load` returns `NULL`.  The module is not
registered when the callback returns and the list `modules` is the same
afterwards; what follows the callback is the log message that the init failed,
one `linker_close` of the handle that was opened, and the release of the block,
so no deinit callback runs.  The block of `m` is free afterwards, every other
module is as the callback left it but for `m` taken out of its `dephost`, and
no list of any module holds `m`. -/
theorem module_load_init_failed (env : env_t) (fuel : Nat) (filespec : cstr) (s s2 : mstate)
    (handle : Nat) (h : v2_moduleheader_t) (mr : module_t) (hok : mstate_ok s)
    (hfind : module_find s filespec = none)
    (hopen : env.linker_open_ext filespec = some handle) (hhdr : env.header handle = some h)
    (hmagic : h.atheme_mod = env.MAPI_ATHEME_MAGIC) (hver : h.abi_ver = env.MAPI_ATHEME_V2)
    (hrev : h.abi_rev = env.CURRENT_ABI_REVISION)
    (hpub : module_find_published s h.name = none)
    (hinit : load_init env (module_load env (fuel + 1)) s.brk h
      (load_alloc env filespec handle h s) = res_t.ok s2)
    (hmr : s2.heap s.brk = some mr) (hfail : mr.mflags &&& MODTYPE_FAIL ≠ 0) :
    ∃ s3, module_load env (fuel + 2) filespec s = res_t.ok (none, s3) ∧
      s.brk ∉ s2.modules ∧ s3.modules = s2.modules ∧
      s3.trace = s2.trace ++ [event_t.slog logmsg_t.init_failed, event_t.linker_close handle,
        event_t.block_free s.brk] ∧
      s3.seen = s2.seen ∧ s3.heap s.brk = none ∧
      (∀ p, p ≠ s.brk →
        s3.heap p = (s2.heap p).map (fun r => { r with dephost := r.dephost.erase s.brk })) ∧
      ∀ p r3, s3.heap p = some r3 → s.brk ∉ r3.deplist ∧ s.brk ∉ r3.dephost := by
  have hcheck := load_precheck_of_checks env s filespec handle h hfind hopen hhdr hmagic hver
    hrev hpub
  have hoka := (load_alloc_ok env filespec handle h s hok).1
  have hpost := res_inv_ok _ _ s2
    (load_init_ok env (module_load env (fuel + 1)) (module_load_ok env (fuel + 1)) s.brk h _ hoka)
    hinit
  have hemb := load_init_embryo env (module_load env (fuel + 1)) (module_load_ok env (fuel + 1))
    s.brk _ (fun f t q h1 h2 h3 => module_load_embryo env (fuel + 1) _ _ f t q h1 h2 h3)
    s.brk h _ s2 hoka (embryo_load_alloc env filespec handle h s hok) hinit
  have hmr2 := hemb.2.2 mr hmr
  obtain ⟨s3, hs3, a1, a2, a3, _, _, a6, a7⟩ :=
    module_unload_embryo fuel s.brk (s2.emit (event_t.slog logmsg_t.init_failed)) mr
      (mstate_ok_emit s2 _ hpost.1.1) hmr hmr2.1 hemb.1
  have hedges := ((mstate_ok_iff s2).mp hpost.1.1).1
  refine ⟨s3, ?_, hemb.1, a1, ?_, a3, a6, a7, ?_⟩
  · rw [module_load]
    simp only [hcheck, hinit, load_finish, hmr, hfail, if_true, ne_eq, not_false_eq_true, hs3]
  · rw [a2, hmr2.2.2.1]
    simp [mstate.emit]
  · intro p r3 hp
    have hne : p ≠ s.brk := by
      intro heq
      rw [heq, a6] at hp
      cases hp
    rw [a7 p hne] at hp
    cases hr2 : s2.heap p with
    | none => simp [mstate.emit, hr2] at hp
    | some r2 =>
      simp only [mstate.emit, hr2, Option.map_some', Option.some.injEq] at hp
      subst hp
      constructor
      · intro hmem
        obtain ⟨rb, hrb, hin⟩ := (hedges p r2 hr2).2.2.1 s.brk hmem
        rw [hmr] at hrb
        cases hrb
        rw [hmr2.1] at hin
        cases hin
      · intro hmem
        exact ((List.Nodup.mem_erase_iff (hedges p r2 hr2).2.1).mp hmem).1 rfl

theorem res_inv_reached (r : res_t mstate)
    (h : res_inv (fun s1 => mstate_ok s1 ∧ s1.modtarget = none) r) (hr : r.is_ok = true) :
    mstate_ok r.reached := by
  cases r with
  | ok s => exact h.1
  | undefined s => cases hr
  | out_of_fuel s => cases hr

theorem demo_state_c_facts :
    (run_mod_ops demo_env 10 [mod_op.load "c.so".toList] mstate.init).is_ok = true ∧
      module_find demo_state_c "f.so".toList = none ∧
      demo_env.linker_open_ext "f.so".toList = some 6 ∧
      module_find_published demo_state_c "f".toList = none ∧
      demo_state_c.brk = 2 := by
  decide!

theorem demo_init_f_facts :
    demo_init_f.is_ok = true ∧
      (demo_init_f.reached.heap demo_state_c.brk).map (fun r => r.mflags) = some MODTYPE_FAIL := by
  decide!

theorem module_load_init_failed_witness :
    ∃ s2 s3, demo_init_f = res_t.ok s2 ∧
      module_load demo_env 2 "f.so".toList demo_state_c = res_t.ok (none, s3) ∧
      s3.modules = s2.modules ∧
      s3.trace = s2.trace ++ [event_t.slog logmsg_t.init_failed, event_t.linker_close 6,
        event_t.block_free demo_state_c.brk] := by
  obtain ⟨s2, hs2⟩ := res_t_exists_of_is_ok demo_init_f demo_init_f_facts.1
  have h2 := demo_init_f_facts.2
  rw [hs2] at h2
  simp only [res_t.reached] at h2
  cases hmr : s2.heap demo_state_c.brk with
  | none => simp [hmr] at h2
  | some mr =>
    simp only [hmr, Option.map_some', Option.some.injEq] at h2
    obtain ⟨s3, h3, _, h4, h5, _⟩ :=
      module_load_init_failed demo_env 0 "f.so".toList demo_state_c s2 6 demo_header_f mr
        (res_inv_reached _ (run_mod_ops_ok demo_env 10 _ mstate.init mstate_ok_init rfl)
          demo_state_c_facts.1)
        demo_state_c_facts.2.1 demo_state_c_facts.2.2.1 rfl rfl rfl rfl
        demo_state_c_facts.2.2.2.1 hs2 hmr (by rw [h2]; decide)
    exact ⟨s2, s3, hs2, h3, h4, h5⟩

/-! ### The edges `module_locate_symbol` adds -/

theorem add_dependency_new (m t : modptr) (s : mstate) (tr mr : module_t)
    (ht : s.modtarget = some t) (htr : s.heap t = some tr) (hmr : s.heap m = some mr)
    (hnew : m ∉ tr.deplist) :
    ∃ s1, add_dependency m s = res_t.ok s1 ∧
      (s1.heap m).map (fun r => r.handle) = some mr.handle ∧ s1.modules = s.modules ∧
      (s1.heap t).map (fun r => r.deplist) = some (tr.deplist ++ [m]) ∧
      (s1.heap m).map (fun r => r.dephost) = some (mr.dephost ++ [t]) ∧
      (∀ p, p ≠ t → (s1.heap p).map (fun r => r.deplist) = (s.heap p).map (fun r => r.deplist)) ∧
      ∀ p, p ≠ m → (s1.heap p).map (fun r => r.dephost) = (s.heap p).map (fun r => r.dephost) := by
  have hf : node_find m tr.deplist = none := (node_find_eq_none m tr.deplist).mpr hnew
  have h1 : add_dependency m s = res_t.ok
      (((s.emit (event_t.slog logmsg_t.dependency_added)).update t
          (fun r => { r with deplist := node_add m r.deplist })).update m
        (fun r => { r with dephost := node_add t r.dephost })) := by
    simp only [add_dependency, ht, htr, hf]
  refine ⟨_, h1, ?_, rfl, ?_, ?_, ?_, ?_⟩
  · by_cases hmt : m = t
    · subst hmt
      simp [mstate.update, mstate.emit, heap_update, hmr]
    · simp [mstate.update, mstate.emit, heap_update, hmr, hmt]
  · by_cases hmt : m = t
    · subst hmt
      rw [hmr] at htr
      cases htr
      simp [mstate.update, mstate.emit, heap_update, hmr, node_add]
    · simp [mstate.update, mstate.emit, heap_update, htr, node_add, Ne.symm hmt]
  · by_cases hmt : m = t
    · subst hmt
      simp [mstate.update, mstate.emit, heap_update, hmr, node_add]
    · simp [mstate.update, mstate.emit, heap_update, hmr, node_add, hmt]
  · intro p hp
    by_cases hpm : p = m
    · subst hpm
      simp [mstate.update, mstate.emit, heap_update, hp, hmr]
    · simp [mstate.update, mstate.emit, heap_update, hp, hpm]
  · intro p hp
    by_cases hpt : p = t
    · subst hpt
      simp [mstate.update, mstate.emit, heap_update, hp, htr]
    · simp [mstate.update, mstate.emit, heap_update, hp, hpt]

theorem add_dependency_same (m : modptr) (s : mstate)
    (h : s.modtarget = none ∨
      ∃ t tr, s.modtarget = some t ∧ s.heap t = some tr ∧ m ∈ tr.deplist) :
    add_dependency m s = res_t.ok s := by
  rcases h with h | ⟨t, tr, ht, htr, hmem⟩
  · simp only [add_dependency, h]
  · cases hf : node_find m tr.deplist with
    | none => exact absurd hmem ((node_find_eq_none m tr.deplist).mp hf)
    | some n => simp only [add_dependency, ht, htr, hf]

/-- C20: the function `module_locate_symbol(modname, sym)`.  If no registered
module has the published name `modname`, it logs that the module is not loaded
and returns `NULL` in the same state but for the log.  If `m` is the first
registered module with that name, `modtarget` is a module `t`, and `m` is not in
the `deplist` of `t`, then `m` is appended to the `deplist` of `t` and `t` to
the `dephost` of `m`, no other `deplist` and no other `dephost` changes, and the
result is what `linker_getsym` gives, found or not.  If `modtarget` is `NULL`
or `m` is in the `deplist` of `modtarget` already, no module changes.  In every
registry that a callback sees in a run of loader calls from the empty registry,
and in the registry after the run, no `deplist` and no `dephost` holds a module
twice. -/
theorem module_locate_symbol_edges (env : env_t) (modname sym : cstr) (s : mstate) :
    (module_find_published s modname = none →
      module_locate_symbol env modname sym s =
        res_t.ok (none, s.emit (event_t.slog logmsg_t.not_loaded)) ∧
      (s.emit (event_t.slog logmsg_t.not_loaded)).heap = s.heap) ∧
    (∀ m t tr mr, module_find_published s modname = some m → s.modtarget = some t →
      s.heap t = some tr → s.heap m = some mr → m ∉ tr.deplist →
      ∃ s1, module_locate_symbol env modname sym s =
          res_t.ok (env.linker_getsym mr.handle sym, s1) ∧
        s1.modules = s.modules ∧
        (s1.heap t).map (fun r => r.deplist) = some (tr.deplist ++ [m]) ∧
        (s1.heap m).map (fun r => r.dephost) = some (mr.dephost ++ [t]) ∧
        (∀ p, p ≠ t →
          (s1.heap p).map (fun r => r.deplist) = (s.heap p).map (fun r => r.deplist)) ∧
        ∀ p, p ≠ m →
          (s1.heap p).map (fun r => r.dephost) = (s.heap p).map (fun r => r.dephost)) ∧
    (∀ m mr, module_find_published s modname = some m → s.heap m = some mr →
      (s.modtarget = none ∨
        ∃ t tr, s.modtarget = some t ∧ s.heap t = some tr ∧ m ∈ tr.deplist) →
      ∃ s1, module_locate_symbol env modname sym s =
          res_t.ok (env.linker_getsym mr.handle sym, s1) ∧
        s1.modules = s.modules ∧ s1.heap = s.heap) ∧
    ∀ fuel ops,
      (∀ g ∈ (run_mod_ops env fuel ops mstate.init).reached.seen, ∀ p r, g.heap p = some r →
        r.deplist.Nodup ∧ r.dephost.Nodup) ∧
      ((run_mod_ops env fuel ops mstate.init).is_ok = true →
        ∀ p r, (run_mod_ops env fuel ops mstate.init).reached.heap p = some r →
          r.deplist.Nodup ∧ r.dephost.Nodup) := by
  refine ⟨?_, ?_, ?_, ?_⟩
  · intro hf
    exact ⟨by simp only [module_locate_symbol, hf], rfl⟩
  · intro m t tr mr hf ht htr hmr hnew
    obtain ⟨s1, h1, h2, h4, h5, h6, h7, h8⟩ := add_dependency_new m t s tr mr ht htr hmr hnew
    cases hm1 : s1.heap m with
    | none => simp [hm1] at h2
    | some mr1 =>
      simp only [hm1, Option.map_some', Option.some.injEq] at h2
      cases hg : env.linker_getsym mr.handle sym with
      | none =>
        refine ⟨s1.emit (event_t.slog logmsg_t.symbol_not_found), ?_, h4, h5, ?_, h7, h8⟩
        · simp only [module_locate_symbol, hf, h1, hm1, h2, hg]
        · exact h6
      | some symptr =>
        refine ⟨s1, ?_, h4, h5, h6, h7, h8⟩
        simp only [module_locate_symbol, hf, h1, hm1, h2, hg]
  · intro m mr hf hmr hsame
    have h1 := add_dependency_same m s hsame
    cases hg : env.linker_getsym mr.handle sym with
    | none =>
      refine ⟨s.emit (event_t.slog logmsg_t.symbol_not_found), ?_, rfl, rfl⟩
      simp only [module_locate_symbol, hf, h1, hmr, hg]
    | some symptr =>
      refine ⟨s, ?_, rfl, rfl⟩
      simp only [module_locate_symbol, hf, h1, hmr, hg]
  · intro fuel ops
    have hinv := run_mod_ops_ok env fuel ops mstate.init mstate_ok_init rfl
    constructor
    · intro g hg p r hp
      have hseen : seen_ok (run_mod_ops env fuel ops mstate.init).reached := by
        cases hr : run_mod_ops env fuel ops mstate.init with
        | ok s1 => rw [hr] at hinv; exact mstate_ok_seen s1 hinv.1
        | undefined s1 => rw [hr] at hinv; exact hinv
        | out_of_fuel s1 => rw [hr] at hinv; exact hinv
      have := (hseen g hg).1 p r hp
      exact ⟨this.1, this.2.1⟩
    · intro hok p r hp
      have := ((mstate_ok_iff _).mp (res_inv_reached _ hinv hok)).1 p r hp
      exact ⟨this.1, this.2.1⟩

theorem demo_alloc_b_facts :
    module_find_published demo_alloc_b "c".toList = some 1 ∧ demo_alloc_b.modtarget = some 2 ∧
      (demo_alloc_b.heap 2).map (fun r => r.deplist) = some [] ∧
      (demo_alloc_b.heap 1).map (fun r => r.dephost) = some [] := by
  decide!

theorem module_locate_symbol_edges_witness :
    ∃ s1, module_locate_symbol demo_env "c".toList "sym".toList demo_alloc_b =
        res_t.ok (some 1, s1) ∧
      (s1.heap 2).map (fun r => r.deplist) = some [1] ∧
      (s1.heap 1).map (fun r => r.dephost) = some [2] := by
  have hf := demo_alloc_b_facts
  cases htr : demo_alloc_b.heap 2 with
  | none => rw [htr] at hf; simp at hf
  | some tr =>
    cases hmr : demo_alloc_b.heap 1 with
    | none => rw [hmr] at hf; simp at hf
    | some mr =>
      rw [htr, hmr] at hf
      simp only [Option.map_some', Option.some.injEq] at hf
      obtain ⟨s1, h1, _, h3, h4, _⟩ :=
        (module_locate_symbol_edges demo_env "c".toList "sym".toList demo_alloc_b).2.1 1 2 tr mr
          hf.1 hf.2.1 htr hmr (by rw [hf.2.2.1]; simp)
      refine ⟨s1, h1, ?_, ?_⟩
      · rw [h3, hf.2.2.1]; rfl
      · rw [h4, hf.2.2.2]; rfl

/-! ### Directory scans -/

/-- C21: `module_load_dir_match` calls `module_load` for exactly the entries
whose name contains `.so` anywhere or for which `match(pattern, name)` returns
zero, in the order read, whatever the loads return: a name with `.so` in it is
loaded without regard to the pattern.  In the directory `mods` and with a mask
that no entry matches, the scan opens `e.so`, which is rejected, then
`c.so.old`, which cannot be opened, then `c.so`, which is registered. -/
theorem module_load_dir_match_attempts :
    (∀ (env : env_t) (match_mask : cstr → cstr → Int) (fuel : Nat) (dirspec pattern : cstr)
        (entries : List cstr) (s : mstate),
      module_load_dir_match_loop env match_mask fuel dirspec pattern entries s =
        load_each env fuel dirspec
          (entries.filter (fun d =>
            (strstr d ".so".toList).isSome || decide (match_mask pattern d = 0))) s) ∧
    dir_run.is_ok = true ∧ dir_run.reached.modules = [1] ∧
    dir_run.reached.trace =
      [event_t.linker_open_ext "mods/e.so".toList, event_t.slog logmsg_t.incompatible_module,
        event_t.linker_close 5, event_t.linker_open_ext "mods/c.so.old".toList,
        event_t.slog logmsg_t.open_error, event_t.linker_open_ext "mods/c.so".toList,
        event_t.modinit 1, event_t.slog logmsg_t.loaded] := by
  refine ⟨?_, by decide!, by decide!, by decide!⟩
  intro env match_mask fuel dirspec pattern entries
  induction entries with
  | nil => intro s; rfl
  | cons d rest ih =>
    intro s
    rw [module_load_dir_match_loop]
    have hcond : ((strstr d ".so".toList).isNone && decide (match_mask pattern d ≠ 0)) =
        !((strstr d ".so".toList).isSome || decide (match_mask pattern d = 0)) := by
      cases strstr d ".so".toList <;> by_cases h : match_mask pattern d = 0 <;> simp [h]
    rw [hcond]
    by_cases hp : ((strstr d ".so".toList).isSome || decide (match_mask pattern d = 0)) = true
    · simp only [List.filter_cons, hp, if_true, load_each, Bool.not_true, Bool.false_eq_true,
        if_false]
      cases hl : module_load env fuel (module_filename dirspec d) s with
      | ok p => simp only [ih]
      | undefined su => rfl
      | out_of_fuel su => rfl
    · simp only [Bool.not_eq_true] at hp
      simp only [List.filter_cons, hp, Bool.not_false, if_true, Bool.false_eq_true, if_false]
      exact ih s

/-! ### Lookups after a nested load -/

/-- C22: in the demo world `module_load("g.so")` on the empty registry
completes with `c` (block 2, loaded from the init callback of `g`) and `g`
(block 1) registered.  The lookup of a symbol of `c` that the init callback of
`g` makes after the nested load has returned is answered, but `modtarget` is
`NULL` by then: no dependency is logged, the `deplist` of `g` and the `dephost`
of `c` are empty.  A later unload of `c` therefore leaves `g` registered. -/
theorem module_load_nested_lookup_no_edge :
    demo_run_g.is_ok = true ∧ demo_run_g.reached.modules = [2, 1] ∧
      (demo_run_g.reached.heap 1).map (fun r => r.header.name) = some "g".toList ∧
      (demo_run_g.reached.heap 2).map (fun r => r.header.name) = some "c".toList ∧
      (demo_run_g.reached.heap 1).map (fun r => r.deplist) = some [] ∧
      (demo_run_g.reached.heap 2).map (fun r => r.dephost) = some [] ∧
      demo_run_g.reached.trace =
        [event_t.linker_open_ext "g.so".toList, event_t.modinit 1,
          event_t.linker_open_ext "c.so".toList, event_t.modinit 2,
          event_t.slog logmsg_t.loaded, event_t.slog logmsg_t.loaded] ∧
      demo_run_g_unload_c.is_ok = true ∧ demo_run_g_unload_c.reached.modules = [1] := by
  decide!

/-! ### The revisit of a module in a cascade -/

theorem module_unload_add (fuel : Nat) (m : Option modptr) (s : mstate)
    (h : (module_unload fuel m s).is_out_of_fuel = false) (k : Nat) :
    module_unload (fuel + k) m s = module_unload fuel m s := by
  induction k with
  | zero => rfl
  | succ k ih =>
    rw [← Nat.add_assoc, (module_unload_succ (fuel + k)).1 m s (by rw [ih]; exact h), ih]

theorem demo_diamond_unload_facts :
    (module_unload 10 (some 1) demo_diamond_state).is_undefined = true ∧
    ((module_unload 10 (some 1) demo_diamond_state).reached.heap 3).isNone = true ∧
    ((module_unload 10 (some 1) demo_diamond_state).reached.heap 2).isNone = true ∧
    ((module_unload 10 (some 1) demo_diamond_state).reached.heap 1).map (fun r => r.dephost) =
      some [] ∧
    (module_unload 10 (some 1) demo_diamond_state).reached.trace.drop
        demo_diamond_state.trace.length =
      [event_t.slog logmsg_t.unloaded, event_t.deinit 3 14, event_t.linker_close 4,
        event_t.block_free 3, event_t.slog logmsg_t.unloaded, event_t.deinit 2 12,
        event_t.linker_close 2, event_t.block_free 2] ∧
    (demo_diamond_state.heap 1).map (fun r => (r.dephost, node_next 2 r.dephost)) =
      some ([2, 3], some 3) := by
  decide!

/-- C23 fails on the code, by the defect of C2.  In the demo world after the
loads of `c`, `b`, `d` (`d` requires `b` and `c`, `b` requires `c`), the call
`module_unload(c)` reads freed memory, whatever the bound on nested calls: the
loop over the `dephost` of `c` (`b`, then `d`) has saved the node of `d` as its
next node; the unload of `b` cascades to `d`, whose unload unlinks and frees
that node and then `d` itself.  When the loop comes back, `d` and `b` are freed
(each after one deinit, one `linker_close` and one `BlockHeapFree`), the
`dephost` of `c` is empty, and the loop reads the freed node to revisit `d`:
this is no no-op, and `c` is not torn down.  Only the unload of `NULL`, which
is what a lookup of an absent module gives, changes nothing. -/
theorem module_unload_revisit_reads_freed (fuel : Nat) :
    (module_unload (10 + fuel) (some 1) demo_diamond_state).is_undefined = true ∧
    ((module_unload (10 + fuel) (some 1) demo_diamond_state).reached.heap 3).isNone = true ∧
    ((module_unload (10 + fuel) (some 1) demo_diamond_state).reached.heap 2).isNone = true ∧
    ((module_unload (10 + fuel) (some 1) demo_diamond_state).reached.heap 1).map
      (fun r => r.dephost) = some [] ∧
    (module_unload (10 + fuel) (some 1) demo_diamond_state).reached.trace.drop
        demo_diamond_state.trace.length =
      [event_t.slog logmsg_t.unloaded, event_t.deinit 3 14, event_t.linker_close 4,
        event_t.block_free 3, event_t.slog logmsg_t.unloaded, event_t.deinit 2 12,
        event_t.linker_close 2, event_t.block_free 2] ∧
    (demo_diamond_state.heap 1).map (fun r => (r.dephost, node_next 2 r.dephost)) =
      some ([2, 3], some 3) ∧
    ∀ s : mstate, module_unload fuel none s = res_t.ok s := by
  rw [module_unload_add 10 (some 1) demo_diamond_state
    (res_t_is_undefined_not_out_of_fuel _ demo_diamond_unload_facts.1) fuel]
  refine ⟨demo_diamond_unload_facts.1, demo_diamond_unload_facts.2.1,
    demo_diamond_unload_facts.2.2.1, demo_diamond_unload_facts.2.2.2.1,
    demo_diamond_unload_facts.2.2.2.2.1, demo_diamond_unload_facts.2.2.2.2.2, ?_⟩
  intro s
  cases fuel <;> rfl

/-! ## The AJOIN command -/

/-- C27 fails on the code.  With the stored list `#a,#b`, `AJOIN DEL #b`
deletes the whole metadata entry, so `#a` is lost too, and reports success:
the branch for the last item of the list deletes the entry instead of cutting
the value.  With the stored list `#foobar,#baz`, `AJOIN DEL #foo`, a channel
that is no entry of the list, leaves `ar,#baz` and reports success: the scan
looks for the argument anywhere in the value, not for an entry.  An entry that
another entry follows is removed as the claim says: `AJOIN DEL #b` turns
`#a,#b,#c` into `#a,#c`, and `AJOIN DEL #A` turns `#a,#b` into `#b`. -/
theorem ns_cmd_ajoin_del_examples :
    ns_cmd_ajoin (some (some "#a,#b".toList)) (ajoin_del_parv "#b".toList) =
        (some none, [ajoin_msg_t.removed "#b".toList]) ∧
      ns_cmd_ajoin (some (some "#foobar,#baz".toList)) (ajoin_del_parv "#foo".toList) =
        (some (some "ar,#baz".toList), [ajoin_msg_t.removed "#foo".toList]) ∧
      ns_cmd_ajoin (some (some "#a,#b,#c".toList)) (ajoin_del_parv "#b".toList) =
        (some (some "#a,#c".toList), [ajoin_msg_t.removed "#b".toList]) ∧
      ns_cmd_ajoin (some (some "#a,#b".toList)) (ajoin_del_parv "#A".toList) =
        (some (some "#b".toList), [ajoin_msg_t.removed "#A".toList]) := by
  decide

/-! ## The order of the dependency graph -/

theorem indexOf_erase_lt (m a b : Nat) :
    ∀ (l : List Nat), m ≠ a → m ≠ b → l.indexOf b < l.indexOf a →
      (l.erase m).indexOf b < (l.erase m).indexOf a := by
  intro l
  induction l with
  | nil => intro _ _ h; simp at h
  | cons x l ih =>
    intro hma hmb h
    by_cases hxm : x = m
    · subst hxm
      rw [List.erase_cons_head]
      rw [List.indexOf_cons_ne _ hma, List.indexOf_cons_ne _ hmb] at h
      exact Nat.lt_of_succ_lt_succ h
    · rw [List.erase_cons_tail (by simpa using hxm)]
      by_cases hxb : x = b
      · have hxa : x ≠ a := by
          intro hxa
          rw [List.indexOf_cons_eq _ hxb, List.indexOf_cons_eq _ hxa] at h
          exact Nat.lt_irrefl _ h
        rw [List.indexOf_cons_eq _ hxb, List.indexOf_cons_ne _ hxa]
        exact Nat.succ_pos _
      · by_cases hxa : x = a
        · rw [List.indexOf_cons_eq _ hxa] at h
          exact absurd h (Nat.not_lt_zero _)
        · rw [List.indexOf_cons_ne _ hxb, List.indexOf_cons_ne _ hxa] at h ⊢
          exact Nat.succ_lt_succ (ih hma hmb (Nat.lt_of_succ_lt_succ h))

theorem indexOf_append_lt (m a b : Nat) (l : List Nat) (h : l.indexOf b < l.indexOf a) :
    (l ++ [m]).indexOf b < (l ++ [m]).indexOf a := by
  have hb : b ∈ l := List.indexOf_lt_length.mp (Nat.lt_of_lt_of_le h List.indexOf_le_length)
  rw [List.indexOf_append_of_mem hb]
  by_cases ha : a ∈ l
  · rw [List.indexOf_append_of_mem ha]; exact h
  · rw [List.indexOf_append_of_not_mem ha]
    exact Nat.lt_of_lt_of_le (List.indexOf_lt_length.mpr hb) (Nat.le_add_right _ _)

theorem res_ord_mono {α : Type} (post post2 : α → Prop) (r : res_t α)
    (hpost : ∀ a, post a → post2 a) (h : res_ord post r) : res_ord post2 r := by
  cases r with
  | ok a => exact hpost a h
  | undefined s => exact h
  | out_of_fuel s => exact h

theorem mstate_ord_emit (s : mstate) (e : event_t) (h : mstate_ord s) : mstate_ord (s.emit e) := h

theorem mstate_ord_observe (s : mstate) (h : mstate_ord s) : mstate_ord s.observe := by
  refine ⟨h.1, h.2.1, ?_⟩
  intro g hg
  simp only [mstate.observe, List.mem_append, List.mem_singleton] at hg
  rcases hg with hg | hg
  · exact h.2.2 g hg
  · subst hg; exact h.1

/-- Edges in order stay in order when lists only lose entries and `modules` is
the same. -/
theorem order_ok_heap_le (modules : List modptr) (t0 t1 : Option modptr)
    (heap0 heap1 : modptr → Option module_t) (hle : heap_le heap1 heap0)
    (h : order_ok { modules := modules, modtarget := t0, heap := heap0 }) :
    order_ok { modules := modules, modtarget := t1, heap := heap1 } := by
  intro a ra ha b hb
  obtain ⟨r0, hr0, hsub, _⟩ := hle a ra ha
  exact h a r0 hr0 b (hsub.subset hb)

theorem unload_after_hosts_ord (m : modptr) (s : mstate) (mr : module_t) (hok : mstate_ok s)
    (hmr : s.heap m = some mr) (hdh : mr.dephost = []) (htar : s.modtarget = none)
    (hord : mstate_ord s) :
    res_ord (fun s1 => mstate_ord s1) (unload_after_hosts m s) := by
  obtain ⟨s1, hs1, a1, _, a3, _, a5, a6, _⟩ :=
    unload_deplist_frame m mr.deplist s mr hok hmr rfl hdh
  have hpost := res_inv_ok _ _ s1 (unload_deplist_ok m mr.deplist s mr hok hmr rfl hdh) hs1
  have hord1 : mstate_ord s1 := by
    refine ⟨?_, ?_, ?_⟩
    · have := order_ok_heap_le s.modules s.modtarget s1.modtarget s.heap s1.heap hpost.2.1 hord.1
      simp only [mstate.view, a1]
      exact this
    · intro t ht
      rw [a5, htar] at ht; cases ht
    · intro g hg
      rw [a3] at hg
      exact hord.2.2 g hg
  unfold unload_after_hosts
  simp only [hmr, hs1]
  cases hf : unload_finish m s1 with
  | undefined su => exact absurd hf (by simp [unload_finish, a6])
  | out_of_fuel su => exact absurd hf (by simp [unload_finish, a6])
  | ok s2 =>
    obtain ⟨f1, f2, f3, _, f5⟩ := unload_finish_fields m s1 s2 hf
    have hedges := ((mstate_ok_iff s1).mp hpost.1).1
    refine ⟨?_, ?_, ?_⟩
    · intro a ra ha b hb
      simp only [mstate.view, f1, f2] at ha ⊢
      have ham : a ≠ m := by
        intro heq
        simp [heap_free, heq] at ha
      simp only [heap_free, ham, if_false] at ha
      have hbm : b ≠ m := by
        intro heq
        obtain ⟨rb, hrb, hin⟩ := (hedges a ra ha).2.2.1 b hb
        rw [heq, a6] at hrb
        cases hrb
        simp [hdh] at hin
      exact indexOf_erase_lt m a b s1.modules (Ne.symm ham) (Ne.symm hbm) (hord1.1 a ra ha b hb)
    · intro t ht
      rw [f3, a5, htar] at ht; cases ht
    · intro g hg
      rcases f5 with f5 | f5
      · rw [f5] at hg; exact hord1.2.2 g hg
      · rw [f5] at hg
        simp only [List.mem_append, List.mem_singleton] at hg
        rcases hg with hg | hg
        · exact hord1.2.2 g hg
        · subst hg; exact hord1.1

/-- The unload cascade keeps the edges in order: `module_unload` and its first
loop, by induction on the depth of the nested calls. -/
theorem module_unload_ord (fuel : Nat) :
    (∀ (m : modptr) (s : mstate), mstate_ok s → s.modtarget = none → mstate_ord s →
      res_ord (fun s1 => mstate_ord s1) (module_unload fuel (some m) s)) ∧
    (∀ (m n : modptr) (s : mstate) (mr : module_t) (rest : List modptr), mstate_ok s →
      s.modtarget = none → s.heap m = some mr → mr.dephost = n :: rest → mstate_ord s →
      res_ord (fun s1 => mstate_ord s1) (unload_dephost fuel m n s)) := by
  induction fuel with
  | zero =>
    constructor
    · intro m s _ _ hord
      exact hord.2.2
    · intro m n s mr rest _ _ _ _ hord
      exact hord.2.2
  | succ fuel ih =>
    obtain ⟨ih1, ih2⟩ := ih
    constructor
    · intro m s hok htar hord
      rw [module_unload]
      cases hmr : s.heap m with
      | none => exact hord.2.2
      | some mr =>
        simp only []
        cases hdh : mr.dephost with
        | nil => exact unload_after_hosts_ord m s mr hok hmr hdh htar hord
        | cons n rest =>
          simp only []
          have hl0 := ih2 m n s mr rest hok htar hmr hdh hord
          have hk0 := (module_unload_ok fuel).2 m n s mr rest hok htar hmr hdh
          cases hl : unload_dephost fuel m n s with
          | undefined su => rw [hl] at hl0; exact hl0
          | out_of_fuel su => rw [hl] at hl0; exact hl0
          | ok s2 =>
            rw [hl] at hl0 hk0
            obtain ⟨a1, a2⟩ := hk0
            simp only []
            cases hmr2 : s2.heap m with
            | none =>
              simp only [unload_after_hosts, hmr2]
              exact hl0.2.2
            | some mr2 =>
              exact unload_after_hosts_ord m s2 mr2 a1.1 hmr2 (a2 mr2 hmr2) a1.2.2.1 hl0
    · intro m n s mr rest hok htar hmr hdh hord
      rw [unload_dephost]
      simp only [hmr]
      have hu0 := ih1 n s hok htar hord
      have hk0 := (module_unload_ok fuel).1 n s hok htar
      cases hu : module_unload fuel (some n) s with
      | undefined su => rw [hu] at hu0; exact hu0
      | out_of_fuel su => rw [hu] at hu0; exact hu0
      | ok s2 =>
        rw [hu] at hu0 hk0
        obtain ⟨a1, a2⟩ := hk0
        simp only []
        have hnd : (n :: rest).Nodup := hdh ▸ (((mstate_ok_iff s).mp hok).1 m mr hmr).2.1
        have hnext : node_next n mr.dephost = rest.head? := by
          rw [hdh]; simp [node_next]
        rw [hnext]
        cases hrest : rest with
        | nil =>
          simp only [List.head?_nil]
          exact hu0
        | cons tn rest2 =>
          simp only [List.head?_cons]
          cases hmr2 : s2.heap m with
          | none => exact hu0.2.2
          | some mr2 =>
            simp only []
            cases hf : node_find tn mr2.dephost with
            | none => exact hu0.2.2
            | some k =>
              simp only []
              obtain ⟨r0, hr0, _, hsub⟩ := a1.2.1 m mr2 hmr2
              rw [hmr] at hr0; cases hr0
              rw [hdh, hrest] at hsub
              have hnot := not_mem_dephost_of_freed s2 a1.1 m n mr2 hmr2 a2
              have hsub2 := sublist_cons_of_not_mem n mr2.dephost _ hsub hnot
              rw [hrest] at hnd
              have htn : tn ∉ rest2 := (List.nodup_cons.mp (List.nodup_cons.mp hnd).2).1
              obtain ⟨l1, hl1⟩ := sublist_cons_head tn mr2.dephost rest2 hsub2
                (node_find_some_mem tn mr2.dephost k hf) htn
              exact ih2 m tn s2 mr2 l1 a1.1 a1.2.2.1 hmr2 hl1 hu0

/-- Edges in order stay in order when every `deplist` is the same and `modules`
is the same. -/
theorem order_ok_same_deplist (modules : List modptr) (t0 t1 : Option modptr)
    (heap0 heap1 : modptr → Option module_t)
    (hsame : ∀ a ra, heap1 a = some ra → ∃ r0, heap0 a = some r0 ∧ ra.deplist = r0.deplist)
    (h : order_ok { modules := modules, modtarget := t0, heap := heap0 }) :
    order_ok { modules := modules, modtarget := t1, heap := heap1 } := by
  intro a ra ha b hb
  obtain ⟨r0, hr0, heq⟩ := hsame a ra ha
  exact h a r0 hr0 b (heq ▸ hb)

theorem add_dependency_ord (m : modptr) (s : mstate) (hm : m ∈ s.modules) (hord : mstate_ord s) :
    res_ord (fun s1 => mstate_ord s1) (add_dependency m s) := by
  unfold add_dependency
  cases ht : s.modtarget with
  | none => exact hord
  | some t =>
    simp only []
    cases htr : s.heap t with
    | none => exact hord.2.2
    | some tr =>
      simp only []
      cases hf : node_find m tr.deplist with
      | some k => exact hord
      | none =>
        have htm : t ∉ s.modules := hord.2.1 t ht
        have hne : m ≠ t := fun heq => htm (heq ▸ hm)
        refine ⟨?_, ?_, hord.2.2⟩
        · intro a ra ha b hb
          simp only [mstate.view, mstate.update, mstate.emit, heap_update] at ha ⊢
          by_cases hat : a = t
          · subst hat
            simp only [Ne.symm hne, if_false, if_true, htr, Option.map_some',
              Option.some.injEq] at ha
            subst ha
            simp only [node_add, List.mem_append, List.mem_singleton] at hb
            rcases hb with hb | hb
            · exact hord.1 a tr htr b hb
            · subst hb
              rw [List.indexOf_eq_length.mpr htm]
              exact List.indexOf_lt_length.mpr hm
          · by_cases ham : a = m
            · subst ham
              simp only [if_true, hat, if_false] at ha
              cases hr0 : s.heap a with
              | none => simp [hr0] at ha
              | some r0 =>
                simp only [hr0, Option.map_some', Option.some.injEq] at ha
                subst ha
                exact hord.1 a r0 hr0 b hb
            · simp only [ham, hat, if_false] at ha
              exact hord.1 a ra ha b hb
        · intro t1 ht1
          exact hord.2.1 t1 ht1

theorem module_locate_symbol_ord (env : env_t) (modname sym : cstr) (s : mstate)
    (hord : mstate_ord s) :
    res_ord (fun p => mstate_ord p.2) (module_locate_symbol env modname sym s) := by
  unfold module_locate_symbol
  cases hf : module_find_published s modname with
  | none => exact hord
  | some m =>
    simp only []
    have h0 := add_dependency_ord m s (module_find_published_mem s modname m hf) hord
    cases ha : add_dependency m s with
    | undefined su => rw [ha] at h0; exact h0
    | out_of_fuel su => rw [ha] at h0; exact h0
    | ok s1 =>
      rw [ha] at h0
      simp only []
      cases hm : s1.heap m with
      | none => exact h0.2.2
      | some mr =>
        simp only []
        cases hg : env.linker_getsym mr.handle sym with
        | none => exact h0
        | some symptr => exact h0

theorem module_request_with_ord (env : env_t)
    (load : cstr → mstate → res_t (Option modptr × mstate))
    (hord : ∀ filespec s, mstate_ok s → mstate_ord s →
      res_ord (fun p => mstate_ord p.2) (load filespec s))
    (name : cstr) (s : mstate) (hok : mstate_ok s) (hs : mstate_ord s) :
    res_ord (fun p => mstate_ord p.2) (module_request_with env load name s) := by
  unfold module_request_with
  cases hf : module_find_published s name with
  | some m => exact hs
  | none =>
    simp only []
    have h0 := hord (module_request_path env name) s hok hs
    cases hl : load (module_request_path env name) s with
    | undefined su => rw [hl] at h0; exact h0
    | out_of_fuel su => rw [hl] at h0; exact h0
    | ok q =>
      rw [hl] at h0
      obtain ⟨r, s1⟩ := q
      cases r with
      | none => exact h0
      | some x => exact h0

theorem run_modinit_ord (env : env_t) (load : cstr → mstate → res_t (Option modptr × mstate))
    (hload : ∀ filespec s, mstate_ok s → res_inv (fun p => load_post s p.2) (load filespec s))
    (hord : ∀ filespec s, mstate_ok s → mstate_ord s →
      res_ord (fun p => mstate_ord p.2) (load filespec s))
    (m : modptr) (init : modinit_t) :
    ∀ (s : mstate), mstate_ok s → mstate_ord s →
      res_ord (fun s1 => mstate_ord s1) (run_modinit env load m init s) := by
  induction init with
  | done =>
    intro s _ hs
    exact hs
  | set_mflags v k ih =>
    intro s hok hs
    rw [run_modinit]
    cases hm : s.heap m with
    | none => exact hs.2.2
    | some mr =>
      simp only []
      have hpost := run_modinit_ok env load hload m (modinit_t.set_mflags v modinit_t.done) s hok
      simp only [run_modinit, hm] at hpost
      refine ih _ hpost.1 ⟨?_, hs.2.1, hs.2.2⟩
      refine order_ok_same_deplist s.modules s.modtarget s.modtarget s.heap _ ?_ hs.1
      intro a ra ha
      simp only [mstate.update, heap_update] at ha
      by_cases ham : a = m
      · rw [if_pos ham, ham, hm] at ha
        simp only [Option.map_some', Option.some.injEq] at ha
        subst ha
        exact ⟨mr, ham ▸ hm, rfl⟩
      · rw [if_neg ham] at ha
        exact ⟨ra, ha, rfl⟩
  | locate_symbol modname sym k ih =>
    intro s hok hs
    rw [run_modinit]
    have h0 := module_locate_symbol_ord env modname sym s hs
    have hk0 := module_locate_symbol_ok env modname sym s hok
    cases hl : module_locate_symbol env modname sym s with
    | undefined su => rw [hl] at h0; exact h0
    | out_of_fuel su => rw [hl] at h0; exact h0
    | ok p =>
      rw [hl] at h0 hk0
      exact ih p.1 _ (mstate_ok_observe _ hk0.1.1) (mstate_ord_observe _ h0)
  | load filespec k ih =>
    intro s hok hs
    rw [run_modinit]
    have h0 := hord filespec s hok hs
    have hk0 := hload filespec s hok
    cases hl : load filespec s with
    | undefined su => rw [hl] at h0; exact h0
    | out_of_fuel su => rw [hl] at h0; exact h0
    | ok p =>
      rw [hl] at h0 hk0
      exact ih p.1 _ (mstate_ok_observe _ hk0.1) (mstate_ord_observe _ h0)
  | request name k ih =>
    intro s hok hs
    rw [run_modinit]
    have h0 := module_request_with_ord env load hord name s hok hs
    have hk0 := module_request_with_ok env load hload name s hok
    cases hl : module_request_with env load name s with
    | undefined su => rw [hl] at h0; exact h0
    | out_of_fuel su => rw [hl] at h0; exact h0
    | ok p =>
      rw [hl] at h0 hk0
      exact ih p.1 _ (mstate_ok_observe _ hk0.1) (mstate_ord_observe _ h0)

theorem load_alloc_ord (env : env_t) (filespec : cstr) (handle : Nat) (hd : v2_moduleheader_t)
    (s : mstate) (hok : mstate_ok s) (hs : mstate_ord s) :
    mstate_ord (load_alloc env filespec handle hd s) := by
  refine ⟨?_, ?_, hs.2.2⟩
  · intro a ra ha b hb
    simp only [mstate.view, load_alloc, heap_alloc] at ha ⊢
    by_cases hab : a = s.brk
    · rw [if_pos hab] at ha
      simp only [Option.some.injEq] at ha
      subst ha
      cases hb
    · rw [if_neg hab] at ha
      exact hs.1 a ra ha b hb
  · intro t ht
    simp only [load_alloc, Option.some.injEq] at ht
    subst ht
    exact not_registered_of_fresh s hok s.brk (Nat.le_refl _)

theorem load_init_ord (env : env_t) (load : cstr → mstate → res_t (Option modptr × mstate))
    (hload : ∀ filespec s, mstate_ok s → res_inv (fun p => load_post s p.2) (load filespec s))
    (hord : ∀ filespec s, mstate_ok s → mstate_ord s →
      res_ord (fun p => mstate_ord p.2) (load filespec s))
    (m : modptr) (hd : v2_moduleheader_t) (s : mstate) (hok : mstate_ok s) (hs : mstate_ord s) :
    res_ord (fun s1 => mstate_ord s1) (load_init env load m hd s) := by
  unfold load_init
  cases hi : hd.modinit with
  | none =>
    refine ⟨hs.1, ?_, hs.2.2⟩
    intro t ht; cases ht
  | some init =>
    simp only []
    have h0 := run_modinit_ord env load hload hord m init _
      (mstate_ok_emit _ (event_t.modinit m) (mstate_ok_observe _ hok))
      (mstate_ord_emit _ (event_t.modinit m) (mstate_ord_observe _ hs))
    cases hr : run_modinit env load m init ((s.observe).emit (event_t.modinit m)) with
    | undefined su => rw [hr] at h0; exact h0
    | out_of_fuel su => rw [hr] at h0; exact h0
    | ok s1 =>
      rw [hr] at h0
      refine ⟨h0.1, ?_, h0.2.2⟩
      intro t ht; cases ht

theorem load_finish_ord (fuel : Nat) (m : modptr) (s : mstate) (hok : mstate_ok s)
    (htar : s.modtarget = none) (hs : mstate_ord s) :
    res_ord (fun p => mstate_ord p.2) (load_finish fuel m s) := by
  unfold load_finish
  cases hm : s.heap m with
  | none => exact hs.2.2
  | some mr =>
    simp only []
    split
    · have h0 := (module_unload_ord fuel).1 m (s.emit (event_t.slog logmsg_t.init_failed))
        (mstate_ok_emit s _ hok) htar (mstate_ord_emit s _ hs)
      cases hu : module_unload fuel (some m) (s.emit (event_t.slog logmsg_t.init_failed)) with
      | undefined su => rw [hu] at h0; exact h0
      | out_of_fuel su => rw [hu] at h0; exact h0
      | ok s1 => rw [hu] at h0; exact h0
    · refine ⟨?_, ?_, hs.2.2⟩
      · intro a ra ha b hb
        exact indexOf_append_lt m a b s.modules (hs.1 a ra ha b hb)
      · intro t ht
        simp only [mstate.emit, htar] at ht
        cases ht

theorem module_load_ord (env : env_t) (fuel : Nat) :
    ∀ (filespec : cstr) (s : mstate), mstate_ok s → mstate_ord s →
      res_ord (fun p => mstate_ord p.2) (module_load env fuel filespec s) := by
  induction fuel with
  | zero =>
    intro filespec s _ hs
    exact hs.2.2
  | succ n ih =>
    intro filespec s hok hs
    rw [module_load]
    cases hc : load_precheck env s filespec with
    | error evs => exact hs
    | ok hh =>
      obtain ⟨handle, hd⟩ := hh
      simp only []
      have hoka := (load_alloc_ok env filespec handle hd s hok).1
      have h0 := load_init_ord env (module_load env n) (module_load_ok env n) ih s.brk hd _ hoka
        (load_alloc_ord env filespec handle hd s hok hs)
      have hk0 := load_init_ok env (module_load env n) (module_load_ok env n) s.brk hd _ hoka
      cases hi : load_init env (module_load env n) s.brk hd
          (load_alloc env filespec handle hd s) with
      | undefined su => rw [hi] at h0; exact h0
      | out_of_fuel su => rw [hi] at h0; exact h0
      | ok s2 =>
        rw [hi] at h0 hk0
        exact load_finish_ord n s.brk s2 hk0.1.1 hk0.2 h0

theorem apply_mod_op_ord (env : env_t) (fuel : Nat) (op : mod_op) (s : mstate)
    (hok : mstate_ok s) (htar : s.modtarget = none) (hs : mstate_ord s) :
    res_ord (fun s1 => mstate_ord s1) (apply_mod_op env fuel op s) := by
  cases op with
  | load filespec =>
    simp only [apply_mod_op]
    have h0 := module_load_ord env fuel filespec s hok hs
    cases hl : module_load env fuel filespec s with
    | undefined su => rw [hl] at h0; exact h0
    | out_of_fuel su => rw [hl] at h0; exact h0
    | ok p => rw [hl] at h0; exact h0
  | request name =>
    simp only [apply_mod_op, module_request]
    have h0 := module_request_with_ord env _ (module_load_ord env fuel) name s hok hs
    cases hl : module_request_with env (module_load env fuel) name s with
    | undefined su => rw [hl] at h0; exact h0
    | out_of_fuel su => rw [hl] at h0; exact h0
    | ok p => rw [hl] at h0; exact h0
  | locate_symbol modname sym =>
    simp only [apply_mod_op]
    have h0 := module_locate_symbol_ord env modname sym s hs
    cases hl : module_locate_symbol env modname sym s with
    | undefined su => rw [hl] at h0; exact h0
    | out_of_fuel su => rw [hl] at h0; exact h0
    | ok p => rw [hl] at h0; exact h0
  | unload name =>
    simp only [apply_mod_op]
    cases hf : module_find_published s name with
    | none => cases fuel <;> exact hs
    | some m => exact (module_unload_ord fuel).1 m s hok htar hs

theorem run_mod_ops_ord (env : env_t) (fuel : Nat) (ops : List mod_op) :
    ∀ (s : mstate), mstate_ok s → s.modtarget = none → mstate_ord s →
      res_ord (fun s1 => mstate_ord s1) (run_mod_ops env fuel ops s) := by
  induction ops with
  | nil =>
    intro s _ _ hs
    exact hs
  | cons op ops ih =>
    intro s hok htar hs
    rw [run_mod_ops]
    have h0 := apply_mod_op_ord env fuel op s hok htar hs
    have hk0 := apply_mod_op_ok env fuel op s hok htar
    cases ha : apply_mod_op env fuel op s with
    | undefined su => rw [ha] at h0; exact h0
    | out_of_fuel su => rw [ha] at h0; exact h0
    | ok s2 =>
      rw [ha] at h0 hk0
      exact ih s2 hk0.1 hk0.2 h0

theorem mstate_ord_init : mstate_ord mstate.init := by
  refine ⟨?_, ?_, ?_⟩
  · intro a ra h; cases h
  · intro t ht; cases ht
  · intro g hg; cases hg

theorem order_ok_path (g : registry_t) (h : order_ok g) (a b : modptr)
    (hp : Relation.TransGen (dep_edge g) a b) : g.modules.indexOf b < g.modules.indexOf a := by
  induction hp with
  | single hab =>
    obtain ⟨ra, hra, hb⟩ := hab
    exact h a ra hra _ hb
  | tail _ hbc ih =>
    obtain ⟨rb, hrb, hc⟩ := hbc
    exact Nat.lt_trans (h _ rb hrb _ hc) ih

/-- C26: take any sequence of `module_load`, `module_request`,
`module_locate_symbol` and `module_unload` calls from the empty registry, with
any init callbacks (lookups and nested loads included).  In the state after
it, and in every registry an init or deinit callback saw on the way, also on a
run that breaks off, every edge `a -> b` of the dependency graph (`b` in the
`deplist` of the allocated module `a`) goes to a registered module `b` that
comes before `a` in the list `modules` (a module `a` that is still loading is
not in the list and counts as behind all that are); so no module requires
itself and no path of edges leads from a module back to it. -/
theorem dependency_order_invariant (env : env_t) (fuel : Nat) (ops : List mod_op) :
    (∀ s, run_mod_ops env fuel ops mstate.init = res_t.ok s →
      (∀ a b, dep_edge s.view a b →
        b ∈ s.modules ∧ s.modules.indexOf b < s.modules.indexOf a ∧ a ≠ b) ∧
      ∀ a, ¬ Relation.TransGen (dep_edge s.view) a a) ∧
    ∀ g ∈ (run_mod_ops env fuel ops mstate.init).reached.seen,
      (∀ a b, dep_edge g a b →
        b ∈ g.modules ∧ g.modules.indexOf b < g.modules.indexOf a ∧ a ≠ b) ∧
      ∀ a, ¬ Relation.TransGen (dep_edge g) a a := by
  have hprops : ∀ g : registry_t, order_ok g →
      (∀ a b, dep_edge g a b →
        b ∈ g.modules ∧ g.modules.indexOf b < g.modules.indexOf a ∧ a ≠ b) ∧
      ∀ a, ¬ Relation.TransGen (dep_edge g) a a := by
    intro g hg
    constructor
    · rintro a b ⟨ra, hra, hb⟩
      have hlt := hg a ra hra b hb
      refine ⟨List.indexOf_lt_length.mp (Nat.lt_of_lt_of_le hlt List.indexOf_le_length), hlt, ?_⟩
      intro hab
      rw [hab] at hlt
      exact Nat.lt_irrefl _ hlt
    · intro a hp
      exact Nat.lt_irrefl _ (order_ok_path g hg a a hp)
  have h := run_mod_ops_ord env fuel ops mstate.init mstate_ok_init rfl mstate_ord_init
  constructor
  · intro s hs
    rw [hs] at h
    exact hprops s.view h.1
  · intro g hg
    cases hr : run_mod_ops env fuel ops mstate.init with
    | ok s =>
      rw [hr] at h hg
      exact hprops g (h.2.2 g hg)
    | undefined su =>
      rw [hr] at h hg
      exact hprops g (h g hg)
    | out_of_fuel su =>
      rw [hr] at h hg
      exact hprops g (h g hg)

theorem dependency_order_invariant_witness :
    ∃ s, run_mod_ops demo_env 10 demo_run mstate.init = res_t.ok s ∧
      (∀ a b, dep_edge s.view a b →
        b ∈ s.modules ∧ s.modules.indexOf b < s.modules.indexOf a ∧ a ≠ b) ∧
      ∀ a, ¬ Relation.TransGen (dep_edge s.view) a a :=
  (res_t_exists_of_is_ok _ demo_run_is_ok).elim
    (fun s hs => ⟨s, hs, (dependency_order_invariant demo_env 10 demo_run).1 s hs⟩)

/-! ## Termination of the unload cascade -/

theorem cycle_heap_cases (a : modptr) (ra : module_t) (h : cycle_heap a = some ra) :
    (a = 1 ∧ ra = cycle_a) ∨ (a = 2 ∧ ra = cycle_b) := by
  match a, h with
  | 0, h => cases h
  | 1, h => exact Or.inl ⟨rfl, (Option.some.inj h).symm⟩
  | 2, h => exact Or.inr ⟨rfl, (Option.some.inj h).symm⟩
  | n + 3, h => cases h

theorem cycle_state_ok : mstate_ok cycle_state := by
  rw [mstate_ok_iff]
  refine ⟨?_, by decide, ?_, ?_, ?_, ?_⟩
  · intro a ra ha
    rcases cycle_heap_cases a ra ha with ⟨h1, h2⟩ | ⟨h1, h2⟩
    · subst h1; subst h2
      refine ⟨by decide, by decide, ?_, ?_⟩
      · intro b hb
        have hb2 : b = 2 := by simpa [cycle_a] using hb
        subst hb2
        exact ⟨cycle_b, rfl, by decide⟩
      · intro b hb
        have hb2 : b = 2 := by simpa [cycle_a] using hb
        subst hb2
        exact ⟨cycle_b, rfl, by decide⟩
    · subst h1; subst h2
      refine ⟨by decide, by decide, ?_, ?_⟩
      · intro b hb
        have hb2 : b = 1 := by simpa [cycle_b] using hb
        subst hb2
        exact ⟨cycle_a, rfl, by decide⟩
      · intro b hb
        have hb2 : b = 1 := by simpa [cycle_b] using hb
        subst hb2
        exact ⟨cycle_a, rfl, by decide⟩
  · intro m hm
    have hm2 : m = 1 ∨ m = 2 := by simpa [cycle_state] using hm
    rcases hm2 with hm2 | hm2 <;> subst hm2 <;> rfl
  · intro t ht
    cases ht
  · intro g hg
    cases hg
  · intro p hp
    have hp3 : 3 ≤ p := hp
    show cycle_heap p = none
    match p, hp3 with
    | 0, h => exact absurd h (by decide)
    | 1, h => exact absurd h (by decide)
    | 2, h => exact absurd h (by decide)
    | n + 3, _ => rfl

theorem cycle_state_loops (fuel : Nat) :
    module_unload fuel (some 1) cycle_state = res_t.out_of_fuel cycle_state ∧
      module_unload fuel (some 2) cycle_state = res_t.out_of_fuel cycle_state ∧
      unload_dephost fuel 1 2 cycle_state = res_t.out_of_fuel cycle_state ∧
      unload_dephost fuel 2 1 cycle_state = res_t.out_of_fuel cycle_state := by
  have ha : cycle_state.heap 1 = some cycle_a := rfl
  have hb : cycle_state.heap 2 = some cycle_b := rfl
  have hah : cycle_a.dephost = [2] := rfl
  have hbh : cycle_b.dephost = [1] := rfl
  induction fuel with
  | zero => exact ⟨rfl, rfl, rfl, rfl⟩
  | succ n ih =>
    obtain ⟨h1, h2, h3, h4⟩ := ih
    refine ⟨?_, ?_, ?_, ?_⟩
    · rw [module_unload]
      simp only [ha, hah, h3]
    · rw [module_unload]
      simp only [hb, hbh, h4]
    · rw [unload_dephost]
      simp only [ha, h2]
    · rw [unload_dephost]
      simp only [hb, h1]

/-- C24 fails on a registry with a cycle.  The state in which `a` and `b` are
registered and require each other satisfies the invariant of the module loader
(it is symmetric, closed and free of duplicates), and `module_unload(a)` does
not return in it: the first loop of `module_unload(a)` calls `module_unload(b)`,
whose first loop calls `module_unload(a)`, before either has changed the
state. -/
theorem module_unload_cycle_never_returns :
    mstate_ok cycle_state ∧ dep_symmetric cycle_state.view ∧ never_returns 1 cycle_state :=
  ⟨cycle_state_ok, (reg_ok_symmetric _ cycle_state_ok.1).2, fun fuel => (cycle_state_loops fuel).1⟩

theorem dephost_length_le_brk (s : mstate) (hok : mstate_ok s) (a : modptr) (ra : module_t)
    (ha : s.heap a = some ra) : ra.dephost.length ≤ s.brk := by
  have hedges := ((mstate_ok_iff s).mp hok).1
  have hfresh := ((mstate_ok_iff s).mp hok).2.2.2.2.2
  have hsub : ra.dephost ⊆ List.range s.brk := by
    intro n hn
    rw [List.mem_range]
    by_contra hlt
    have hlive := edges_ok_live_host s.heap hedges a n ra ha hn
    rw [hfresh n (Nat.le_of_not_lt hlt)] at hlive
    cases hlive
  have := (List.Nodup.subperm (hedges a ra ha).2.1 hsub).length_le
  rwa [List.length_range] at this

theorem unload_deplist_not_out_of_fuel (m : modptr) (l : List modptr) :
    ∀ s, (unload_deplist m l s).is_out_of_fuel = false := by
  induction l with
  | nil => intro s; rfl
  | cons hm rest ih =>
    intro s
    rw [unload_deplist]
    cases hhm : s.heap hm with
    | none => rfl
    | some hr => exact ih _

theorem unload_after_hosts_not_out_of_fuel (m : modptr) (s : mstate) :
    (unload_after_hosts m s).is_out_of_fuel = false := by
  unfold unload_after_hosts
  cases hm : s.heap m with
  | none => rfl
  | some mr =>
    simp only []
    have h0 := unload_deplist_not_out_of_fuel m mr.deplist s
    cases hl : unload_deplist m mr.deplist s with
    | undefined su => rfl
    | out_of_fuel su => rw [hl] at h0; cases h0
    | ok s2 =>
      simp only [unload_finish]
      cases hm2 : s2.heap m with
      | none => rfl
      | some mr2 => rfl

/-- The first loop of `module_unload(m)` ends within the bound if the unloads
of modules of lower rank do. -/
theorem unload_dephost_bound (r : modptr → Nat) (B k : Nat)
    (hP : ∀ s m, mstate_ok s → s.modtarget = none → s.brk = B →
      (∀ a ra, s.heap a = some ra → ∀ n ∈ ra.dephost, r n < r a) → r m ≤ k →
      ∀ fuel, (k + 1) * (B + 1) ≤ fuel → (module_unload fuel (some m) s).is_out_of_fuel = false) :
    ∀ (j : Nat) (s : mstate) (m n : modptr) (mr : module_t) (rest : List modptr), mstate_ok s →
      s.modtarget = none → s.brk = B →
      (∀ a ra, s.heap a = some ra → ∀ n ∈ ra.dephost, r n < r a) →
      s.heap m = some mr → mr.dephost = n :: rest → r m ≤ k + 1 → (n :: rest).length ≤ j →
      ∀ fuel, (k + 1) * (B + 1) + j ≤ fuel → (unload_dephost fuel m n s).is_out_of_fuel = false := by
  intro j
  induction j with
  | zero =>
    intro s m n mr rest _ _ _ _ _ _ _ hlen
    simp at hlen
  | succ j ih =>
    intro s m n mr rest hok htar hbrk hval hmr hdh hrm hlen fuel hfuel
    cases fuel with
    | zero => omega
    | succ f =>
      rw [unload_dephost]
      simp only [hmr]
      have hrn : r n ≤ k := by
        have := hval m mr hmr n (by rw [hdh]; exact List.mem_cons_self _ _)
        omega
      have h0 := hP s n hok htar hbrk hval hrn f (by omega)
      have hk0 := (module_unload_ok f).1 n s hok htar
      cases hu : module_unload f (some n) s with
      | undefined su => rfl
      | out_of_fuel su => rw [hu] at h0; cases h0
      | ok s2 =>
        rw [hu] at hk0
        obtain ⟨a1, a2⟩ := hk0
        simp only []
        have hnd : (n :: rest).Nodup := hdh ▸ (((mstate_ok_iff s).mp hok).1 m mr hmr).2.1
        have hnext : node_next n mr.dephost = rest.head? := by
          rw [hdh]; simp [node_next]
        rw [hnext]
        cases hrest : rest with
        | nil => rfl
        | cons tn rest2 =>
          simp only [List.head?_cons]
          cases hmr2 : s2.heap m with
          | none => rfl
          | some mr2 =>
            simp only []
            cases hf : node_find tn mr2.dephost with
            | none => rfl
            | some k2 =>
              simp only []
              obtain ⟨r0, hr0, _, hsub⟩ := a1.2.1 m mr2 hmr2
              rw [hmr] at hr0; cases hr0
              rw [hdh, hrest] at hsub
              have hnot := not_mem_dephost_of_freed s2 a1.1 m n mr2 hmr2 a2
              have hsub2 := sublist_cons_of_not_mem n mr2.dephost _ hsub hnot
              rw [hrest] at hnd
              have htn : tn ∉ rest2 := (List.nodup_cons.mp (List.nodup_cons.mp hnd).2).1
              obtain ⟨l1, hl1⟩ := sublist_cons_head tn mr2.dephost rest2 hsub2
                (node_find_some_mem tn mr2.dephost k2 hf) htn
              have hval2 : ∀ a ra, s2.heap a = some ra → ∀ n ∈ ra.dephost, r n < r a := by
                intro a ra ha x hx
                obtain ⟨ra0, hra0, _, hs0⟩ := a1.2.1 a ra ha
                exact hval a ra0 hra0 x (hs0.subset hx)
              have hlen2 : (tn :: l1).length ≤ j := by
                have := hsub2.length_le
                rw [hl1] at this
                rw [hrest] at hlen
                simp only [List.length_cons] at this hlen ⊢
                omega
              exact ih s2 m tn mr2 l1 a1.1 a1.2.2.1 (a1.2.2.2.1.trans hbrk) hval2 hmr2 hl1 hrm
                hlen2 f (by omega)

/-- The unload of a module ends within a bound given by its rank and the
number of blocks handed out, if the rank falls along the `dephost` lists. -/
theorem module_unload_bound (r : modptr → Nat) (B : Nat) :
    ∀ (k : Nat) (s : mstate) (m : modptr), mstate_ok s → s.modtarget = none → s.brk = B →
      (∀ a ra, s.heap a = some ra → ∀ n ∈ ra.dephost, r n < r a) → r m ≤ k →
      ∀ fuel, (k + 1) * (B + 1) ≤ fuel → (module_unload fuel (some m) s).is_out_of_fuel = false := by
  intro k
  induction k with
  | zero =>
    intro s m hok htar hbrk hval hrm fuel hfuel
    cases fuel with
    | zero => omega
    | succ f =>
      rw [module_unload]
      cases hmr : s.heap m with
      | none => rfl
      | some mr =>
        simp only []
        cases hdh : mr.dephost with
        | nil => exact unload_after_hosts_not_out_of_fuel m s
        | cons n rest =>
          have := hval m mr hmr n (by rw [hdh]; exact List.mem_cons_self _ _)
          omega
  | succ k ih =>
    intro s m hok htar hbrk hval hrm fuel hfuel
    cases fuel with
    | zero =>
      rw [Nat.succ_mul] at hfuel
      omega
    | succ f =>
      rw [module_unload]
      cases hmr : s.heap m with
      | none => rfl
      | some mr =>
        simp only []
        cases hdh : mr.dephost with
        | nil => exact unload_after_hosts_not_out_of_fuel m s
        | cons n rest =>
          simp only []
          have hlen : (n :: rest).length ≤ B := by
            have := dephost_length_le_brk s hok m mr hmr
            rw [hdh, hbrk] at this
            exact this
          have hf : (k + 1) * (B + 1) + B ≤ f := by
            rw [Nat.succ_mul] at hfuel
            omega
          have h0 := unload_dephost_bound r B k ih B s m n mr rest hok htar hbrk hval hmr hdh hrm
            hlen f hf
          cases hl : unload_dephost f m n s with
          | undefined su => rfl
          | out_of_fuel su => rw [hl] at h0; cases h0
          | ok s2 => exact unload_after_hosts_not_out_of_fuel m s2

/-- In a sound registry without a cycle, the number of modules that require a
module, directly or through others, is a rank that falls along the `dephost`
lists. -/
theorem rank_of_acyclic (s : mstate) (hok : mstate_ok s)
    (hac : ∀ a, ¬ Relation.TransGen (dep_edge s.view) a a) :
    ∃ r : modptr → Nat, ∀ a ra, s.heap a = some ra → ∀ n ∈ ra.dephost, r n < r a := by
  classical
  have hedges := ((mstate_ok_iff s).mp hok).1
  have hfresh := ((mstate_ok_iff s).mp hok).2.2.2.2.2
  refine ⟨fun a => ((Finset.range s.brk).filter
    (fun x => Relation.TransGen (dep_edge s.view) x a)).card, ?_⟩
  intro a ra ha n hn
  obtain ⟨rn, hrn, han⟩ := (hedges a ra ha).2.2.2 n hn
  have hedge : dep_edge s.view n a := ⟨rn, hrn, han⟩
  have hlt : n < s.brk := by
    by_contra hge
    rw [hfresh n (Nat.le_of_not_lt hge)] at hrn
    cases hrn
  apply Finset.card_lt_card
  rw [Finset.ssubset_iff_of_subset]
  · refine ⟨n, ?_, ?_⟩
    · simp only [Finset.mem_filter, Finset.mem_range]
      exact ⟨hlt, Relation.TransGen.single hedge⟩
    · simp only [Finset.mem_filter, Finset.mem_range, not_and]
      intro _
      exact hac n
  · intro x hx
    simp only [Finset.mem_filter, Finset.mem_range] at hx ⊢
    exact ⟨hx.1, Relation.TransGen.tail hx.2 hedge⟩

/-- C24, for registries without a cycle: in every state that satisfies the
invariant of the module loader, with no load under way, and whose dependency
graph has no path from a module back to it, `module_unload(m)` ends: there is a
bound on the nested calls from which on the outcome is the same, and it is a
return or the read of freed memory of C2, never the lack of a result. -/
theorem module_unload_terminates (s : mstate) (m : modptr) (hok : mstate_ok s)
    (htar : s.modtarget = none) (hac : ∀ a, ¬ Relation.TransGen (dep_edge s.view) a a) :
    ∃ bound, ∀ fuel, bound ≤ fuel →
      (module_unload fuel (some m) s).is_out_of_fuel = false ∧
        module_unload fuel (some m) s = module_unload bound (some m) s := by
  obtain ⟨r, hr⟩ := rank_of_acyclic s hok hac
  have hb := module_unload_bound r s.brk (r m) s m hok htar rfl hr (Nat.le_refl _)
    ((r m + 1) * (s.brk + 1)) (Nat.le_refl _)
  refine ⟨(r m + 1) * (s.brk + 1), ?_⟩
  intro fuel hfuel
  obtain ⟨d, hd⟩ := Nat.exists_eq_add_of_le hfuel
  have heq := module_unload_add _ (some m) s hb d
  rw [hd, heq]
  exact ⟨hb, rfl⟩

theorem res_inv_reached_target (r : res_t mstate)
    (h : res_inv (fun s1 => mstate_ok s1 ∧ s1.modtarget = none) r) (hr : r.is_ok = true) :
    r.reached.modtarget = none := by
  cases r with
  | ok s => exact h.2
  | undefined s => cases hr
  | out_of_fuel s => cases hr

theorem res_ord_reached (r : res_t mstate) (h : res_ord (fun s1 => mstate_ord s1) r)
    (hr : r.is_ok = true) : order_ok r.reached.view := by
  cases r with
  | ok s => exact h.1
  | undefined s => cases hr
  | out_of_fuel s => cases hr

theorem module_unload_terminates_witness :
    ∃ bound, ∀ fuel, bound ≤ fuel →
      (module_unload fuel (some 1) demo_chain_state).is_out_of_fuel = false ∧
        module_unload fuel (some 1) demo_chain_state =
          module_unload bound (some 1) demo_chain_state :=
  module_unload_terminates demo_chain_state 1
    (res_inv_reached _ (run_mod_ops_ok demo_env 10 demo_chain mstate.init mstate_ok_init rfl)
      demo_chain_10)
    (res_inv_reached_target _
      (run_mod_ops_ok demo_env 10 demo_chain mstate.init mstate_ok_init rfl) demo_chain_10)
    (fun a hp => Nat.lt_irrefl _ (order_ok_path _
      (res_ord_reached _
        (run_mod_ops_ord demo_env 10 demo_chain mstate.init mstate_ok_init rfl mstate_ord_init)
        demo_chain_10) a a hp))

